import Mathlib

/-!
# Course timetabling solvers: a shallow embedding

`ConsoleApplication1.cpp` holds two programs.  The first (namespace `First`)
is the chronological backtracking solver `solve` / `check_constraints`
over index triples.  The second (namespace `Second`, the part after the
`data loader.cpp` marker) is the tracker based solver `backtrack` with the
four busy maps and the minimum-remaining-values selection.

Conventions of the embedding.
* `int` fields are `Int`; loop indices are `Nat` and are cast when stored.
* `std::string` is `String`; `s.find(p) != string::npos` is `strContains s p`.
* `std::vector` is `List`; the global tables are passed explicitly.
* A read outside a vector is undefined in the source.  `solve` returns
  `none` for the one read that depends on input data
  (`sections[s.sectionIndex]`); the other reads are in range by construction.
* The global `variables` of the second program is the parameter `vars`.
* Library calls: `std::shuffle` is a parameter of `buildDomains` with the
  contract `IsShuffle`; `std::stoi` is the function `stoi`, whose exceptions
  are the errors of `Except`.
-/

/-- The test `hay.find(pat) != string::npos` on character lists. -/
def charsContain (pat : List Char) : List Char → Bool
  | [] => pat.isEmpty
  | c :: cs => pat.isPrefixOf (c :: cs) || charsContain pat cs

/-- The test `s.find(pat) != string::npos`. -/
def strContains (s pat : String) : Bool :=
  charsContain pat.toList s.toList

/-- The read `xs[i]` for an `int` index; `none` when the index is out of range. -/
def readAt {α : Type} (xs : List α) (i : Int) : Option α :=
  if i < 0 then none else xs[i.toNat]?

namespace First

structure TimeSlot where
  id : Int
  day : String
  startTime : String
  endTime : String
deriving DecidableEq, Repr

structure Room where
  id : String
  building : String
  space : String
  capacity : Int
  type : String
deriving DecidableEq, Repr

structure Instructor where
  id : Int
  name : String
  preferredSlots : String
  qualifiedCourses : List String
deriving DecidableEq, Repr

/-- The `map<string, string>` of course code to role is an association list;
`qual_map.find(code)` is `List.lookup code`. -/
structure TA where
  id : Int
  name : String
  preferredSlots : String
  qualifiedCourses : List (String × String)
deriving DecidableEq, Repr

structure Section where
  faculty : String
  year : Int
  dept : String
  groupNumber : Int
  sectionNumber : Int
  studentNumber : Int
deriving DecidableEq, Repr

structure Course where
  year : Int
  semester : Int
  specialization : String
  code : String
  title : String
  lecSlots : Int
  tutSlots : Int
  labSlots : Int
deriving DecidableEq, Repr

/-- The field `instance` of the source is `inst` here (reserved word). -/
structure Session where
  type : String
  courseCode : String
  sectionIndex : Int
  inst : Int
deriving DecidableEq, Repr

structure Assignment where
  timeId : Int
  roomIndex : Int
  teacherIndex : Int
deriving DecidableEq, Repr

/-- The default member initialisers `{ -1, -1, -1 }`. -/
def unset : Assignment := ⟨-1, -1, -1⟩

/-- The global tables read by `solve`. -/
structure Catalog where
  timeSlots : List TimeSlot
  rooms : List Room
  instructors : List Instructor
  tas : List TA
  sections : List Section
deriving Repr

/-- Source lines 251-267. -/
def match_room (s : Session) (room : Room) (sec : Section) : Bool :=
  if room.capacity < sec.studentNumber then false
  else if s.type == "Lecture" || s.type == "Tutorial" then
    (room.type == "Classroom" || room.type == "Hall" || room.type == "Theater")
  else if strContains s.courseCode "PHY" then
    room.type == "PHY_LAB"
  else if strContains s.courseCode "Drawing" then
    (room.type == "Drawing Studio" || room.type == "FoE Drawing Lab")
  else
    (room.type == "Computer Lab" || room.type == "Lab")

/-- The read `sessions[i]`, in range wherever the solver uses it. -/
def sessAt (sessions : List Session) (i : Nat) : Session :=
  sessions.getD i ⟨"", "", 0, 0⟩

/-- The read `assignments[i]`, in range wherever the solver uses it. -/
def asgAt (assignments : List Assignment) (i : Nat) : Assignment :=
  assignments.getD i unset

/-- Source lines 269-297: three loops over the earlier positions, each
returning `false` at the first conflict. -/
def check_constraints (sessions : List Session) (assignments : List Assignment)
    (pos : Nat) : Bool :=
  let curr_session := sessAt sessions pos
  let curr_assign := asgAt assignments pos
  let curr_time := curr_assign.timeId
  let curr_room := curr_assign.roomIndex
  let curr_teacher := curr_assign.teacherIndex
  let curr_type := curr_session.type
  let curr_sec := curr_session.sectionIndex
  if (List.range pos).any (fun i =>
      (asgAt assignments i).timeId == curr_time &&
        (asgAt assignments i).roomIndex == curr_room) then false
  else if (List.range pos).any (fun i =>
      (sessAt sessions i).sectionIndex == curr_sec &&
        (asgAt assignments i).timeId == curr_time) then false
  else if (List.range pos).any (fun i =>
      ((asgAt assignments i).timeId == curr_time &&
        (asgAt assignments i).teacherIndex == curr_teacher) &&
      ((curr_type == "Lecture" && (sessAt sessions i).type == "Lecture") ||
        (curr_type != "Lecture" && (sessAt sessions i).type != "Lecture"))) then false
  else true

/-- The list `possible_times` of `solve`. -/
def possible_times (c : Catalog) : List Nat :=
  List.range c.timeSlots.length

/-- The list `possible_rooms` of `solve`. -/
def possible_rooms (c : Catalog) (s : Session) (sec : Section) : List Nat :=
  (List.range c.rooms.length).filter fun r =>
    match c.rooms[r]? with
    | some room => match_room s room sec
    | none => false

/-- The list `possible_teachers` of `solve`. -/
def possible_teachers (c : Catalog) (s : Session) : List Nat :=
  if s.type == "Lecture" then
    (List.range c.instructors.length).filter fun i =>
      match c.instructors[i]? with
      | some ins => ins.qualifiedCourses.contains s.courseCode
      | none => false
  else
    (List.range c.tas.length).filter fun ta_idx =>
      match c.tas[ta_idx]? with
      | some ta =>
        match ta.qualifiedCourses.lookup s.courseCode with
        | some role =>
          (s.type == "Tutorial" && strContains role "TUT") ||
            (s.type == "Lab" && strContains role "LAB")
        | none => false
      | none => false

/-- The triples visited by the three nested loops of `solve`, in loop order. -/
def candidates (c : Catalog) (s : Session) (sec : Section) : List (Nat × Nat × Nat) :=
  (possible_times c).flatMap fun t =>
    (possible_rooms c s sec).flatMap fun r =>
      (possible_teachers c s).map fun teach => (t, r, teach)

/-- The body of the nested loops of `solve` at position `pos`; `next` is the
call `solve(pos + 1)`.  The result `false` means the loops ran to their end. -/
def tryCandidates (sessions : List Session) (pos : Nat)
    (next : List Assignment → Option (Bool × List Assignment)) :
    List (Nat × Nat × Nat) → List Assignment → Option (Bool × List Assignment)
  | [], assignments => some (false, assignments)
  | (t, r, teach) :: rest, assignments =>
    let assignments1 := assignments.set pos ⟨t, r, teach⟩
    if check_constraints sessions assignments1 pos then
      match next assignments1 with
      | none => none
      | some (true, assignments2) => some (true, assignments2)
      | some (false, assignments2) => tryCandidates sessions pos next rest assignments2
    else tryCandidates sessions pos next rest assignments1

/-- Source lines 299-346, by recursion on the sessions from `pos` on
(`rest = sessions.drop pos`, so `rest = []` is `pos == sessions.size()`). -/
def solveFrom (c : Catalog) (sessions : List Session) :
    List Session → Nat → List Assignment → Option (Bool × List Assignment)
  | [], _, assignments => some (true, assignments)
  | s :: rest, pos, assignments =>
    match readAt c.sections s.sectionIndex with
    | none => none
    | some sec =>
      match tryCandidates sessions pos (solveFrom c sessions rest (pos + 1))
          (candidates c s sec) assignments with
      | none => none
      | some (true, assignments1) => some (true, assignments1)
      | some (false, assignments1) => some (false, assignments1.set pos unset)

/-- The call `solve(pos)` on the table `assignments`. -/
def solve (c : Catalog) (sessions : List Session) (pos : Nat)
    (assignments : List Assignment) : Option (Bool × List Assignment) :=
  solveFrom c sessions (sessions.drop pos) pos assignments

/-- The table after `assignments.resize(sessions.size(), { -1, -1, -1 })`. -/
def initAssignments (sessions : List Session) : List Assignment :=
  List.replicate sessions.length unset

/-- The call `solve(0)` of `main`. -/
def solve0 (c : Catalog) (sessions : List Session) : Option (Bool × List Assignment) :=
  solve c sessions 0 (initAssignments sessions)

end First


namespace First

/-- Frame of a call at position `pos`: the table keeps its length and its
entries below `pos`. -/
def FrameOK (pos : Nat) (a a' : List Assignment) : Prop :=
  a'.length = a.length ∧ ∀ i, i < pos → asgAt a' i = asgAt a i

/-- The assignment `x` is one of the triples `solve` enumerates for session `s`. -/
def Admissible (c : Catalog) (s : Session) (x : Assignment) : Prop :=
  ∃ sec, readAt c.sections s.sectionIndex = some sec ∧
    ∃ t r teach : Nat, (t, r, teach) ∈ candidates c s sec ∧
      x = ⟨(t : Int), (r : Int), (teach : Int)⟩

/-- Every session refers to an existing section. -/
def ValidSections (c : Catalog) (sessions : List Session) : Prop :=
  ∀ s, s ∈ sessions → (readAt c.sections s.sectionIndex).isSome = true

instance (c : Catalog) (sessions : List Session) : Decidable (ValidSections c sessions) := by
  unfold ValidSections
  infer_instance

end First

namespace First

/-- Position `i` of the table holds a triple enumerated for session `i` that
passes `check_constraints`. -/
def GoodAt (c : Catalog) (sessions : List Session) (a : List Assignment) (i : Nat) : Prop :=
  Admissible c (sessAt sessions i) (asgAt a i) ∧ check_constraints sessions a i = true

end First

/-! ## Second program: the tracker based solver -/

namespace Second

/-- The largest `size_t` of a 64 bit target, the start value of `bestSize`. -/
def SIZE_MAX : Nat := 2 ^ 64 - 1

structure SessionVar where
  id : String
  sectionId : String
  courseId : String
  type : String
  neededCapacity : Int
deriving DecidableEq, Repr

/-- A domain item (`using DomainItem = Assignment`). -/
structure Assignment where
  timeslotId : String
  roomId : String
  instructorId : String
  taId : String
deriving DecidableEq, Repr

/-- An `unordered_map<string, unordered_set<string>>`: `none` for an absent
key, otherwise the membership test of the set stored under the key. -/
abbrev BusyMap := String → Option (String → Bool)

/-- The map with no key. -/
def BusyMap.empty : BusyMap := fun _ => none

/-- The set `m[k]` (empty when the key is absent). -/
def BusyMap.setAt (m : BusyMap) (k : String) : String → Bool :=
  match m k with
  | some s => s
  | none => fun _ => false

/-- The map after evaluating `m[k]`: `operator[]` adds an empty set for an
absent key. -/
def BusyMap.touch (m : BusyMap) (k : String) : BusyMap :=
  fun k' => if k' = k then some (m.setAt k) else m k'

/-- The value of `m[k].count(x)`, without the effect on the key set. -/
def BusyMap.count (m : BusyMap) (k x : String) : Bool :=
  m.setAt k x

/-- The map after `m[k].insert(x)`. -/
def BusyMap.insert (m : BusyMap) (k x : String) : BusyMap :=
  fun k' => if k' = k then some (fun y => y == x || m.setAt k y) else m k'

/-- The map after `m[k].erase(x)`. -/
def BusyMap.erase (m : BusyMap) (k x : String) : BusyMap :=
  fun k' => if k' = k then some (fun y => y != x && m.setAt k y) else m k'

/-- The mutable globals of the search. -/
structure State where
  currentAssign : List (Option Assignment)
  instrBusy : BusyMap
  taBusy : BusyMap
  roomBusy : BusyMap
  sectionBusy : BusyMap

/-- The state `main` starts the search from: `n` unassigned variables and four
empty maps. -/
def initState (n : Nat) : State :=
  { currentAssign := List.replicate n none
    instrBusy := BusyMap.empty
    taBusy := BusyMap.empty
    roomBusy := BusyMap.empty
    sectionBusy := BusyMap.empty }

/-- The read `variables[i]`, in range wherever the solver uses it. -/
def varAt (vars : List SessionVar) (i : Nat) : SessionVar :=
  vars.getD i ⟨"", "", "", "", 0⟩

/-- The read `domains[i]`, in range when `domains` has one entry per variable. -/
def domAt (domains : List (List Assignment)) (i : Nat) : List Assignment :=
  domains.getD i []

/-- The read `currentAssign[i]`, in range when `currentAssign` has one entry
per variable. -/
def curAt (st : State) (i : Nat) : Option Assignment :=
  st.currentAssign.getD i none

/-- Source lines 634-655.  Each `busy[a.timeslotId]` goes through
`operator[]`, so the map read last may gain a key. -/
def canAssignVar (vars : List SessionVar) (varIdx : Nat) (a : Assignment)
    (st : State) : Bool × State :=
  let st1 := { st with roomBusy := st.roomBusy.touch a.timeslotId }
  if st.roomBusy.count a.timeslotId a.roomId then (false, st1)
  else
    let st2 := if a.instructorId == "" then st1
      else { st1 with instrBusy := st1.instrBusy.touch a.timeslotId }
    if a.instructorId != "" && st1.instrBusy.count a.timeslotId a.instructorId then
      (false, st2)
    else
      let st3 := if a.taId == "" then st2
        else { st2 with taBusy := st2.taBusy.touch a.timeslotId }
      if a.taId != "" && st2.taBusy.count a.timeslotId a.taId then (false, st3)
      else
        let v := varAt vars varIdx
        let st4 := { st3 with sectionBusy := st3.sectionBusy.touch a.timeslotId }
        if st3.sectionBusy.count a.timeslotId v.sectionId then (false, st4)
        else (true, st4)

/-- Source lines 657-663. -/
def doAssign (vars : List SessionVar) (varIdx : Nat) (a : Assignment)
    (st : State) : State :=
  { currentAssign := st.currentAssign.set varIdx (some a)
    roomBusy := st.roomBusy.insert a.timeslotId a.roomId
    instrBusy := if a.instructorId != "" then st.instrBusy.insert a.timeslotId a.instructorId
      else st.instrBusy
    taBusy := if a.taId != "" then st.taBusy.insert a.timeslotId a.taId else st.taBusy
    sectionBusy := st.sectionBusy.insert a.timeslotId (varAt vars varIdx).sectionId }

/-- Source lines 665-671. -/
def undoAssign (vars : List SessionVar) (varIdx : Nat) (a : Assignment)
    (st : State) : State :=
  { currentAssign := st.currentAssign.set varIdx none
    roomBusy := st.roomBusy.erase a.timeslotId a.roomId
    instrBusy := if a.instructorId != "" then st.instrBusy.erase a.timeslotId a.instructorId
      else st.instrBusy
    taBusy := if a.taId != "" then st.taBusy.erase a.timeslotId a.taId else st.taBusy
    sectionBusy := st.sectionBusy.erase a.timeslotId (varAt vars varIdx).sectionId }

/-- The inner loop of `selectUnassignedVar`: the number `legal` of domain items
of variable `i` accepted by `canAssignVar`, and the state after the calls. -/
def countLegal (vars : List SessionVar) (i : Nat) :
    List Assignment → State → Nat × State
  | [], st => (0, st)
  | d :: ds, st =>
    let r := canAssignVar vars i d st
    let rest := countLegal vars i ds r.2
    ((if r.1 then 1 else 0) + rest.1, rest.2)

/-- The outer loop of `selectUnassignedVar` over the indices `is`, from the
running values `best` and `bestSize`. -/
def selectLoop (vars : List SessionVar) (domains : List (List Assignment)) :
    List Nat → Int → Nat → State → Int × State
  | [], best, _, st => (best, st)
  | i :: is, best, bestSize, st =>
    if (curAt st i).isSome then selectLoop vars domains is best bestSize st
    else
      let r := countLegal vars i (domAt domains i) st
      if r.1 < bestSize then selectLoop vars domains is (i : Int) r.1 r.2
      else selectLoop vars domains is best bestSize r.2

/-- Source lines 674-684: returns `-1` or the chosen index. -/
def selectUnassignedVar (vars : List SessionVar) (domains : List (List Assignment))
    (st : State) : Int × State :=
  selectLoop vars domains (List.range vars.length) (-1) SIZE_MAX st

/-- The completion test at the head of `backtrack`. -/
def allAssigned (st : State) : Bool :=
  st.currentAssign.all fun x => x.isSome

/-- The loop over `domains[var]` in `backtrack`; `next` is the recursive call.
The result `false` means the loop ran to its end. -/
def tryDomain (vars : List SessionVar) (next : State → Option (Bool × State))
    (var : Nat) : List Assignment → State → Option (Bool × State)
  | [], st => some (false, st)
  | d :: ds, st =>
    let r := canAssignVar vars var d st
    if r.1 then
      match next (doAssign vars var d r.2) with
      | none => none
      | some (true, st2) => some (true, st2)
      | some (false, st2) => tryDomain vars next var ds (undoAssign vars var d st2)
    else tryDomain vars next var ds r.2

/-- Source lines 686-703 with a bound on the recursion depth; `none` when the
bound is reached. -/
def backtrackFuel (vars : List SessionVar) (domains : List (List Assignment)) :
    Nat → State → Option (Bool × State)
  | 0, _ => none
  | fuel + 1, st =>
    if allAssigned st then some (true, st)
    else
      let r := selectUnassignedVar vars domains st
      if r.1 = -1 then some (false, r.2)
      else tryDomain vars (backtrackFuel vars domains fuel) r.1.toNat
        (domAt domains r.1.toNat) r.2

/-- The call `backtrack()`: every recursive call follows a `doAssign` on an
unassigned variable, so the depth is at most the number of entries of
`currentAssign` plus one. -/
def backtrack (vars : List SessionVar) (domains : List (List Assignment))
    (st : State) : Option (Bool × State) :=
  backtrackFuel vars domains (st.currentAssign.length + 1) st

/-- The search as `main` runs it, from the initial state. -/
def backtrack0 (vars : List SessionVar) (domains : List (List Assignment)) :
    Option (Bool × State) :=
  backtrack vars domains (initState vars.length)

end Second

/-! ### Predicates on the states of the second program -/

namespace Second

/-- Same assignment vector and same membership (for every time slot and every
id) in each of the four maps; the key sets may differ. -/
def SameMembership (s t : State) : Prop :=
  t.currentAssign = s.currentAssign ∧
  (∀ k x, t.roomBusy.count k x = s.roomBusy.count k x) ∧
  (∀ k x, t.instrBusy.count k x = s.instrBusy.count k x) ∧
  (∀ k x, t.taBusy.count k x = s.taBusy.count k x) ∧
  (∀ k x, t.sectionBusy.count k x = s.sectionBusy.count k x)

/-- The decision of `canAssignVar` as a function of the memberships. -/
def isFree (vars : List SessionVar) (varIdx : Nat) (a : Assignment) (st : State) : Bool :=
  !st.roomBusy.count a.timeslotId a.roomId &&
  (a.instructorId == "" || !st.instrBusy.count a.timeslotId a.instructorId) &&
  (a.taId == "" || !st.taBusy.count a.timeslotId a.taId) &&
  !st.sectionBusy.count a.timeslotId (varAt vars varIdx).sectionId

/-- The number of unassigned entries of `currentAssign`. -/
def unassigned (st : State) : Nat :=
  st.currentAssign.countP fun x => x.isNone

end Second

namespace Second

/-- The id that assignment `a` of variable `i` occupies in `roomBusy`. -/
def roomRes (_ : Nat) (a : Assignment) : Option String := some a.roomId

/-- The id occupied in `instrBusy`, none for an empty `instructorId`. -/
def instrRes (_ : Nat) (a : Assignment) : Option String :=
  if a.instructorId != "" then some a.instructorId else none

/-- The id occupied in `taBusy`, none for an empty `taId`. -/
def taRes (_ : Nat) (a : Assignment) : Option String :=
  if a.taId != "" then some a.taId else none

/-- The id occupied in `sectionBusy`. -/
def sectionRes (vars : List SessionVar) (i : Nat) (_ : Assignment) : Option String :=
  some (varAt vars i).sectionId

/-- The effect of `doAssign` on one map. -/
def occupy (m : BusyMap) (k : String) : Option String → BusyMap
  | some x => m.insert k x
  | none => m

/-- The effect of `undoAssign` on one map. -/
def release (m : BusyMap) (k : String) : Option String → BusyMap
  | some x => m.erase k x
  | none => m

/-- The map `m` holds exactly the ids occupied by the assigned variables. -/
def Tracks (res : Nat → Assignment → Option String) (m : BusyMap)
    (cur : List (Option Assignment)) : Prop :=
  ∀ k x, m.count k x = true ↔
    ∃ i a, cur.getD i none = some a ∧ a.timeslotId = k ∧ res i a = some x

/-- No two assigned variables occupy the same id in the same time slot. -/
def Apart (res : Nat → Assignment → Option String) (cur : List (Option Assignment)) : Prop :=
  ∀ i j a b x, i ≠ j → cur.getD i none = some a → cur.getD j none = some b →
    a.timeslotId = b.timeslotId → res i a = some x → res j b ≠ some x

/-- The tracker is in lock-step with the partial assignment, and the partial
assignment has no conflict. -/
structure Inv (vars : List SessionVar) (st : State) : Prop where
  len : st.currentAssign.length = vars.length
  room : Tracks roomRes st.roomBusy st.currentAssign
  instr : Tracks instrRes st.instrBusy st.currentAssign
  ta : Tracks taRes st.taBusy st.currentAssign
  sect : Tracks (sectionRes vars) st.sectionBusy st.currentAssign
  roomApart : Apart roomRes st.currentAssign
  instrApart : Apart instrRes st.currentAssign
  taApart : Apart taRes st.currentAssign
  sectApart : Apart (sectionRes vars) st.currentAssign

/-- Every assigned variable holds an item of its own domain. -/
def InDomain (domains : List (List Assignment)) (st : State) : Prop :=
  ∀ i a, curAt st i = some a → a ∈ domAt domains i

/-- The count `legal` that `selectUnassignedVar` computes for variable `i`. -/
def legalCount (vars : List SessionVar) (domains : List (List Assignment)) (st : State)
    (i : Nat) : Nat :=
  (domAt domains i).countP fun d => isFree vars i d st

end Second

namespace Second

/-- What a call of the search guarantees: a failed call restores the
assignment vector and the memberships, a successful call leaves no variable
unassigned, and both keep the lock-step invariant and the domain membership. -/
def CallOK (vars : List SessionVar) (domains : List (List Assignment))
    (s : State) (b : Bool) (s' : State) : Prop :=
  (b = false → SameMembership s s') ∧ (b = true → allAssigned s' = true) ∧
    (Inv vars s → Inv vars s') ∧ (InDomain domains s → InDomain domains s')

end Second

namespace Second

/-- The outcome of the search started by `main`: the value returned by
`backtrack` and the final `currentAssign`. -/
def backtrackResult (vars : List SessionVar) (domains : List (List Assignment)) :
    Option (Bool × List (Option Assignment)) :=
  (backtrack0 vars domains).map fun p => (p.1, p.2.currentAssign)

end Second

namespace Second

/-- A choice `σ` of one domain item per variable without conflict: no two
variables share (time slot, room); no two variables of the same section share
a time slot; no two variables share a time slot together with the same
non-empty instructor id or the same non-empty TA id. -/
structure Solution (vars : List SessionVar) (domains : List (List Assignment))
    (σ : Nat → Assignment) : Prop where
  mem : ∀ i, i < vars.length → σ i ∈ domAt domains i
  room : ∀ i j, i < vars.length → j < vars.length → i ≠ j →
    ¬ ((σ i).timeslotId = (σ j).timeslotId ∧ (σ i).roomId = (σ j).roomId)
  sect : ∀ i j, i < vars.length → j < vars.length → i ≠ j →
    (varAt vars i).sectionId = (varAt vars j).sectionId →
    (σ i).timeslotId ≠ (σ j).timeslotId
  instr : ∀ i j, i < vars.length → j < vars.length → i ≠ j →
    ¬ ((σ i).timeslotId = (σ j).timeslotId ∧ (σ i).instructorId = (σ j).instructorId ∧
      (σ i).instructorId ≠ "")
  ta : ∀ i j, i < vars.length → j < vars.length → i ≠ j →
    ¬ ((σ i).timeslotId = (σ j).timeslotId ∧ (σ i).taId = (σ j).taId ∧ (σ i).taId ≠ "")

/-- The partial assignment of the state agrees with `σ`. -/
def Extends (st : State) (σ : Nat → Assignment) : Prop :=
  ∀ i a, curAt st i = some a → a = σ i

end Second

namespace Second

/-- Nothing is assigned among `n` variables and nothing is occupied. -/
def SameAsInit (n : Nat) (st : State) : Prop :=
  st.currentAssign = List.replicate n none ∧
    ∀ k x, st.roomBusy.count k x = false ∧ st.instrBusy.count k x = false ∧
      st.taBusy.count k x = false ∧ st.sectionBusy.count k x = false

end Second

/-! ### First program: the session generator of `main` -/

namespace First

end First

/-! ### Second program: tables, variables and domains -/

namespace Second

structure Course where
  id : String
  name : String
deriving DecidableEq, Repr

/-- The field `end` of the source is `endTime` here (reserved word). -/
structure TimeSlot where
  id : String
  day : String
  start : String
  endTime : String
deriving DecidableEq, Repr

structure Room where
  id : String
  type : String
  capacity : Int
deriving DecidableEq, Repr

/-- The `unordered_set<string>` of course ids is a list, used only through
`empty()` and `count`. -/
structure Instructor where
  id : String
  name : String
  qualCourses : List String
deriving DecidableEq, Repr

structure TA where
  id : String
  name : String
  qualRoles : List String
  qualCourses : List String
deriving DecidableEq, Repr

structure Section where
  id : String
  courseId : String
  size : Int
  sessionTypes : List String
deriving DecidableEq, Repr

/-- The global tables read by `buildVariablesFromSections` and `buildDomains`. -/
structure Tables where
  timeslots : List TimeSlot
  rooms : List Room
  instructors : List Instructor
  tas : List TA
  sections : List Section
deriving Repr

/-- The characters of `s` after `toupper` on each, as the lambda `normalize`
of `roomMatchesType` computes them. -/
def upperChars (s : String) : List Char :=
  s.toList.map Char.toUpper

/-- Source lines 553-571. -/
def roomMatchesType (r : Room) (requiredType : String) : Bool :=
  let R := upperChars r.type
  let Q := upperChars requiredType
  if charsContain "LAB".toList Q then
    charsContain "LAB".toList R || charsContain "COMPUTER".toList R ||
      charsContain "PHY".toList R
  else if charsContain "CLASS".toList Q || charsContain "LECT".toList Q then
    charsContain "CLASS".toList R || charsContain "LECT".toList R
  else R == Q

/-- The string `requiredRoomType` of `buildDomains`. -/
def requiredRoomType (v : SessionVar) : String :=
  if v.type == "LAB" then "LAB" else "CLASSROOM"

/-- The vector `candidateRooms` of `buildDomains`. -/
def candidateRooms (cat : Tables) (v : SessionVar) : List Room :=
  cat.rooms.filter fun r =>
    decide (r.capacity ≥ v.neededCapacity) && roomMatchesType r (requiredRoomType v)

/-- The instructors accepted for `v`, as pairs (instructorId, taId). -/
def instructorIds (cat : Tables) (v : SessionVar) : List (String × String) :=
  (cat.instructors.filter fun ins =>
    ins.qualCourses.isEmpty || ins.qualCourses.contains v.courseId).map fun ins =>
      (ins.id, "")

/-- The TAs accepted for `v` in the role `role`, as pairs (instructorId, taId). -/
def taIds (cat : Tables) (v : SessionVar) (role : String) : List (String × String) :=
  (cat.tas.filter fun t =>
    (t.qualRoles.isEmpty || t.qualRoles.contains role) &&
      (t.qualCourses.isEmpty || t.qualCourses.contains v.courseId)).map fun t =>
        ("", t.id)

/-- The TAs accepted in the fallback branch, where no role is required. -/
def taIdsAnyRole (cat : Tables) (v : SessionVar) : List (String × String) :=
  (cat.tas.filter fun t =>
    t.qualCourses.isEmpty || t.qualCourses.contains v.courseId).map fun t => ("", t.id)

/-- The staff pushed for one (time slot, room) pair, in push order, by the
branch of `buildDomains` that the type of `v` selects. -/
def staffIds (cat : Tables) (v : SessionVar) : List (String × String) :=
  if v.type == "LEC" then instructorIds cat v
  else if v.type == "TUT" then taIds cat v "TUT" ++ instructorIds cat v
  else if v.type == "LAB" then taIds cat v "LAB" ++ instructorIds cat v
  else instructorIds cat v ++ taIdsAnyRole cat v

/-- The items pushed to `domains[i]` by the nested loops, before the shuffle. -/
def rawDomain (cat : Tables) (v : SessionVar) : List Assignment :=
  cat.timeslots.flatMap fun ts =>
    (candidateRooms cat v).flatMap fun r =>
      (staffIds cat v).map fun p => (⟨ts.id, r.id, p.1, p.2⟩ : Assignment)

/-- The loop of `buildDomains` from index `i` on.  The call
`std::shuffle(first, last, std::mt19937(seed))` is the parameter `shuffle`. -/
def buildFrom (shuffle : Nat → List Assignment → List Assignment) (cat : Tables) :
    Nat → List SessionVar → List (List Assignment)
  | _, [] => []
  | i, v :: vs =>
    shuffle ((123 + i) % 2 ^ 32) (rawDomain cat v) :: buildFrom shuffle cat (i + 1) vs

/-- Source lines 576-628. -/
def buildDomains (shuffle : Nat → List Assignment → List Assignment) (cat : Tables)
    (vars : List SessionVar) : List (List Assignment) :=
  buildFrom shuffle cat 0 vars

/-- The contract of `std::shuffle`: the result is a permutation of the range. -/
def IsShuffle (shuffle : Nat → List Assignment → List Assignment) : Prop :=
  ∀ seed l, (shuffle seed l).Perm l

/-- Source lines 794-807. -/
def buildVariablesFromSections (sections : List Section) : List SessionVar :=
  sections.flatMap fun sec =>
    sec.sessionTypes.map fun st =>
      (⟨sec.id ++ "::" ++ st, sec.id, sec.courseId, st, sec.size⟩ : SessionVar)

end Second

namespace Second

/-- The ids of each staff table are non-empty and pairwise distinct, and so
are the ids of the time slots and of the rooms. -/
structure DistinctIds (cat : Tables) : Prop where
  slots : (cat.timeslots.map fun ts => ts.id).Nodup
  rooms : (cat.rooms.map fun r => r.id).Nodup
  instructors : (cat.instructors.map fun ins => ins.id).Nodup
  tas : (cat.tas.map fun t => t.id).Nodup
  slotIds : ∀ ts, ts ∈ cat.timeslots → ts.id ≠ ""
  roomIds : ∀ r, r ∈ cat.rooms → r.id ≠ ""
  instructorIds : ∀ ins, ins ∈ cat.instructors → ins.id ≠ ""
  taIds : ∀ t, t ∈ cat.tas → t.id ≠ ""

end Second

/-! ### The catalog loaders -/

/-- The exceptions of `std::stoi`. -/
inductive StoiError where
  | invalid_argument
  | out_of_range
deriving DecidableEq, Repr

/-- The test `isspace` of the C locale: codes 9 to 13 and 32. -/
def isSpaceC (c : Char) : Bool :=
  c.toNat == 32 || (9 ≤ c.toNat && c.toNat ≤ 13)

/-- The characters `std::stoi` converts: after the leading white space and an
optional sign, the longest run of decimal digits. -/
def stoiDigits (s : String) : List Char :=
  match s.toList.dropWhile isSpaceC with
  | c :: rest => if c.toNat == 45 || c.toNat == 43 then rest.takeWhile Char.isDigit
    else (c :: rest).takeWhile Char.isDigit
  | [] => []

/-- Whether the number starts with a minus sign. -/
def stoiNegative (s : String) : Bool :=
  match s.toList.dropWhile isSpaceC with
  | c :: _ => c.toNat == 45
  | [] => false

/-- The library function `std::stoi(str)` (base 10, 32 bit `int`): it throws
`invalid_argument` when no digit can be converted and `out_of_range` when the
value does not fit; characters after the digits are ignored. -/
def stoi (s : String) : Except StoiError Int :=
  if (stoiDigits s).isEmpty then Except.error StoiError.invalid_argument
  else
    let n : Nat := (stoiDigits s).foldl (fun acc c => acc * 10 + (c.toNat - 48)) 0
    let v : Int := if stoiNegative s then -(n : Int) else (n : Int)
    if v < -(2 : Int) ^ 31 ∨ (2 : Int) ^ 31 - 1 < v then Except.error StoiError.out_of_range
    else Except.ok v

/-- A loop over the data rows whose body may throw: `step` is the body, the
state holds the table filled so far and the carried values. -/
def loadRows {σ : Type} (step : σ → List String → Except StoiError σ) :
    List (List String) → σ → Except StoiError σ
  | [], s => Except.ok s
  | row :: rest, s =>
    match step s row with
    | Except.error e => Except.error e
    | Except.ok s' => loadRows step rest s'

/-- The cell `row[i]`, read only after the test on `row.size()`. -/
def cell (row : List String) (i : Nat) : String :=
  row.getD i ""

namespace First

/-- The body of the loop of `load_timeslots` (source lines 136-142). -/
def timeslotStep (acc : List TimeSlot) (row : List String) :
    Except StoiError (List TimeSlot) :=
  if row.length < 4 then Except.ok acc
  else
    match stoi (cell row 3) with
    | Except.error e => Except.error e
    | Except.ok id => Except.ok (acc ++ [⟨id, cell row 0, cell row 1, cell row 2⟩])

/-- Source lines 132-144 on the parsed rows `data`; row 0 is the header. -/
def load_timeslots (data : List (List String)) : Except StoiError (List TimeSlot) :=
  loadRows timeslotStep (data.drop 1) []

/-- The values carried from row to row by `load_sections`, and the table. -/
structure SectionLoad where
  curr_faculty : String
  curr_dept : String
  curr_year : Int
  curr_group : Int
  sections : List Section

/-- The body of the loop of `load_sections` (source lines 216-226). -/
def sectionStep (s : SectionLoad) (row : List String) : Except StoiError SectionLoad :=
  if row.length < 6 then Except.ok s
  else
    let faculty := if cell row 0 != "" then cell row 0 else s.curr_faculty
    match (if cell row 1 != "" then stoi (cell row 1) else Except.ok s.curr_year) with
    | Except.error e => Except.error e
    | Except.ok year =>
      let dept := if cell row 2 != "" then cell row 2 else s.curr_dept
      match (if cell row 3 != "" then stoi (cell row 3) else Except.ok s.curr_group) with
      | Except.error e => Except.error e
      | Except.ok group =>
        if cell row 4 != "" && cell row 5 != "" then
          match stoi (cell row 4) with
          | Except.error e => Except.error e
          | Except.ok sec_num =>
            match stoi (cell row 5) with
            | Except.error e => Except.error e
            | Except.ok stu_num =>
              Except.ok ⟨faculty, dept, year, group,
                s.sections ++ [⟨faculty, year, dept, group, sec_num, stu_num⟩]⟩
        else Except.ok ⟨faculty, dept, year, group, s.sections⟩

/-- Source lines 210-228 on the parsed rows. -/
def load_sections (data : List (List String)) : Except StoiError (List Section) :=
  match loadRows sectionStep (data.drop 1) ⟨"", "", 0, 0, []⟩ with
  | Except.error e => Except.error e
  | Except.ok s => Except.ok s.sections

/-- The values carried from row to row by `load_courses`, and the table. -/
structure CourseLoad where
  curr_year_c : Int
  curr_sem : Int
  curr_spec : String
  courses : List Course

/-- The body of the loop of `load_courses` (source lines 236-247). -/
def courseStep (s : CourseLoad) (row : List String) : Except StoiError CourseLoad :=
  if row.length < 8 then Except.ok s
  else
    match (if cell row 0 != "" then stoi (cell row 0) else Except.ok s.curr_year_c) with
    | Except.error e => Except.error e
    | Except.ok year =>
      match (if cell row 1 != "" then stoi (cell row 1) else Except.ok s.curr_sem) with
      | Except.error e => Except.error e
      | Except.ok sem =>
        let spec := if cell row 2 != "" then cell row 2 else s.curr_spec
        if cell row 3 == "" then Except.ok ⟨year, sem, spec, s.courses⟩
        else
          match stoi (cell row 5) with
          | Except.error e => Except.error e
          | Except.ok lec =>
            match stoi (cell row 6) with
            | Except.error e => Except.error e
            | Except.ok tut =>
              match stoi (cell row 7) with
              | Except.error e => Except.error e
              | Except.ok lab =>
                Except.ok ⟨year, sem, spec,
                  s.courses ++ [⟨year, sem, spec, cell row 3, cell row 4, lec, tut, lab⟩]⟩

/-- Source lines 230-249 on the parsed rows. -/
def load_courses (data : List (List String)) : Except StoiError (List Course) :=
  match loadRows courseStep (data.drop 1) ⟨0, 0, "", []⟩ with
  | Except.error e => Except.error e
  | Except.ok s => Except.ok s.courses

end First

namespace Second

/-- The key that `headerIndex` stores for a header cell: `tolower` on each
character. -/
def lowerStr (s : String) : String :=
  String.mk (s.toList.map Char.toLower)

/-- The map built by `headerIndex` (source lines 717-725), as a lookup: the
last column whose lower-cased name is `col`. -/
def headerIndex (headerRow : List String) (col : String) : Option Nat :=
  ((headerRow.enum.filter fun p => lowerStr p.2 == col).getLast?).map Prod.fst

/-- Source lines 709-715. -/
def getField (row : List String) (hdr : String → Option Nat) (col : String) : String :=
  match hdr col with
  | none => ""
  | some idx => row.getD idx ""

/-- The body of the loop over `Halls.csv` in `loadAllCSV` (source lines 750-753):
the capacity is converted before the test on the id. -/
def hallStep (hdr : String → Option Nat) (acc : List Room) (row : List String) :
    Except StoiError (List Room) :=
  let cap := getField row hdr "capacity"
  match (if cap == "" then Except.ok (0 : Int) else stoi cap) with
  | Except.error e => Except.error e
  | Except.ok capacity =>
    if getField row hdr "id" == "" then Except.ok acc
    else Except.ok (acc ++ [⟨getField row hdr "id", getField row hdr "type", capacity⟩])

/-- The part of `loadAllCSV` that reads `Halls.csv` (source lines 746-754), on
the rows returned by `loadCSV`. -/
def loadHalls (rows : List (List String)) : Except StoiError (List Room) :=
  match rows with
  | [] => Except.ok []
  | header :: rest => loadRows (hallStep (headerIndex header)) rest []

end Second

/-! ### The states the search of the second program passes through -/

namespace Second

/-- The states after each `canAssignVar` call of the inner loop of
`selectUnassignedVar` for variable `i`. -/
def countLegalStates (vars : List SessionVar) (i : Nat) :
    List Assignment → State → List State
  | [], _ => []
  | d :: ds, st =>
    let r := canAssignVar vars i d st
    r.2 :: countLegalStates vars i ds r.2

/-- The states after each `canAssignVar` call made by `selectUnassignedVar`
over the indices `is`; both branches of the comparison with `bestSize`
continue from the same state. -/
def selectStates (vars : List SessionVar) (domains : List (List Assignment)) :
    List Nat → State → List State
  | [], _ => []
  | i :: is, st =>
    if (curAt st i).isSome then selectStates vars domains is st
    else
      countLegalStates vars i (domAt domains i) st ++
        selectStates vars domains is (countLegal vars i (domAt domains i) st).2

/-- The states the loop over `domains[var]` in `backtrack` passes through:
after each `canAssignVar`, after each `doAssign`, the states of the recursive
call (`nextStates`), and after each `undoAssign`. -/
def tryDomainStates (vars : List SessionVar) (next : State → Option (Bool × State))
    (nextStates : State → List State) (var : Nat) :
    List Assignment → State → List State
  | [], _ => []
  | d :: ds, st =>
    let r := canAssignVar vars var d st
    if r.1 then
      r.2 :: doAssign vars var d r.2 :: (nextStates (doAssign vars var d r.2) ++
        match next (doAssign vars var d r.2) with
        | some (false, st2) =>
          undoAssign vars var d st2 ::
            tryDomainStates vars next nextStates var ds (undoAssign vars var d st2)
        | _ => [])
    else r.2 :: tryDomainStates vars next nextStates var ds r.2

/-- The states a call of `backtrack` passes through, in order, taken between
the calls of `canAssignVar`, `doAssign`, `undoAssign` and `backtrack`: the
state at entry, the states inside `selectUnassignedVar`, and the states of
the loop over the domain of the chosen variable. -/
def backtrackStates (vars : List SessionVar) (domains : List (List Assignment)) :
    Nat → State → List State
  | 0, st => [st]
  | fuel + 1, st =>
    st :: (if allAssigned st then []
      else
        selectStates vars domains (List.range vars.length) st ++
          (if (selectUnassignedVar vars domains st).1 = -1 then []
          else tryDomainStates vars (backtrackFuel vars domains fuel)
            (backtrackStates vars domains fuel)
            (selectUnassignedVar vars domains st).1.toNat
            (domAt domains (selectUnassignedVar vars domains st).1.toNat)
            (selectUnassignedVar vars domains st).2))

/-- The states reached by the search `main` starts. -/
def reachedStates (vars : List SessionVar) (domains : List (List Assignment)) :
    List State :=
  backtrackStates vars domains (vars.length + 1) (initState vars.length)

end Second

/-! ### The search order of the first program -/

namespace First

/-- The order in which the three nested loops of `solve` visit the index
triples: by time index, then by room index, then by teacher index. -/
def candLt (x y : Nat × Nat × Nat) : Prop :=
  x.1 < y.1 ∨ (x.1 = y.1 ∧ (x.2.1 < y.2.1 ∨ (x.2.1 = y.2.1 ∧ x.2.2 < y.2.2)))

/-- The same order on the stored triples. -/
def tripleLt (x y : Assignment) : Prop :=
  x.timeId < y.timeId ∨ (x.timeId = y.timeId ∧
    (x.roomIndex < y.roomIndex ∨
      (x.roomIndex = y.roomIndex ∧ x.teacherIndex < y.teacherIndex)))

instance (x y : Assignment) : Decidable (tripleLt x y) := by
  unfold tripleLt
  infer_instance

/-- Table `a` is lexicographically at most table `b` over the sessions
`0, ..., n - 1`, compared in index order: the tables agree, or at the first
index where they differ the triple of `a` comes first. -/
def LexLe (n : Nat) (a b : List Assignment) : Prop :=
  (∀ i, i < n → asgAt a i = asgAt b i) ∨
    ∃ k, k < n ∧ (∀ i, i < k → asgAt a i = asgAt b i) ∧ tripleLt (asgAt a k) (asgAt b k)

instance (n : Nat) (a b : List Assignment) : Decidable (LexLe n a b) := by
  unfold LexLe
  infer_instance

end First

/-! ### The CSV line splitter of the second program -/

namespace Second

/-- The double-quote character (code 34). -/
def dquote : Char := Char.ofNat 34

/-- The default delimiter of `splitCSVLine` (code 44, the comma). -/
def comma : Char := Char.ofNat 44

/-- The loop of `splitCSVLine` (source lines 421-440) over the characters from
index `i` on, with the loop variables `cur`, `inQuotes` and `out`; the line
after the loop is the case of the empty list.  The test
`i + 1 < line.size() && line[i + 1] == quote` looks at the next character `c2`,
and `++i` skips it.  A multi-byte character contains neither the byte of a
quote nor that of an ASCII delimiter, so the loop over bytes and the loop
over characters cut the line at the same places. -/
def splitChars (delim : Char) :
    List Char → List Char → Bool → List (List Char) → List (List Char)
  | [], cur, _, out => out ++ [cur]
  | c :: rest, cur, inQuotes, out =>
    if c = dquote then
      match rest with
      | c2 :: rest2 =>
        if inQuotes && c2 = dquote then splitChars delim rest2 (cur ++ [dquote]) inQuotes out
        else splitChars delim (c2 :: rest2) cur (!inQuotes) out
      | [] => splitChars delim [] cur (!inQuotes) out
    else if c = delim && !inQuotes then splitChars delim rest [] inQuotes (out ++ [cur])
    else splitChars delim rest (cur ++ [c]) inQuotes out

/-- Source lines 417-443. -/
def splitCSVLine (line : String) (delim : Char) : List String :=
  (splitChars delim line.data [] false []).map String.mk

end Second

/-! ### The calls of `solve` made during a search -/

namespace First

/-- The calls `solve(pos + 1)` made by the nested loops of `solve(pos)`, each
as the pair of its position and the table it is entered with, followed by the
calls made inside it (`nextCalls`).  The loops go on after a call that
returned false and stop after a call that returned true. -/
def tryCandidatesCalls (sessions : List Session) (pos : Nat)
    (next : List Assignment → Option (Bool × List Assignment))
    (nextCalls : List Assignment → List (Nat × List Assignment)) :
    List (Nat × Nat × Nat) → List Assignment → List (Nat × List Assignment)
  | [], _ => []
  | (t, r, teach) :: rest, assignments =>
    let assignments1 := assignments.set pos ⟨t, r, teach⟩
    if check_constraints sessions assignments1 pos then
      nextCalls assignments1 ++
        match next assignments1 with
        | some (false, assignments2) =>
          tryCandidatesCalls sessions pos next nextCalls rest assignments2
        | _ => []
    else tryCandidatesCalls sessions pos next nextCalls rest assignments1

/-- The calls of `solve` made by the call `solve(pos)` entered with the table
`assignments`, itself included, in the order in which they are entered. -/
def solveCalls (c : Catalog) (sessions : List Session) :
    List Session → Nat → List Assignment → List (Nat × List Assignment)
  | [], pos, assignments => [(pos, assignments)]
  | s :: rest, pos, assignments =>
    (pos, assignments) ::
      match readAt c.sections s.sectionIndex with
      | none => []
      | some sec =>
        tryCandidatesCalls sessions pos (solveFrom c sessions rest (pos + 1))
          (solveCalls c sessions rest (pos + 1)) (candidates c s sec) assignments

/-- The calls of `solve` made by the program: `main` calls `solve(0)` on the
table of unset entries. -/
def solve0Calls (c : Catalog) (sessions : List Session) : List (Nat × List Assignment) :=
  solveCalls c sessions (sessions.drop 0) 0 (initAssignments sessions)

end First

/-! ### Sample data for the first program -/

namespace First

/-- One time slot, one classroom of capacity 100, one section of 30 students,
one instructor qualified for `CS101`. -/
def catA : Catalog :=
  { timeSlots := [⟨1, "Mon", "9", "10"⟩]
    rooms := [⟨"B 1", "B", "1", 100, "Classroom"⟩]
    instructors := [⟨7, "Ann", "", ["CS101"]⟩]
    tas := []
    sections := [⟨"F", 1, "CS", 1, 1, 30⟩] }

/-- One lecture of `CS101` for section 0. -/
def sessA : List Session := [⟨"Lecture", "CS101", 0, 0⟩]

/-- Two time slots, one classroom, one instructor, two sections. -/
def catB : Catalog :=
  { timeSlots := [⟨1, "Mon", "9", "10"⟩, ⟨2, "Mon", "10", "11"⟩]
    rooms := [⟨"B 1", "B", "1", 100, "Classroom"⟩]
    instructors := [⟨7, "Ann", "", ["CS101"]⟩]
    tas := []
    sections := [⟨"F", 1, "CS", 1, 1, 30⟩, ⟨"F", 1, "CS", 1, 2, 40⟩] }

/-- One lecture of `CS101` for each of the two sections. -/
def sessB : List Session := [⟨"Lecture", "CS101", 0, 0⟩, ⟨"Lecture", "CS101", 1, 0⟩]

/-- The solution of `sessB` over `catB`, as index triples. -/
def sigmaB (i : Nat) : Nat × Nat × Nat := (i, 0, 0)

/-- A catalog whose only room is a computer lab, with a TA for the labs of `PHY101`. -/
def catC : Catalog :=
  { timeSlots := [⟨1, "Mon", "9", "10"⟩]
    rooms := [⟨"B 2", "B", "2", 100, "Computer Lab"⟩]
    instructors := []
    tas := [⟨3, "Bob", "", [("PHY101", "LAB")]⟩]
    sections := [⟨"F", 1, "CS", 1, 1, 30⟩] }

/-- One lab of `PHY101` for section 0. -/
def sessC : List Session := [⟨"Lab", "PHY101", 0, 0⟩]

/-- A lecture nobody is qualified for, followed by a lecture of `CS101`. -/
def sessD : List Session := [⟨"Lecture", "MA999", 0, 0⟩, ⟨"Lecture", "CS101", 0, 0⟩]

end First

/-! ### Sample data for the second program -/

namespace Second

/-- Two lecture variables, for the sections `A` and `B`. -/
def varsP : List SessionVar :=
  [⟨"A::LEC", "A", "CS1", "LEC", 30⟩, ⟨"B::LEC", "B", "CS1", "LEC", 30⟩]

/-- Two items for the first variable, one for the second; one room, one instructor. -/
def domsP : List (List Assignment) :=
  [[⟨"t1", "r1", "i1", ""⟩, ⟨"t2", "r1", "i1", ""⟩], [⟨"t1", "r1", "i1", ""⟩]]

/-- The assignment vector the search ends with on `varsP`, `domsP`. -/
def curP : List (Option Assignment) :=
  [some ⟨"t2", "r1", "i1", ""⟩, some ⟨"t1", "r1", "i1", ""⟩]

/-- The first variable has one item, the second has an empty domain. -/
def domsQ : List (List Assignment) :=
  [[⟨"t1", "r1", "i1", ""⟩], []]

end Second

namespace Second

/-- A conflict-free choice for `varsP` over `domsP`. -/
def sigmaP (i : Nat) : Assignment :=
  if i = 0 then ⟨"t2", "r1", "i1", ""⟩ else ⟨"t1", "r1", "i1", ""⟩

end Second

namespace Second

/-- Both variables have the single item `(t1, r1, i1)`: no schedule exists. -/
def domsR : List (List Assignment) :=
  [[⟨"t1", "r1", "i1", ""⟩], [⟨"t1", "r1", "i1", ""⟩]]

/-- A lecture by instructor `i1` in slot `t1`, room `r1`. -/
def lecItem : Assignment := ⟨"t1", "r1", "i1", ""⟩

/-- A tutorial candidate by the same instructor `i1` in slot `t1`, room `r2`. -/
def tutItem : Assignment := ⟨"t1", "r2", "i1", ""⟩

/-- A lecture variable of section `A` and a tutorial variable of section `B`. -/
def varsT : List SessionVar :=
  [⟨"A::LEC", "A", "CS1", "LEC", 30⟩, ⟨"B::TUT", "B", "CS1", "TUT", 30⟩]

end Second

namespace First

/-- Scenario B: one time slot, one classroom, one instructor, two sections. -/
def catE : Catalog :=
  { timeSlots := [⟨1, "Mon", "9", "10"⟩]
    rooms := [⟨"B 1", "B", "1", 100, "Classroom"⟩]
    instructors := [⟨7, "Ann", "", ["CS101"]⟩]
    tas := []
    sections := [⟨"F", 1, "CS", 1, 1, 30⟩, ⟨"F", 1, "CS", 1, 2, 40⟩] }

end First

namespace First

end First

namespace Second

/-- Scenario A: one slot, one classroom of capacity 100, one section of 30
students that needs a lecture, one instructor qualified for the course, no TA. -/
def tablesA : Tables :=
  { timeslots := [⟨"t1", "Mon", "08:00", "09:30"⟩]
    rooms := [⟨"r1", "Classroom", 100⟩]
    instructors := [⟨"i1", "Ann", ["CS1"]⟩]
    tas := []
    sections := [⟨"S1", "CS1", 30, ["LEC"]⟩] }

/-- An instructor without qualification data and a lecture of `CS1`. -/
def tablesU : Tables :=
  { timeslots := [⟨"t1", "Mon", "08:00", "09:30"⟩]
    rooms := [⟨"r1", "Classroom", 100⟩]
    instructors := [⟨"i1", "Ann", []⟩]
    tas := []
    sections := [⟨"S1", "CS1", 30, ["LEC"]⟩] }

/-- The shuffle that keeps the order. -/
def keepOrder (_ : Nat) (l : List Assignment) : List Assignment := l

end Second

/-! ### Sample data for the loaders -/

/-- A `TimeSlots.csv` whose single data row has the id `x`. -/
def slotsBad : List (List String) :=
  [["Day", "Start", "End", "ID"], ["Mon", "9", "10", "x"], ["Tue", "9", "10", "2"]]

/-- A `TimeSlots.csv` with an incomplete row between two complete rows. -/
def slotsShort : List (List String) :=
  [["Day", "Start", "End", "ID"], ["Mon", "9", "10", "1"], ["Tue", "9"], ["Wed", "9", "10", "3"]]

/-- A `Halls.csv` of the second program whose first data row has the capacity `many`. -/
def hallsBad : List (List String) :=
  [["id", "type", "capacity"], ["r1", "Classroom", "many"], ["r2", "Classroom", "40"]]

/-- A `Halls.csv` whose first data row has no id and the capacity `many`. -/
def hallsNoId : List (List String) :=
  [["id", "type", "capacity"], ["", "Classroom", "many"], ["r2", "Classroom", "40"]]

namespace First

/-- A lecture of section 0 followed by a tutorial of section 1. -/
def sessLT : List Session := [⟨"Lecture", "CS101", 0, 0⟩, ⟨"Tutorial", "CS101", 1, 0⟩]

/-- Both sessions in time slot 0 with teacher index 0, in the rooms 0 and 1. -/
def asgLT : List Assignment := [⟨0, 0, 0⟩, ⟨0, 1, 0⟩]

end First

namespace First

/-- A second solution of `sessB` over `catB`: the two lectures swap their
time slots. -/
def sigmaSwap (i : Nat) : Nat × Nat × Nat := (1 - i, 0, 0)

end First

namespace Second

/-- Two slots; a classroom, a computer lab and a classroom that is too small;
an instructor qualified for `CS1`, one qualified for `MA1` only and one
without qualification data; a TA for tutorials and a TA for labs of `CS1`;
one section of 30 students with a lecture and a tutorial. -/
def tablesM : Tables :=
  { timeslots := [⟨"t1", "Mon", "08:00", "09:30"⟩, ⟨"t2", "Mon", "09:45", "11:15"⟩]
    rooms := [⟨"r1", "Classroom", 100⟩, ⟨"r2", "Computer Lab", 100⟩, ⟨"r3", "Classroom", 10⟩]
    instructors := [⟨"i1", "Ann", ["CS1"]⟩, ⟨"i2", "Ben", ["MA1"]⟩, ⟨"i3", "Cy", []⟩]
    tas := [⟨"a1", "Dee", ["TUT"], ["CS1"]⟩, ⟨"a2", "Eli", ["LAB"], ["CS1"]⟩]
    sections := [⟨"S1", "CS1", 30, ["LEC", "TUT"]⟩] }

end Second

/-! ## Theorems: first program -/

theorem charsContain_iff (pat s : List Char) :
    charsContain pat s = true ↔ pat <:+: s := by
  induction s with
  | nil => simp [charsContain, List.isEmpty_iff]
  | cons c cs ih =>
    simp only [charsContain, Bool.or_eq_true, List.isPrefixOf_iff_prefix, ih,
      List.infix_cons_iff]

theorem strContains_iff (s pat : String) :
    strContains s pat = true ↔ pat.toList <:+: s.toList :=
  charsContain_iff _ _

namespace First

theorem asgAt_set_self (a : List Assignment) (pos : Nat) (v : Assignment)
    (h : pos < a.length) : asgAt (a.set pos v) pos = v := by
  simp [asgAt, List.getD_eq_getElem?_getD, h]

theorem asgAt_set_ne (a : List Assignment) (pos i : Nat) (v : Assignment)
    (h : pos ≠ i) : asgAt (a.set pos v) i = asgAt a i := by
  simp [asgAt, List.getD_eq_getElem?_getD, List.getElem?_set_ne h]

theorem asgAt_of_le (a : List Assignment) (i : Nat) (h : a.length ≤ i) :
    asgAt a i = unset := by
  unfold asgAt
  exact List.getD_eq_default _ _ h

theorem asgAt_initAssignments (sessions : List Session) (i : Nat) :
    asgAt (initAssignments sessions) i = unset := by
  simp only [asgAt, initAssignments, List.getD_eq_getElem?_getD, List.getElem?_replicate]
  split <;> rfl

theorem eq_of_asgAt_eq {a b : List Assignment} (hl : a.length = b.length)
    (h : ∀ i, i < a.length → asgAt a i = asgAt b i) : a = b := by
  apply List.ext_getElem hl
  intro i h1 h2
  have := h i h1
  simpa [asgAt, List.getD_eq_getElem?_getD, List.getElem?_eq_getElem h1,
    List.getElem?_eq_getElem h2] using this

theorem sessAt_of_drop {sessions rest : List Session} {s : Session} {pos : Nat}
    (h : sessions.drop pos = s :: rest) :
    pos < sessions.length ∧ sessAt sessions pos = s ∧ sessions.drop (pos + 1) = rest := by
  have hlt : pos < sessions.length := by
    by_contra hge
    rw [List.drop_eq_nil_of_le (by omega)] at h
    cases h
  rw [List.drop_eq_getElem_cons hlt] at h
  injection h with h1 h2
  refine ⟨hlt, ?_, h2⟩
  simp [sessAt, List.getD_eq_getElem?_getD, List.getElem?_eq_getElem hlt, h1]

/-- The pairwise condition tested by `check_constraints`, as a Boolean. -/
theorem check_constraints_iff (sessions : List Session) (a : List Assignment) (pos : Nat) :
    check_constraints sessions a pos = true ↔
      ∀ i, i < pos →
        ¬ ((asgAt a i).timeId = (asgAt a pos).timeId ∧
            (asgAt a i).roomIndex = (asgAt a pos).roomIndex) ∧
        ¬ ((sessAt sessions i).sectionIndex = (sessAt sessions pos).sectionIndex ∧
            (asgAt a i).timeId = (asgAt a pos).timeId) ∧
        ¬ (((asgAt a i).timeId = (asgAt a pos).timeId ∧
            (asgAt a i).teacherIndex = (asgAt a pos).teacherIndex) ∧
          (((sessAt sessions pos).type = "Lecture" ∧ (sessAt sessions i).type = "Lecture") ∨
            ((sessAt sessions pos).type ≠ "Lecture" ∧
              (sessAt sessions i).type ≠ "Lecture"))) := by
  unfold check_constraints
  simp only []
  constructor
  · intro h i hi
    have hm : i ∈ List.range pos := List.mem_range.mpr hi
    split at h
    · cases h
    rename_i h1
    split at h
    · cases h
    rename_i h2
    split at h
    · cases h
    rename_i h3
    refine ⟨?_, ?_, ?_⟩
    · intro hc
      apply h1
      exact List.any_eq_true.mpr ⟨i, hm, by simp [hc.1, hc.2]⟩
    · intro hc
      apply h2
      exact List.any_eq_true.mpr ⟨i, hm, by simp [hc.1, hc.2]⟩
    · intro hc
      apply h3
      refine List.any_eq_true.mpr ⟨i, hm, ?_⟩
      rcases hc with ⟨⟨e1, e2⟩, e3 | e3⟩
      · simp [e1, e2, e3.1, e3.2]
      · simp [e1, e2, e3.1, e3.2]
  · intro h
    have n1 : ¬ ((List.range pos).any (fun i =>
        (asgAt a i).timeId == (asgAt a pos).timeId &&
          (asgAt a i).roomIndex == (asgAt a pos).roomIndex) = true) := by
      intro hc
      obtain ⟨i, hm, hp⟩ := List.any_eq_true.mp hc
      exact (h i (List.mem_range.mp hm)).1 (by simpa using hp)
    have n2 : ¬ ((List.range pos).any (fun i =>
        (sessAt sessions i).sectionIndex == (sessAt sessions pos).sectionIndex &&
          (asgAt a i).timeId == (asgAt a pos).timeId) = true) := by
      intro hc
      obtain ⟨i, hm, hp⟩ := List.any_eq_true.mp hc
      exact (h i (List.mem_range.mp hm)).2.1 (by simpa using hp)
    have n3 : ¬ ((List.range pos).any (fun i =>
        ((asgAt a i).timeId == (asgAt a pos).timeId &&
          (asgAt a i).teacherIndex == (asgAt a pos).teacherIndex) &&
        (((sessAt sessions pos).type == "Lecture" && (sessAt sessions i).type == "Lecture") ||
          ((sessAt sessions pos).type != "Lecture" &&
            (sessAt sessions i).type != "Lecture"))) = true) := by
      intro hc
      obtain ⟨i, hm, hp⟩ := List.any_eq_true.mp hc
      exact (h i (List.mem_range.mp hm)).2.2 (by simpa using hp)
    rw [if_neg n1, if_neg n2, if_neg n3]

theorem check_constraints_congr (sessions : List Session) (a b : List Assignment) (pos : Nat)
    (h : ∀ i, i ≤ pos → asgAt a i = asgAt b i) :
    check_constraints sessions a pos = check_constraints sessions b pos := by
  rw [Bool.eq_iff_iff, check_constraints_iff, check_constraints_iff]
  constructor
  · intro hh i hi
    have := hh i hi
    rwa [h i (by omega), h pos (by omega)] at this
  · intro hh i hi
    have := hh i hi
    rwa [← h i (by omega), ← h pos (by omega)] at this

end First

namespace First

theorem FrameOK.frame_refl (pos : Nat) (a : List Assignment) : FrameOK pos a a :=
  ⟨rfl, fun _ _ => rfl⟩

theorem FrameOK.frame_trans {pos : Nat} {a b d : List Assignment}
    (h1 : FrameOK pos a b) (h2 : FrameOK pos b d) : FrameOK pos a d :=
  ⟨h2.1.trans h1.1, fun i hi => (h2.2 i hi).trans (h1.2 i hi)⟩

theorem FrameOK.weaken {pos : Nat} {a b : List Assignment}
    (h : FrameOK (pos + 1) a b) : FrameOK pos a b :=
  ⟨h.1, fun i hi => h.2 i (by omega)⟩

theorem FrameOK.set (pos : Nat) (a : List Assignment) (v : Assignment) :
    FrameOK pos a (a.set pos v) :=
  ⟨List.length_set _ _ _, fun i hi => asgAt_set_ne a pos i v (by omega)⟩

theorem tryCandidates_frame (sessions : List Session) (pos : Nat)
    (next : List Assignment → Option (Bool × List Assignment))
    (hnext : ∀ x b x', next x = some (b, x') → FrameOK (pos + 1) x x') :
    ∀ (cands : List (Nat × Nat × Nat)) (a : List Assignment) (b : Bool)
      (a' : List Assignment),
      tryCandidates sessions pos next cands a = some (b, a') → FrameOK pos a a' := by
  intro cands
  induction cands with
  | nil =>
    intro a b a' h
    simp only [tryCandidates, Option.some.injEq, Prod.mk.injEq] at h
    rw [← h.2]
    exact FrameOK.frame_refl _ _
  | cons cand rest ih =>
    intro a b a' h
    obtain ⟨t, r, teach⟩ := cand
    simp only [tryCandidates] at h
    have hset := FrameOK.set pos a (⟨t, r, teach⟩ : Assignment)
    split at h
    · cases hn : next (a.set pos ⟨t, r, teach⟩) with
      | none => simp [hn] at h
      | some p =>
        obtain ⟨b2, a2⟩ := p
        have hf := (hnext _ _ _ hn).weaken
        cases b2
        · simp only [hn] at h
          exact hset.frame_trans (hf.frame_trans (ih _ _ _ h))
        · simp only [hn, Option.some.injEq, Prod.mk.injEq] at h
          rw [← h.2]
          exact hset.frame_trans hf
    · exact hset.frame_trans (ih _ _ _ h)

theorem solveFrom_frame (c : Catalog) (sessions : List Session) :
    ∀ (rest : List Session) (pos : Nat) (a : List Assignment) (b : Bool)
      (a' : List Assignment),
      solveFrom c sessions rest pos a = some (b, a') → FrameOK pos a a' := by
  intro rest
  induction rest with
  | nil =>
    intro pos a b a' h
    simp only [solveFrom, Option.some.injEq, Prod.mk.injEq] at h
    rw [← h.2]
    exact FrameOK.frame_refl _ _
  | cons s rest ih =>
    intro pos a b a' h
    simp only [solveFrom] at h
    cases hs : readAt c.sections s.sectionIndex with
    | none => simp [hs] at h
    | some sec =>
      simp only [hs] at h
      cases ht : tryCandidates sessions pos (solveFrom c sessions rest (pos + 1))
          (candidates c s sec) a with
      | none => simp [ht] at h
      | some p =>
        obtain ⟨b1, a1⟩ := p
        have hf := tryCandidates_frame sessions pos _ (fun x b x' hx => ih (pos + 1) x b x' hx)
          _ _ _ _ ht
        cases b1
        · simp only [ht, Option.some.injEq, Prod.mk.injEq] at h
          rw [← h.2]
          exact hf.frame_trans (FrameOK.set _ _ _)
        · simp only [ht, Option.some.injEq, Prod.mk.injEq] at h
          rw [← h.2]
          exact hf

end First

namespace First

theorem tryCandidates_sound (sessions : List Session) (pos n : Nat)
    (next : List Assignment → Option (Bool × List Assignment))
    (P : List Assignment → Prop)
    (hframe : ∀ x b x', next x = some (b, x') → FrameOK (pos + 1) x x')
    (hnext : ∀ x x', x.length = n → next x = some (true, x') → P x')
    (hpos : pos < n) :
    ∀ (cands : List (Nat × Nat × Nat)) (a a' : List Assignment),
      a.length = n → tryCandidates sessions pos next cands a = some (true, a') →
      P a' ∧ check_constraints sessions a' pos = true ∧
        ∃ t r teach : Nat, (t, r, teach) ∈ cands ∧
          asgAt a' pos = ⟨(t : Int), (r : Int), (teach : Int)⟩ := by
  intro cands
  induction cands with
  | nil =>
    intro a a' _ h
    simp [tryCandidates] at h
  | cons cand rest ih =>
    intro a a' hlen h
    obtain ⟨t, r, teach⟩ := cand
    simp only [tryCandidates] at h
    have hlen1 : (a.set pos (⟨t, r, teach⟩ : Assignment)).length = n := by
      rw [List.length_set]; exact hlen
    have lift : (P a' ∧ check_constraints sessions a' pos = true ∧
        ∃ t' r' teach' : Nat, (t', r', teach') ∈ rest ∧
          asgAt a' pos = ⟨(t' : Int), (r' : Int), (teach' : Int)⟩) →
        (P a' ∧ check_constraints sessions a' pos = true ∧
        ∃ t' r' teach' : Nat, (t', r', teach') ∈ (t, r, teach) :: rest ∧
          asgAt a' pos = ⟨(t' : Int), (r' : Int), (teach' : Int)⟩) := by
      rintro ⟨h1, h2, t', r', te', hm, he⟩
      exact ⟨h1, h2, t', r', te', List.mem_cons_of_mem _ hm, he⟩
    split at h
    · rename_i hc
      cases hn : next (a.set pos ⟨t, r, teach⟩) with
      | none => simp [hn] at h
      | some p =>
        obtain ⟨b2, a2⟩ := p
        have hf := hframe _ _ _ hn
        cases b2
        · simp only [hn] at h
          exact lift (ih _ _ (hf.1.trans hlen1) h)
        · simp only [hn, Option.some.injEq, Prod.mk.injEq, true_and] at h
          subst h
          refine ⟨hnext _ _ hlen1 hn, ?_, t, r, teach, List.mem_cons_self _ _, ?_⟩
          · rw [check_constraints_congr sessions a2 (a.set pos ⟨t, r, teach⟩) pos
              (fun i hi => hf.2 i (by omega))]
            exact hc
          · rw [hf.2 pos (by omega)]
            exact asgAt_set_self a pos _ (by omega)
    · exact lift (ih _ _ hlen1 h)

theorem solveFrom_sound (c : Catalog) (sessions : List Session) :
    ∀ (rest : List Session) (pos : Nat) (a a' : List Assignment),
      sessions.drop pos = rest → a.length = sessions.length →
      solveFrom c sessions rest pos a = some (true, a') →
      ∀ i, pos ≤ i → i < sessions.length → GoodAt c sessions a' i := by
  intro rest
  induction rest with
  | nil =>
    intro pos a a' hd _ _ i hi hlt
    have : sessions.length ≤ pos := by
      by_contra hcon
      rw [List.drop_eq_getElem_cons (by omega)] at hd
      cases hd
    omega
  | cons s rest ih =>
    intro pos a a' hd hlen h i hi hlt
    obtain ⟨hpos, hs, hd'⟩ := sessAt_of_drop hd
    simp only [solveFrom] at h
    cases hsec : readAt c.sections s.sectionIndex with
    | none => simp [hsec] at h
    | some sec =>
      simp only [hsec] at h
      cases ht : tryCandidates sessions pos (solveFrom c sessions rest (pos + 1))
          (candidates c s sec) a with
      | none => simp [ht] at h
      | some p =>
        obtain ⟨b1, a1⟩ := p
        cases b1
        · simp [ht] at h
        · simp only [ht, Option.some.injEq, Prod.mk.injEq, true_and] at h
          subst h
          obtain ⟨hP, hck, t, r, teach, hm, he⟩ :=
            tryCandidates_sound sessions pos sessions.length _
              (fun x => ∀ i, pos + 1 ≤ i → i < sessions.length → GoodAt c sessions x i)
              (fun x b x' hx => solveFrom_frame c sessions rest (pos + 1) x b x' hx)
              (fun x x' hx hr => ih (pos + 1) x x' hd' hx hr)
              hpos _ _ _ hlen ht
          by_cases hip : i = pos
          · subst hip
            exact ⟨⟨sec, by rw [hs]; exact hsec, t, r, teach, by rw [hs]; exact hm, he⟩, hck⟩
          · exact hP i (by omega) hlt

theorem tryCandidates_clears (sessions : List Session) (pos : Nat)
    (next : List Assignment → Option (Bool × List Assignment))
    (hnext : ∀ x x', next x = some (false, x') →
      (∀ i, pos + 1 ≤ i → asgAt x i = unset) → ∀ i, pos + 1 ≤ i → asgAt x' i = unset) :
    ∀ (cands : List (Nat × Nat × Nat)) (a a' : List Assignment),
      tryCandidates sessions pos next cands a = some (false, a') →
      (∀ i, pos + 1 ≤ i → asgAt a i = unset) → ∀ i, pos + 1 ≤ i → asgAt a' i = unset := by
  intro cands
  induction cands with
  | nil =>
    intro a a' h hpre
    simp only [tryCandidates, Option.some.injEq, Prod.mk.injEq, true_and] at h
    subst h
    exact hpre
  | cons cand rest ih =>
    intro a a' h hpre
    obtain ⟨t, r, teach⟩ := cand
    simp only [tryCandidates] at h
    have hpre1 : ∀ i, pos + 1 ≤ i →
        asgAt (a.set pos (⟨t, r, teach⟩ : Assignment)) i = unset := by
      intro i hi
      rw [asgAt_set_ne a pos i _ (by omega)]
      exact hpre i hi
    split at h
    · cases hn : next (a.set pos ⟨t, r, teach⟩) with
      | none => simp [hn] at h
      | some p =>
        obtain ⟨b2, a2⟩ := p
        cases b2
        · simp only [hn] at h
          exact ih _ _ h (hnext _ _ hn hpre1)
        · simp [hn] at h
    · exact ih _ _ h hpre1

theorem solveFrom_clears (c : Catalog) (sessions : List Session) :
    ∀ (rest : List Session) (pos : Nat) (a a' : List Assignment),
      solveFrom c sessions rest pos a = some (false, a') →
      (∀ i, pos ≤ i → asgAt a i = unset) → ∀ i, pos ≤ i → asgAt a' i = unset := by
  intro rest
  induction rest with
  | nil =>
    intro pos a a' h
    simp [solveFrom] at h
  | cons s rest ih =>
    intro pos a a' h hpre i hi
    simp only [solveFrom] at h
    cases hsec : readAt c.sections s.sectionIndex with
    | none => simp [hsec] at h
    | some sec =>
      simp only [hsec] at h
      cases ht : tryCandidates sessions pos (solveFrom c sessions rest (pos + 1))
          (candidates c s sec) a with
      | none => simp [ht] at h
      | some p =>
        obtain ⟨b1, a1⟩ := p
        cases b1
        · simp only [ht, Option.some.injEq, Prod.mk.injEq, true_and] at h
          subst h
          have hcl := tryCandidates_clears sessions pos _
            (fun x x' hx hp => ih (pos + 1) x x' hx hp) _ _ _ ht
            (fun j hj => hpre j (by omega))
          by_cases hip : i = pos
          · subst hip
            by_cases hlt : i < a1.length
            · exact asgAt_set_self a1 i unset hlt
            · exact asgAt_of_le _ _ (by rw [List.length_set]; omega)
          · rw [asgAt_set_ne a1 pos i _ (by omega)]
            exact hcl i (by omega)
        · simp [ht] at h

end First

namespace First

theorem tryCandidates_total (sessions : List Session) (pos : Nat)
    (next : List Assignment → Option (Bool × List Assignment))
    (hnext : ∀ x, ∃ b x', next x = some (b, x')) :
    ∀ (cands : List (Nat × Nat × Nat)) (a : List Assignment),
      ∃ b a', tryCandidates sessions pos next cands a = some (b, a') := by
  intro cands
  induction cands with
  | nil => intro a; exact ⟨false, a, rfl⟩
  | cons cand rest ih =>
    intro a
    obtain ⟨t, r, teach⟩ := cand
    simp only [tryCandidates]
    split
    · obtain ⟨b2, a2, hn⟩ := hnext (a.set pos ⟨t, r, teach⟩)
      cases b2
      · simp only [hn]; exact ih a2
      · simp only [hn]; exact ⟨true, a2, rfl⟩
    · exact ih _

theorem solveFrom_total (c : Catalog) (sessions : List Session) :
    ∀ (rest : List Session) (pos : Nat) (a : List Assignment),
      (∀ s, s ∈ rest → ∃ sec, readAt c.sections s.sectionIndex = some sec) →
      ∃ b a', solveFrom c sessions rest pos a = some (b, a') := by
  intro rest
  induction rest with
  | nil => intro pos a _; exact ⟨true, a, rfl⟩
  | cons s rest ih =>
    intro pos a hv
    obtain ⟨sec, hsec⟩ := hv s (List.mem_cons_self _ _)
    have hv' : ∀ s', s' ∈ rest → ∃ sec, readAt c.sections s'.sectionIndex = some sec :=
      fun s' hs' => hv s' (List.mem_cons_of_mem _ hs')
    obtain ⟨b1, a1, ht⟩ := tryCandidates_total sessions pos
      (solveFrom c sessions rest (pos + 1)) (fun x => ih (pos + 1) x hv')
      (candidates c s sec) a
    simp only [solveFrom, hsec, ht]
    cases b1
    · exact ⟨false, _, rfl⟩
    · exact ⟨true, _, rfl⟩

theorem tryCandidates_complete (sessions : List Session) (pos n : Nat)
    (next : List Assignment → Option (Bool × List Assignment))
    (σ : List Assignment)
    (hσ : check_constraints sessions σ pos = true)
    (htotal : ∀ x, ∃ b x', next x = some (b, x'))
    (hframe : ∀ x b x', next x = some (b, x') → FrameOK (pos + 1) x x')
    (hnext : ∀ x, x.length = n → (∀ i, i < pos + 1 → asgAt x i = asgAt σ i) →
      ∃ x', next x = some (true, x'))
    (hpos : pos < n) :
    ∀ (cands : List (Nat × Nat × Nat)) (a : List Assignment),
      a.length = n → (∀ i, i < pos → asgAt a i = asgAt σ i) →
      (∃ t r teach : Nat, (t, r, teach) ∈ cands ∧
        asgAt σ pos = ⟨(t : Int), (r : Int), (teach : Int)⟩) →
      ∃ a', tryCandidates sessions pos next cands a = some (true, a') := by
  intro cands
  induction cands with
  | nil =>
    rintro a _ _ ⟨t, r, teach, hm, _⟩
    cases hm
  | cons cand rest ih =>
    intro a hlen hpre hmem
    obtain ⟨t, r, teach⟩ := cand
    have hlen1 : (a.set pos (⟨t, r, teach⟩ : Assignment)).length = n := by
      rw [List.length_set]; exact hlen
    have hpre1 : ∀ i, i < pos →
        asgAt (a.set pos (⟨t, r, teach⟩ : Assignment)) i = asgAt σ i := by
      intro i hi
      rw [asgAt_set_ne a pos i _ (by omega)]
      exact hpre i hi
    simp only [tryCandidates]
    by_cases heq : asgAt σ pos = ⟨(t : Int), (r : Int), (teach : Int)⟩
    · have hall : ∀ i, i < pos + 1 →
          asgAt (a.set pos (⟨t, r, teach⟩ : Assignment)) i = asgAt σ i := by
        intro i hi
        by_cases hip : i = pos
        · subst hip
          rw [asgAt_set_self a i _ (by omega), heq]
        · exact hpre1 i (by omega)
      have hc : check_constraints sessions (a.set pos ⟨t, r, teach⟩) pos = true := by
        rw [check_constraints_congr sessions _ σ pos (fun i hi => hall i (by omega))]
        exact hσ
      obtain ⟨x', hx'⟩ := hnext _ hlen1 hall
      rw [if_pos hc, hx']
      exact ⟨x', rfl⟩
    · have hmem' : ∃ t' r' teach' : Nat, (t', r', teach') ∈ rest ∧
          asgAt σ pos = ⟨(t' : Int), (r' : Int), (teach' : Int)⟩ := by
        obtain ⟨t', r', teach', hm, he⟩ := hmem
        rcases List.mem_cons.mp hm with h1 | h1
        · exfalso
          apply heq
          simp only [Prod.mk.injEq] at h1
          obtain ⟨rfl, rfl, rfl⟩ := h1
          exact he
        · exact ⟨t', r', teach', h1, he⟩
      split
      · obtain ⟨b2, a2, hn⟩ := htotal (a.set pos ⟨t, r, teach⟩)
        have hf := hframe _ _ _ hn
        cases b2
        · simp only [hn]
          refine ih a2 (hf.1.trans hlen1) ?_ hmem'
          intro i hi
          rw [hf.2 i (by omega)]
          exact hpre1 i hi
        · simp only [hn]
          exact ⟨a2, rfl⟩
      · exact ih _ hlen1 hpre1 hmem'

theorem sessAt_mem {sessions : List Session} {i : Nat} (h : i < sessions.length) :
    sessAt sessions i ∈ sessions := by
  simp only [sessAt, List.getD_eq_getElem?_getD, List.getElem?_eq_getElem h, Option.getD_some]
  exact List.getElem_mem h

theorem mem_sessAt {sessions : List Session} {s : Session} (h : s ∈ sessions) :
    ∃ i, i < sessions.length ∧ sessAt sessions i = s := by
  obtain ⟨i, hi, he⟩ := List.mem_iff_getElem.mp h
  refine ⟨i, hi, ?_⟩
  simp [sessAt, List.getD_eq_getElem?_getD, List.getElem?_eq_getElem hi, he]

theorem solveFrom_complete (c : Catalog) (sessions : List Session) (σ : List Assignment)
    (hadm : ∀ i, i < sessions.length → Admissible c (sessAt sessions i) (asgAt σ i))
    (hck : ∀ i, i < sessions.length → check_constraints sessions σ i = true) :
    ∀ (rest : List Session) (pos : Nat) (a : List Assignment),
      sessions.drop pos = rest → a.length = sessions.length →
      (∀ i, i < pos → asgAt a i = asgAt σ i) →
      ∃ a', solveFrom c sessions rest pos a = some (true, a') := by
  have hvalid : ∀ s, s ∈ sessions → ∃ sec, readAt c.sections s.sectionIndex = some sec := by
    intro s hs
    obtain ⟨i, hi, he⟩ := mem_sessAt hs
    obtain ⟨sec, hsec, _⟩ := hadm i hi
    exact ⟨sec, by rw [← he]; exact hsec⟩
  intro rest
  induction rest with
  | nil => intro pos a _ _ _; exact ⟨a, rfl⟩
  | cons s rest ih =>
    intro pos a hd hlen hpre
    obtain ⟨hpos, hs, hd'⟩ := sessAt_of_drop hd
    obtain ⟨sec, hsec, t, r, teach, hm, he⟩ := hadm pos hpos
    rw [hs] at hsec hm
    have hrest : ∀ s', s' ∈ rest → ∃ sec, readAt c.sections s'.sectionIndex = some sec := by
      intro s' hs'
      apply hvalid
      have : s' ∈ sessions.drop (pos + 1) := by rw [hd']; exact hs'
      exact List.mem_of_mem_drop this
    obtain ⟨a1, h1⟩ := tryCandidates_complete sessions pos sessions.length
      (solveFrom c sessions rest (pos + 1)) σ (hck pos hpos)
      (fun x => solveFrom_total c sessions rest (pos + 1) x hrest)
      (fun x b x' hx => solveFrom_frame c sessions rest (pos + 1) x b x' hx)
      (fun x hx hp => ih (pos + 1) x hd' hx hp)
      hpos (candidates c s sec) a hlen hpre ⟨t, r, teach, hm, he⟩
    simp only [solveFrom, hsec, h1]
    exact ⟨a1, rfl⟩

theorem mem_possible_rooms (c : Catalog) (s : Session) (sec : Section) (r : Nat) :
    r ∈ possible_rooms c s sec ↔
      ∃ room, c.rooms[r]? = some room ∧ match_room s room sec = true := by
  simp only [possible_rooms, List.mem_filter, List.mem_range]
  constructor
  · rintro ⟨hlt, h⟩
    rw [List.getElem?_eq_getElem hlt] at h
    exact ⟨c.rooms[r], List.getElem?_eq_getElem hlt, h⟩
  · rintro ⟨room, hr, hm⟩
    have hlt : r < c.rooms.length := by
      by_contra hge
      rw [List.getElem?_eq_none (by omega)] at hr
      cases hr
    refine ⟨hlt, ?_⟩
    rw [hr]
    exact hm

theorem mem_candidates (c : Catalog) (s : Session) (sec : Section) (t r teach : Nat) :
    (t, r, teach) ∈ candidates c s sec ↔
      t < c.timeSlots.length ∧ r ∈ possible_rooms c s sec ∧ teach ∈ possible_teachers c s := by
  simp only [candidates, possible_times, List.mem_flatMap, List.mem_map, List.mem_range,
    Prod.mk.injEq]
  constructor
  · rintro ⟨t', ht', r', hr', te', hte', rfl, rfl, rfl⟩
    exact ⟨ht', hr', hte'⟩
  · rintro ⟨h1, h2, h3⟩
    exact ⟨t, h1, r, h2, teach, h3, rfl, rfl, rfl⟩

theorem mem_possible_teachers_lecture (c : Catalog) (s : Session) (teach : Nat)
    (hs : s.type = "Lecture") :
    teach ∈ possible_teachers c s ↔
      ∃ ins, c.instructors[teach]? = some ins ∧ s.courseCode ∈ ins.qualifiedCourses := by
  simp only [possible_teachers, hs, beq_self_eq_true, if_true, List.mem_filter, List.mem_range]
  constructor
  · rintro ⟨hlt, h⟩
    rw [List.getElem?_eq_getElem hlt] at h
    exact ⟨_, List.getElem?_eq_getElem hlt, by simpa using h⟩
  · rintro ⟨ins, hr, hm⟩
    have hlt : teach < c.instructors.length := by
      by_contra hge
      rw [List.getElem?_eq_none (by omega)] at hr
      cases hr
    refine ⟨hlt, ?_⟩
    rw [hr]
    simpa using hm

theorem mem_possible_teachers_other (c : Catalog) (s : Session) (teach : Nat)
    (hs : s.type ≠ "Lecture") :
    teach ∈ possible_teachers c s ↔
      ∃ ta role, c.tas[teach]? = some ta ∧
        ta.qualifiedCourses.lookup s.courseCode = some role ∧
        ((s.type = "Tutorial" ∧ strContains role "TUT" = true) ∨
          (s.type = "Lab" ∧ strContains role "LAB" = true)) := by
  have hb : (s.type == "Lecture") = false := by simpa using hs
  simp only [possible_teachers, hb, Bool.false_eq_true, if_false, List.mem_filter,
    List.mem_range]
  constructor
  · rintro ⟨hlt, h⟩
    rw [List.getElem?_eq_getElem hlt] at h
    simp only [] at h
    cases hl : List.lookup s.courseCode (c.tas[teach]).qualifiedCourses with
    | none => simp [hl] at h
    | some role =>
      simp only [hl, Bool.or_eq_true, Bool.and_eq_true, beq_iff_eq] at h
      exact ⟨_, role, List.getElem?_eq_getElem hlt, hl, h⟩
  · rintro ⟨ta, role, hr, hl, h⟩
    have hlt : teach < c.tas.length := by
      by_contra hge
      rw [List.getElem?_eq_none (by omega)] at hr
      cases hr
    refine ⟨hlt, ?_⟩
    rw [hr]
    simp only [hl, Bool.or_eq_true, Bool.and_eq_true, beq_iff_eq]
    exact h

end First

namespace First

theorem solve0_goodAt (c : Catalog) (sessions : List Session) (a : List Assignment)
    (h : solve0 c sessions = some (true, a)) (i : Nat) (hi : i < sessions.length) :
    GoodAt c sessions a i :=
  solveFrom_sound c sessions (sessions.drop 0) 0 (initAssignments sessions) a rfl
    (by simp [initAssignments]) h i (Nat.zero_le _) hi

/-- C1: when `solve(0)` returns true from the unset table, any two distinct
sessions differ in (time, room); differ in time when they belong to the same
section; and differ in (time, teacher) when both are lectures or both are not. -/
theorem solve_conflict_free (c : Catalog) (sessions : List Session) (a : List Assignment)
    (h : solve0 c sessions = some (true, a))
    (i j : Nat) (hi : i < sessions.length) (hj : j < sessions.length) (hij : i ≠ j) :
    ¬ ((asgAt a i).timeId = (asgAt a j).timeId ∧
        (asgAt a i).roomIndex = (asgAt a j).roomIndex) ∧
    ((sessAt sessions i).sectionIndex = (sessAt sessions j).sectionIndex →
        (asgAt a i).timeId ≠ (asgAt a j).timeId) ∧
    ((((sessAt sessions i).type = "Lecture" ∧ (sessAt sessions j).type = "Lecture") ∨
        ((sessAt sessions i).type ≠ "Lecture" ∧ (sessAt sessions j).type ≠ "Lecture")) →
      ¬ ((asgAt a i).timeId = (asgAt a j).timeId ∧
        (asgAt a i).teacherIndex = (asgAt a j).teacherIndex)) := by
  rcases Nat.lt_or_gt_of_ne hij with hlt | hgt
  · obtain ⟨h1, h2, h3⟩ :=
      (check_constraints_iff sessions a j).mp (solve0_goodAt c sessions a h j hj).2 i hlt
    refine ⟨h1, fun hs ht => h2 ⟨hs, ht⟩, fun hcat hc => h3 ⟨hc, ?_⟩⟩
    rcases hcat with hcat | hcat
    · exact Or.inl ⟨hcat.2, hcat.1⟩
    · exact Or.inr ⟨hcat.2, hcat.1⟩
  · obtain ⟨h1, h2, h3⟩ :=
      (check_constraints_iff sessions a i).mp (solve0_goodAt c sessions a h i hi).2 j hgt
    refine ⟨fun hc => h1 ⟨hc.1.symm, hc.2.symm⟩, fun hs ht => h2 ⟨hs.symm, ht.symm⟩,
      fun hcat hc => h3 ⟨⟨hc.1.symm, hc.2.symm⟩, hcat⟩⟩

theorem solve_conflict_free_witness :
    solve0 catB sessB = some (true, [⟨0, 0, 0⟩, ⟨1, 0, 0⟩]) ∧
    ¬ ((asgAt [⟨0, 0, 0⟩, ⟨1, 0, 0⟩] 0).timeId = (asgAt [⟨0, 0, 0⟩, ⟨1, 0, 0⟩] 1).timeId ∧
        (asgAt [⟨0, 0, 0⟩, ⟨1, 0, 0⟩] 0).roomIndex =
          (asgAt [⟨0, 0, 0⟩, ⟨1, 0, 0⟩] 1).roomIndex) :=
  ⟨by decide,
    (solve_conflict_free catB sessB [⟨0, 0, 0⟩, ⟨1, 0, 0⟩] (by decide) 0 1
      (by decide) (by decide) (by decide)).1⟩

end First

namespace First

theorem match_room_capacity (s : Session) (room : Room) (sec : Section)
    (h : match_room s room sec = true) : sec.studentNumber ≤ room.capacity := by
  unfold match_room at h
  split at h
  · cases h
  · omega

/-- C6: when `solve(0)` returns true, every session holds a triple of valid
indices: a time slot; a room that passes `match_room` for the session and its
section (so its capacity is at least the section's student number); and an
instructor qualified for the course when the session is a lecture, otherwise a
TA whose role for the course contains `TUT` (tutorial) or `LAB` (lab). -/
theorem solve_admissible (c : Catalog) (sessions : List Session) (a : List Assignment)
    (h : solve0 c sessions = some (true, a)) (i : Nat) (hi : i < sessions.length) :
    ∃ (sec : Section) (t r teach : Nat),
      readAt c.sections (sessAt sessions i).sectionIndex = some sec ∧
      asgAt a i = ⟨(t : Int), (r : Int), (teach : Int)⟩ ∧
      t < c.timeSlots.length ∧
      (∃ room, c.rooms[r]? = some room ∧ match_room (sessAt sessions i) room sec = true ∧
        sec.studentNumber ≤ room.capacity) ∧
      ((sessAt sessions i).type = "Lecture" →
        ∃ ins, c.instructors[teach]? = some ins ∧
          (sessAt sessions i).courseCode ∈ ins.qualifiedCourses) ∧
      ((sessAt sessions i).type ≠ "Lecture" →
        ∃ ta role, c.tas[teach]? = some ta ∧
          ta.qualifiedCourses.lookup (sessAt sessions i).courseCode = some role ∧
          (((sessAt sessions i).type = "Tutorial" ∧ strContains role "TUT" = true) ∨
            ((sessAt sessions i).type = "Lab" ∧ strContains role "LAB" = true))) := by
  obtain ⟨⟨sec, hsec, t, r, teach, hm, he⟩, _⟩ := solve0_goodAt c sessions a h i hi
  obtain ⟨ht, hr, hte⟩ := (mem_candidates c _ sec t r teach).mp hm
  obtain ⟨room, hroom, hmatch⟩ := (mem_possible_rooms c _ sec r).mp hr
  refine ⟨sec, t, r, teach, hsec, he, ht,
    ⟨room, hroom, hmatch, match_room_capacity _ _ _ hmatch⟩, ?_, ?_⟩
  · intro hl
    exact (mem_possible_teachers_lecture c _ teach hl).mp hte
  · intro hl
    exact (mem_possible_teachers_other c _ teach hl).mp hte

theorem solve_admissible_witness :
    solve0 catA sessA = some (true, [⟨0, 0, 0⟩]) ∧
    ∃ (sec : Section) (t r teach : Nat),
      readAt catA.sections (sessAt sessA 0).sectionIndex = some sec ∧
      asgAt [⟨0, 0, 0⟩] 0 = ⟨(t : Int), (r : Int), (teach : Int)⟩ ∧
      t < catA.timeSlots.length ∧
      (∃ room, catA.rooms[r]? = some room ∧ match_room (sessAt sessA 0) room sec = true ∧
        sec.studentNumber ≤ room.capacity) ∧
      ((sessAt sessA 0).type = "Lecture" →
        ∃ ins, catA.instructors[teach]? = some ins ∧
          (sessAt sessA 0).courseCode ∈ ins.qualifiedCourses) ∧
      ((sessAt sessA 0).type ≠ "Lecture" →
        ∃ ta role, catA.tas[teach]? = some ta ∧
          ta.qualifiedCourses.lookup (sessAt sessA 0).courseCode = some role ∧
          (((sessAt sessA 0).type = "Tutorial" ∧ strContains role "TUT" = true) ∨
            ((sessAt sessA 0).type = "Lab" ∧ strContains role "LAB" = true))) :=
  ⟨by decide, solve_admissible catA sessA [⟨0, 0, 0⟩] (by decide) 0 (by decide)⟩

/-- The table that stores the index triples `σ 0, ..., σ (n - 1)`. -/
theorem asgAt_tableOf (σ : Nat → Nat × Nat × Nat) (n i : Nat) (hi : i < n) :
    asgAt ((List.range n).map fun k =>
      (⟨((σ k).1 : Int), ((σ k).2.1 : Int), ((σ k).2.2 : Int)⟩ : Assignment)) i =
      ⟨((σ i).1 : Int), ((σ i).2.1 : Int), ((σ i).2.2 : Int)⟩ := by
  simp [asgAt, List.getD_eq_getElem?_getD, List.getElem?_map, List.getElem?_range hi]

/-- C4: `solve` is complete.  If the sessions admit a choice of triples, each
made of a valid time index, a room index whose room passes `match_room` for
the session and its section, and a teacher index listed in `possible_teachers`,
such that the three pairwise conditions of `check_constraints` hold between
any two sessions, then `solve(0)` returns true (so it does not return false). -/
theorem solve_complete (c : Catalog) (sessions : List Session) (σ : Nat → Nat × Nat × Nat)
    (hdom : ∀ i, i < sessions.length →
      ∃ sec, readAt c.sections (sessAt sessions i).sectionIndex = some sec ∧
        (σ i).1 < c.timeSlots.length ∧
        (∃ room, c.rooms[(σ i).2.1]? = some room ∧
          match_room (sessAt sessions i) room sec = true) ∧
        (σ i).2.2 ∈ possible_teachers c (sessAt sessions i))
    (hpair : ∀ i j, i < sessions.length → j < sessions.length → i ≠ j →
      ¬ ((σ i).1 = (σ j).1 ∧ (σ i).2.1 = (σ j).2.1) ∧
      ((sessAt sessions i).sectionIndex = (sessAt sessions j).sectionIndex →
        (σ i).1 ≠ (σ j).1) ∧
      ((((sessAt sessions i).type = "Lecture" ∧ (sessAt sessions j).type = "Lecture") ∨
          ((sessAt sessions i).type ≠ "Lecture" ∧ (sessAt sessions j).type ≠ "Lecture")) →
        ¬ ((σ i).1 = (σ j).1 ∧ (σ i).2.2 = (σ j).2.2))) :
    (∃ a, solve0 c sessions = some (true, a)) ∧
      ∀ a, solve0 c sessions ≠ some (false, a) := by
  have key : ∃ a, solve0 c sessions = some (true, a) := by
    apply solveFrom_complete c sessions
      ((List.range sessions.length).map fun k =>
        (⟨((σ k).1 : Int), ((σ k).2.1 : Int), ((σ k).2.2 : Int)⟩ : Assignment))
    · intro i hi
      obtain ⟨sec, hsec, ht, hroom, hte⟩ := hdom i hi
      refine ⟨sec, hsec, (σ i).1, (σ i).2.1, (σ i).2.2, ?_, asgAt_tableOf σ _ i hi⟩
      exact (mem_candidates c _ sec _ _ _).mpr
        ⟨ht, (mem_possible_rooms c _ sec _).mpr hroom, hte⟩
    · intro i hi
      rw [check_constraints_iff]
      intro k hk
      rw [asgAt_tableOf σ _ k (by omega), asgAt_tableOf σ _ i hi]
      obtain ⟨h1, h2, h3⟩ := hpair k i (by omega) hi (by omega)
      simp only [Nat.cast_inj]
      refine ⟨h1, fun hc => h2 hc.1 hc.2, fun hc => h3 ?_ hc.1⟩
      rcases hc.2 with hcat | hcat
      · exact Or.inl ⟨hcat.2, hcat.1⟩
      · exact Or.inr ⟨hcat.2, hcat.1⟩
    · rfl
    · simp [initAssignments]
    · intro i hi
      omega
  refine ⟨key, ?_⟩
  intro a ha
  obtain ⟨a', ha'⟩ := key
  rw [ha'] at ha
  cases ha

theorem solve_complete_witness :
    (∃ a, solve0 catB sessB = some (true, a)) ∧
      ∀ a, solve0 catB sessB ≠ some (false, a) :=
  solve_complete catB sessB sigmaB
    (by
      intro i hi
      have hi2 : i < 2 := hi
      interval_cases i
      · exact ⟨⟨"F", 1, "CS", 1, 1, 30⟩, by decide, by decide,
          ⟨⟨"B 1", "B", "1", 100, "Classroom"⟩, by decide, by decide⟩, by decide⟩
      · exact ⟨⟨"F", 1, "CS", 1, 2, 40⟩, by decide, by decide,
          ⟨⟨"B 1", "B", "1", 100, "Classroom"⟩, by decide, by decide⟩, by decide⟩)
    (by
      intro i j hi hj hij
      have hi2 : i < 2 := hi
      have hj2 : j < 2 := hj
      interval_cases i <;> interval_cases j <;> first | exact absurd rfl hij | decide)

end First

namespace First

theorem match_room_false_of_no_phy_lab (s : Session) (room : Room) (sec : Section)
    (h1 : s.type ≠ "Lecture") (h2 : s.type ≠ "Tutorial")
    (h3 : strContains s.courseCode "PHY" = true) (h4 : room.type ≠ "PHY_LAB") :
    match_room s room sec = false := by
  unfold match_room
  split
  · rfl
  · have hb : (s.type == "Lecture" || s.type == "Tutorial") = false := by simp [h1, h2]
    simp [hb, h3, h4]

theorem possible_teachers_nil_of_unqualified (c : Catalog) (s : Session)
    (h1 : s.type = "Lecture")
    (h2 : ∀ ins, ins ∈ c.instructors → s.courseCode ∉ ins.qualifiedCourses) :
    possible_teachers c s = [] := by
  apply List.eq_nil_iff_forall_not_mem.mpr
  intro teach hm
  obtain ⟨ins, hins, hq⟩ := (mem_possible_teachers_lecture c s teach h1).mp hm
  exact h2 ins (List.getElem?_mem hins) hq

/-- C7: for a non-empty session list whose sessions refer to existing
sections, `solve(0)` returns false when there is no time slot, or some session
has no room passing `match_room` (for instance a lab of a `PHY` course when no
room has type `PHY_LAB`), or some session has no eligible teacher (such as
a lecture of a course in no instructor's `qualifiedCourses`). -/
theorem solve_infeasible (c : Catalog) (sessions : List Session)
    (hv : ValidSections c sessions) (hne : sessions ≠ [])
    (h : c.timeSlots = [] ∨
      (∃ s, s ∈ sessions ∧ ∀ sec, readAt c.sections s.sectionIndex = some sec →
        ∀ room, room ∈ c.rooms → match_room s room sec = false) ∨
      (∃ s, s ∈ sessions ∧ s.type ≠ "Lecture" ∧ s.type ≠ "Tutorial" ∧
        strContains s.courseCode "PHY" = true ∧
        ∀ room, room ∈ c.rooms → room.type ≠ "PHY_LAB") ∨
      (∃ s, s ∈ sessions ∧ possible_teachers c s = []) ∨
      (∃ s, s ∈ sessions ∧ s.type = "Lecture" ∧
        ∀ ins, ins ∈ c.instructors → s.courseCode ∉ ins.qualifiedCourses)) :
    ∃ a, solve0 c sessions = some (false, a) := by
  obtain ⟨b, a, hsol⟩ := solveFrom_total c sessions (sessions.drop 0) 0
    (initAssignments sessions) (fun s hs => Option.isSome_iff_exists.mp (hv s (by simpa using hs)))
  have hsol0 : solve0 c sessions = some (b, a) := hsol
  cases b
  · exact ⟨a, hsol0⟩
  · exfalso
    have hgood := solve0_goodAt c sessions a hsol0
    have noRoom : ∀ s, s ∈ sessions → ¬ (∀ sec, readAt c.sections s.sectionIndex = some sec →
        ∀ room, room ∈ c.rooms → match_room s room sec = false) := by
      intro s hs hno
      obtain ⟨i, hi, he⟩ := mem_sessAt hs
      obtain ⟨⟨sec, hsec, t, r, teach, hm, _⟩, _⟩ := hgood i hi
      rw [he] at hsec hm
      obtain ⟨_, hr, _⟩ := (mem_candidates c s sec t r teach).mp hm
      obtain ⟨room, hroom, hmatch⟩ := (mem_possible_rooms c s sec r).mp hr
      rw [hno sec hsec room (List.getElem?_mem hroom)] at hmatch
      cases hmatch
    have noTeacher : ∀ s, s ∈ sessions → possible_teachers c s ≠ [] := by
      intro s hs hno
      obtain ⟨i, hi, he⟩ := mem_sessAt hs
      obtain ⟨⟨sec, _, t, r, teach, hm, _⟩, _⟩ := hgood i hi
      rw [he] at hm
      obtain ⟨_, _, hte⟩ := (mem_candidates c s sec t r teach).mp hm
      rw [hno] at hte
      cases hte
    rcases h with h | ⟨s, hs, h⟩ | ⟨s, hs, h1, h2, h3, h4⟩ | ⟨s, hs, h⟩ | ⟨s, hs, h1, h2⟩
    · have hpos : 0 < sessions.length := List.length_pos.mpr hne
      obtain ⟨⟨sec, _, t, r, teach, hm, _⟩, _⟩ := hgood 0 hpos
      obtain ⟨ht, _, _⟩ := (mem_candidates c _ sec t r teach).mp hm
      rw [h] at ht
      cases ht
    · exact noRoom s hs h
    · exact noRoom s hs (fun sec _ room hroom =>
        match_room_false_of_no_phy_lab s room sec h1 h2 h3 (h4 room hroom))
    · exact noTeacher s hs h
    · exact noTeacher s hs (possible_teachers_nil_of_unqualified c s h1 h2)

theorem solve_infeasible_witness :
    (∃ a, solve0 catC sessC = some (false, a)) ∧ (∃ a, solve0 catA sessD = some (false, a)) :=
  ⟨solve_infeasible catC sessC (by decide) (by decide)
      (Or.inr (Or.inr (Or.inl ⟨⟨"Lab", "PHY101", 0, 0⟩, by decide, by decide, by decide,
        by decide, by decide⟩))),
    solve_infeasible catA sessD (by decide) (by decide)
      (Or.inr (Or.inr (Or.inr (Or.inr ⟨⟨"Lecture", "MA999", 0, 0⟩, by decide, by decide,
        by decide⟩))))⟩

/-- A failed `solve(pos)` entered with every entry at index `pos` or above
unset keeps the length and the entries below `pos`, and leaves every entry at
index `pos` or above unset. -/
theorem solve_clears_of_unset (c : Catalog) (sessions : List Session) (pos : Nat)
    (a a' : List Assignment) (hpre : ∀ i, pos ≤ i → asgAt a i = unset)
    (h : solve c sessions pos a = some (false, a')) :
    a'.length = a.length ∧ (∀ i, i < pos → asgAt a' i = asgAt a i) ∧
      ∀ i, pos ≤ i → asgAt a' i = unset := by
  have hf := solveFrom_frame c sessions _ pos a false a' h
  exact ⟨hf.1, hf.2, solveFrom_clears c sessions _ pos a a' h hpre⟩

/-- Every call made by the loops at position `pos` is entered with a table
of full length whose entries from the position of the call on are unset. -/
theorem tryCandidatesCalls_unset (sessions : List Session) (pos n : Nat)
    (next : List Assignment → Option (Bool × List Assignment))
    (nextCalls : List Assignment → List (Nat × List Assignment))
    (hframe : ∀ x b x', next x = some (b, x') → FrameOK (pos + 1) x x')
    (hclear : ∀ x x', next x = some (false, x') →
      (∀ i, pos + 1 ≤ i → asgAt x i = unset) → ∀ i, pos + 1 ≤ i → asgAt x' i = unset)
    (hcalls : ∀ x, x.length = n → (∀ i, pos + 1 ≤ i → asgAt x i = unset) →
      ∀ q, q ∈ nextCalls x →
        q.1 ≤ n ∧ q.2.length = n ∧ ∀ i, q.1 ≤ i → asgAt q.2 i = unset) :
    ∀ (cands : List (Nat × Nat × Nat)) (a : List Assignment),
      a.length = n → (∀ i, pos + 1 ≤ i → asgAt a i = unset) →
      ∀ q, q ∈ tryCandidatesCalls sessions pos next nextCalls cands a →
        q.1 ≤ n ∧ q.2.length = n ∧ ∀ i, q.1 ≤ i → asgAt q.2 i = unset := by
  intro cands
  induction cands with
  | nil =>
    intro a _ _ q hq
    cases hq
  | cons cand rest ih =>
    intro a hlen hpre q hq
    obtain ⟨t, r, teach⟩ := cand
    have hlen1 : (a.set pos (⟨t, r, teach⟩ : Assignment)).length = n := by
      rw [List.length_set]; exact hlen
    have hpre1 : ∀ i, pos + 1 ≤ i →
        asgAt (a.set pos (⟨t, r, teach⟩ : Assignment)) i = unset := by
      intro i hi
      rw [asgAt_set_ne a pos i _ (by omega)]
      exact hpre i hi
    simp only [tryCandidatesCalls] at hq
    by_cases hc : check_constraints sessions (a.set pos ⟨t, r, teach⟩) pos = true
    · rw [if_pos hc] at hq
      rcases List.mem_append.mp hq with hq | hq
      · exact hcalls _ hlen1 hpre1 q hq
      · cases hn : next (a.set pos ⟨t, r, teach⟩) with
        | none => simp [hn] at hq
        | some p =>
          obtain ⟨b2, a2⟩ := p
          cases b2
          · simp only [hn] at hq
            have hf := hframe _ _ _ hn
            exact ih a2 (hf.1.trans hlen1) (hclear _ _ hn hpre1) q hq
          · simp [hn] at hq
    · rw [if_neg hc] at hq
      exact ih _ hlen1 hpre1 q hq

theorem solveCalls_unset (c : Catalog) (sessions : List Session) :
    ∀ (rest : List Session) (pos : Nat) (a : List Assignment),
      sessions.drop pos = rest → pos ≤ sessions.length → a.length = sessions.length →
      (∀ i, pos ≤ i → asgAt a i = unset) →
      ∀ q, q ∈ solveCalls c sessions rest pos a →
        q.1 ≤ sessions.length ∧ q.2.length = sessions.length ∧
          ∀ i, q.1 ≤ i → asgAt q.2 i = unset := by
  intro rest
  induction rest with
  | nil =>
    intro pos a _ hle hlen hpre q hq
    simp only [solveCalls, List.mem_singleton] at hq
    rw [hq]
    exact ⟨hle, hlen, hpre⟩
  | cons s rest ih =>
    intro pos a hd hle hlen hpre q hq
    obtain ⟨hpos, _, hd'⟩ := sessAt_of_drop hd
    simp only [solveCalls] at hq
    rcases List.mem_cons.mp hq with hq | hq
    · rw [hq]
      exact ⟨hle, hlen, hpre⟩
    · cases hsec : readAt c.sections s.sectionIndex with
      | none => simp [hsec] at hq
      | some sec =>
        simp only [hsec] at hq
        exact tryCandidatesCalls_unset sessions pos sessions.length
          (solveFrom c sessions rest (pos + 1)) (solveCalls c sessions rest (pos + 1))
          (fun x b x' hx => solveFrom_frame c sessions rest (pos + 1) x b x' hx)
          (fun x x' hx hp => solveFrom_clears c sessions rest (pos + 1) x x' hx hp)
          (fun x hx hp => ih (pos + 1) x hd' (by omega) hx hp)
          (candidates c s sec) a hlen (fun i hi => hpre i (by omega)) q hq

/-- C9: on failure the assignment table is cleared.  A `solve(0)` that returns
false when started on the table of unset entries returns that table: every
entry is again `(-1, -1, -1)`.  More generally, `solve0Calls` lists the calls
`solve(pos)` the program makes, with the table each is entered with (the
first is `solve(0)` on the unset table); every one of them is entered with
the entries at index `pos` or above unset, and if it returns false it leaves
the entries below `pos` unchanged and every entry at index `pos` or above
equal to `(-1, -1, -1)`. -/
theorem solve_failure_clears (c : Catalog) (sessions : List Session) :
    (∀ a, solve0 c sessions = some (false, a) →
      a = initAssignments sessions ∧ ∀ i, asgAt a i = unset) ∧
    (0, initAssignments sessions) ∈ solve0Calls c sessions ∧
    (∀ (pos : Nat) (a : List Assignment), (pos, a) ∈ solve0Calls c sessions →
      (pos ≤ sessions.length ∧ a.length = sessions.length ∧
        ∀ i, pos ≤ i → asgAt a i = unset) ∧
      ∀ a', solve c sessions pos a = some (false, a') →
        a'.length = a.length ∧ (∀ i, i < pos → asgAt a' i = asgAt a i) ∧
          ∀ i, pos ≤ i → asgAt a' i = unset) := by
  refine ⟨?_, ?_, ?_⟩
  · intro a h
    obtain ⟨hl, _, hcl⟩ := solve_clears_of_unset c sessions 0 (initAssignments sessions) a
      (fun i _ => asgAt_initAssignments sessions i) h
    have hall : ∀ i, asgAt a i = unset := fun i => hcl i (Nat.zero_le _)
    refine ⟨?_, hall⟩
    apply eq_of_asgAt_eq hl
    intro i _
    rw [hall i, asgAt_initAssignments]
  · unfold solve0Calls
    cases sessions.drop 0 with
    | nil => exact List.mem_cons_self _ _
    | cons s rest => exact List.mem_cons_self _ _
  · intro pos a hq
    have hinv := solveCalls_unset c sessions (sessions.drop 0) 0 (initAssignments sessions)
      rfl (Nat.zero_le _) (by simp [initAssignments])
      (fun i _ => asgAt_initAssignments sessions i) (pos, a) hq
    exact ⟨hinv, fun a' h => solve_clears_of_unset c sessions pos a a' hinv.2.2 h⟩

theorem solve_failure_clears_witness :
    solve0 catA (sessA ++ sessA) = some (false, [unset, unset]) ∧
    [unset, unset] = initAssignments (sessA ++ sessA) ∧
    (1, [⟨0, 0, 0⟩, unset]) ∈ solve0Calls catA (sessA ++ sessA) ∧
    solve catA (sessA ++ sessA) 1 [⟨0, 0, 0⟩, unset] = some (false, [⟨0, 0, 0⟩, unset]) ∧
    (∀ i, i < 1 → asgAt [⟨0, 0, 0⟩, unset] i = asgAt [⟨0, 0, 0⟩, unset] i) ∧
    (∀ i, 1 ≤ i → asgAt [⟨0, 0, 0⟩, unset] i = unset) :=
  ⟨by decide,
    ((solve_failure_clears catA (sessA ++ sessA)).1 [unset, unset] (by decide)).1,
    by decide, by decide,
    (((solve_failure_clears catA (sessA ++ sessA)).2.2 1 [⟨0, 0, 0⟩, unset]
      (by decide)).2 [⟨0, 0, 0⟩, unset] (by decide)).2.1,
    (((solve_failure_clears catA (sessA ++ sessA)).2.2 1 [⟨0, 0, 0⟩, unset]
      (by decide)).2 [⟨0, 0, 0⟩, unset] (by decide)).2.2⟩

/-- C10: `match_room` is true exactly when the room holds the section and its
type fits the session: `Classroom`, `Hall` or `Theater` for a lecture or
tutorial; only `PHY_LAB` for another session whose course code contains `PHY`;
only `Drawing Studio` or `FoE Drawing Lab` when the code contains `Drawing`
but not `PHY`; `Computer Lab` or `Lab` for every other session. -/
theorem match_room_iff (s : Session) (room : Room) (sec : Section) :
    match_room s room sec = true ↔
      sec.studentNumber ≤ room.capacity ∧
      (((s.type = "Lecture" ∨ s.type = "Tutorial") ∧
          (room.type = "Classroom" ∨ room.type = "Hall" ∨ room.type = "Theater")) ∨
        (¬ (s.type = "Lecture" ∨ s.type = "Tutorial") ∧
          "PHY".toList <:+: s.courseCode.toList ∧ room.type = "PHY_LAB") ∨
        (¬ (s.type = "Lecture" ∨ s.type = "Tutorial") ∧
          ¬ "PHY".toList <:+: s.courseCode.toList ∧
          "Drawing".toList <:+: s.courseCode.toList ∧
          (room.type = "Drawing Studio" ∨ room.type = "FoE Drawing Lab")) ∨
        (¬ (s.type = "Lecture" ∨ s.type = "Tutorial") ∧
          ¬ "PHY".toList <:+: s.courseCode.toList ∧
          ¬ "Drawing".toList <:+: s.courseCode.toList ∧
          (room.type = "Computer Lab" ∨ room.type = "Lab"))) := by
  rw [← strContains_iff, ← strContains_iff]
  unfold match_room
  by_cases hcap : room.capacity < sec.studentNumber
  · simp only [hcap, if_true]
    constructor
    · intro h; cases h
    · rintro ⟨h, _⟩; omega
  · have hle : sec.studentNumber ≤ room.capacity := by omega
    simp only [hcap, if_false, hle, true_and]
    by_cases hty : s.type = "Lecture" ∨ s.type = "Tutorial"
    · have hb : (s.type == "Lecture" || s.type == "Tutorial") = true := by simpa using hty
      simp [hb, hty, or_assoc]
    · have hb : (s.type == "Lecture" || s.type == "Tutorial") = false := by simpa using hty
      simp only [hb, Bool.false_eq_true, if_false, hty, false_and, not_false_eq_true,
        true_and, false_or]
      by_cases hphy : strContains s.courseCode "PHY" = true
      · simp [hphy]
      · by_cases hdr : strContains s.courseCode "Drawing" = true
        · simp [hphy, hdr]
        · simp [hphy, hdr]

end First

/-! ## Theorems: second program -/

namespace Second

theorem BusyMap.count_empty (k x : String) : BusyMap.empty.count k x = false := rfl

theorem BusyMap.count_touch (m : BusyMap) (k k' x : String) :
    (m.touch k).count k' x = m.count k' x := by
  unfold BusyMap.count BusyMap.setAt BusyMap.touch
  by_cases h : k' = k
  · subst h
    simp [BusyMap.setAt]
  · simp [h]

theorem BusyMap.count_insert (m : BusyMap) (k x k' y : String) :
    (m.insert k x).count k' y = true ↔ (k' = k ∧ y = x) ∨ m.count k' y = true := by
  unfold BusyMap.count BusyMap.setAt BusyMap.insert
  by_cases h : k' = k
  · subst h
    simp [BusyMap.setAt]
  · simp [h]

theorem BusyMap.count_erase (m : BusyMap) (k x k' y : String) :
    (m.erase k x).count k' y = true ↔ ¬ (k' = k ∧ y = x) ∧ m.count k' y = true := by
  unfold BusyMap.count BusyMap.setAt BusyMap.erase
  by_cases h : k' = k
  · subst h
    simp [BusyMap.setAt]
  · simp [h]

theorem BusyMap.count_erase_insert (m : BusyMap) (k x k' y : String)
    (h : m.count k x = false) :
    ((m.insert k x).erase k x).count k' y = m.count k' y := by
  rw [Bool.eq_iff_iff, BusyMap.count_erase, BusyMap.count_insert]
  constructor
  · rintro ⟨h1, h2 | h2⟩
    · exact absurd h2 h1
    · exact h2
  · intro h2
    refine ⟨?_, Or.inr h2⟩
    rintro ⟨rfl, rfl⟩
    rw [h] at h2
    cases h2

theorem SameMembership.same_refl (s : State) : SameMembership s s :=
  ⟨rfl, fun _ _ => rfl, fun _ _ => rfl, fun _ _ => rfl, fun _ _ => rfl⟩

theorem SameMembership.same_trans {s t u : State} (h1 : SameMembership s t)
    (h2 : SameMembership t u) : SameMembership s u :=
  ⟨h2.1.trans h1.1, fun k x => (h2.2.1 k x).trans (h1.2.1 k x),
    fun k x => (h2.2.2.1 k x).trans (h1.2.2.1 k x),
    fun k x => (h2.2.2.2.1 k x).trans (h1.2.2.2.1 k x),
    fun k x => (h2.2.2.2.2 k x).trans (h1.2.2.2.2 k x)⟩

theorem SameMembership.symm {s t : State} (h : SameMembership s t) : SameMembership t s :=
  ⟨h.1.symm, fun k x => (h.2.1 k x).symm, fun k x => (h.2.2.1 k x).symm,
    fun k x => (h.2.2.2.1 k x).symm, fun k x => (h.2.2.2.2 k x).symm⟩

theorem SameMembership.curAt {s t : State} (h : SameMembership s t) (i : Nat) :
    curAt t i = curAt s i := by
  unfold Second.curAt
  rw [h.1]

theorem isFree_congr (vars : List SessionVar) (varIdx : Nat) (a : Assignment)
    {s t : State} (h : SameMembership s t) :
    isFree vars varIdx a t = isFree vars varIdx a s := by
  unfold isFree
  rw [h.2.1, h.2.2.1, h.2.2.2.1, h.2.2.2.2]

theorem canAssignVar_snd (vars : List SessionVar) (varIdx : Nat) (a : Assignment)
    (st : State) : SameMembership st (canAssignVar vars varIdx a st).2 := by
  by_cases c1 : st.roomBusy.count a.timeslotId a.roomId = true <;>
    by_cases h1 : a.instructorId = "" <;>
    by_cases c2 : st.instrBusy.count a.timeslotId a.instructorId = true <;>
    by_cases h2 : a.taId = "" <;>
    by_cases c3 : st.taBusy.count a.timeslotId a.taId = true <;>
    by_cases c4 : st.sectionBusy.count a.timeslotId (varAt vars varIdx).sectionId = true <;>
    simp [canAssignVar, SameMembership, BusyMap.count_touch, c1, h1, c2, h2, c3, c4]

theorem canAssignVar_fst (vars : List SessionVar) (varIdx : Nat) (a : Assignment)
    (st : State) : (canAssignVar vars varIdx a st).1 = isFree vars varIdx a st := by
  by_cases c1 : st.roomBusy.count a.timeslotId a.roomId = true <;>
    by_cases h1 : a.instructorId = "" <;>
    by_cases c2 : st.instrBusy.count a.timeslotId a.instructorId = true <;>
    by_cases h2 : a.taId = "" <;>
    by_cases c3 : st.taBusy.count a.timeslotId a.taId = true <;>
    by_cases c4 : st.sectionBusy.count a.timeslotId (varAt vars varIdx).sectionId = true <;>
    simp [canAssignVar, isFree, BusyMap.count_touch, c1, h1, c2, h2, c3, c4]

end Second

namespace Second

theorem getD_set_some (cur : List (Option Assignment)) (var i : Nat) (v : Option Assignment)
    (h : var < cur.length) :
    (cur.set var v).getD i none = if i = var then v else cur.getD i none := by
  by_cases hi : i = var
  · subst hi
    simp [List.getD_eq_getElem?_getD, h]
  · simp [List.getD_eq_getElem?_getD, List.getElem?_set_ne (Ne.symm hi), hi]

theorem set_none_of_getD (cur : List (Option Assignment)) (var : Nat)
    (h : cur.getD var none = none) : cur.set var none = cur := by
  apply List.ext_getElem?
  intro i
  by_cases hi : var = i
  · subst hi
    by_cases hl : var < cur.length
    · rw [List.getElem?_set_self hl]
      rw [List.getD_eq_getElem?_getD, List.getElem?_eq_getElem hl] at h
      rw [List.getElem?_eq_getElem hl]
      simpa using h.symm
    · rw [List.getElem?_eq_none (by rw [List.length_set]; omega),
        List.getElem?_eq_none (by omega)]
  · rw [List.getElem?_set_ne hi]

theorem doAssign_eq (vars : List SessionVar) (var : Nat) (d : Assignment) (st : State) :
    doAssign vars var d st =
      { currentAssign := st.currentAssign.set var (some d)
        roomBusy := occupy st.roomBusy d.timeslotId (roomRes var d)
        instrBusy := occupy st.instrBusy d.timeslotId (instrRes var d)
        taBusy := occupy st.taBusy d.timeslotId (taRes var d)
        sectionBusy := occupy st.sectionBusy d.timeslotId (sectionRes vars var d) } := by
  unfold doAssign roomRes instrRes taRes sectionRes
  by_cases h1 : (d.instructorId != "") = true <;> by_cases h2 : (d.taId != "") = true <;>
    simp [h1, h2, occupy]

theorem undoAssign_eq (vars : List SessionVar) (var : Nat) (d : Assignment) (st : State) :
    undoAssign vars var d st =
      { currentAssign := st.currentAssign.set var none
        roomBusy := release st.roomBusy d.timeslotId (roomRes var d)
        instrBusy := release st.instrBusy d.timeslotId (instrRes var d)
        taBusy := release st.taBusy d.timeslotId (taRes var d)
        sectionBusy := release st.sectionBusy d.timeslotId (sectionRes vars var d) } := by
  unfold undoAssign roomRes instrRes taRes sectionRes
  by_cases h1 : (d.instructorId != "") = true <;> by_cases h2 : (d.taId != "") = true <;>
    simp [h1, h2, release]

theorem isFree_iff (vars : List SessionVar) (var : Nat) (d : Assignment) (st : State) :
    isFree vars var d st = true ↔
      (∀ x, roomRes var d = some x → st.roomBusy.count d.timeslotId x = false) ∧
      (∀ x, instrRes var d = some x → st.instrBusy.count d.timeslotId x = false) ∧
      (∀ x, taRes var d = some x → st.taBusy.count d.timeslotId x = false) ∧
      (∀ x, sectionRes vars var d = some x → st.sectionBusy.count d.timeslotId x = false) := by
  unfold isFree roomRes instrRes taRes sectionRes
  by_cases h1 : d.instructorId = "" <;> by_cases h2 : d.taId = "" <;>
    simp [h1, h2, and_assoc]

theorem Tracks.tracks_occupy {res : Nat → Assignment → Option String} {m : BusyMap}
    {cur : List (Option Assignment)} (ht : Tracks res m cur) (var : Nat) (d : Assignment)
    (hnone : cur.getD var none = none) (hlt : var < cur.length) :
    Tracks res (Second.occupy m d.timeslotId (res var d)) (cur.set var (some d)) := by
  intro k x
  have old : (∃ i a, cur.getD i none = some a ∧ a.timeslotId = k ∧ res i a = some x) →
      ∃ i a, (cur.set var (some d)).getD i none = some a ∧ a.timeslotId = k ∧
        res i a = some x := by
    rintro ⟨i, a, h1, h2, h3⟩
    have hi : i ≠ var := by
      rintro rfl
      rw [hnone] at h1
      cases h1
    exact ⟨i, a, by rw [getD_set_some cur var i _ hlt, if_neg hi]; exact h1, h2, h3⟩
  have new : (∃ i a, (cur.set var (some d)).getD i none = some a ∧ a.timeslotId = k ∧
      res i a = some x) →
      (d.timeslotId = k ∧ res var d = some x) ∨
        ∃ i a, cur.getD i none = some a ∧ a.timeslotId = k ∧ res i a = some x := by
    rintro ⟨i, a, h1, h2, h3⟩
    rw [getD_set_some cur var i _ hlt] at h1
    by_cases hi : i = var
    · subst hi
      rw [if_pos rfl] at h1
      injection h1 with h1
      subst h1
      exact Or.inl ⟨h2, h3⟩
    · rw [if_neg hi] at h1
      exact Or.inr ⟨i, a, h1, h2, h3⟩
  cases hr : res var d with
  | none =>
    simp only [Second.occupy]
    rw [ht k x]
    constructor
    · exact old
    · intro h
      rcases new h with ⟨_, h2⟩ | h2
      · rw [hr] at h2
        cases h2
      · exact h2
  | some y =>
    simp only [Second.occupy]
    rw [BusyMap.count_insert, ht k x]
    constructor
    · rintro (⟨rfl, rfl⟩ | h)
      · exact ⟨var, d, by rw [getD_set_some cur var var _ hlt, if_pos rfl], rfl, hr⟩
      · exact old h
    · intro h
      rcases new h with ⟨h1, h2⟩ | h2
      · rw [hr] at h2
        injection h2 with h2
        exact Or.inl ⟨h1.symm, h2.symm⟩
      · exact Or.inr h2

theorem Apart.apart_occupy {res : Nat → Assignment → Option String} {m : BusyMap}
    {cur : List (Option Assignment)} (ht : Tracks res m cur) (ha : Apart res cur)
    (var : Nat) (d : Assignment)
    (hnone : cur.getD var none = none) (hlt : var < cur.length)
    (hfree : ∀ x, res var d = some x → m.count d.timeslotId x = false) :
    Apart res (cur.set var (some d)) := by
  intro i j a b x hij h1 h2 hts hri hrj
  rw [getD_set_some cur var i _ hlt] at h1
  rw [getD_set_some cur var j _ hlt] at h2
  by_cases hi : i = var
  · subst hi
    rw [if_pos rfl] at h1
    injection h1 with h1
    subst h1
    rw [if_neg (Ne.symm hij)] at h2
    have hc := (ht b.timeslotId x).mpr ⟨j, b, h2, rfl, hrj⟩
    rw [← hts, hfree x hri] at hc
    cases hc
  · rw [if_neg hi] at h1
    by_cases hj : j = var
    · subst hj
      rw [if_pos rfl] at h2
      injection h2 with h2
      subst h2
      have hc := (ht a.timeslotId x).mpr ⟨i, a, h1, rfl, hri⟩
      rw [hts, hfree x hrj] at hc
      cases hc
    · rw [if_neg hj] at h2
      exact ha i j a b x hij h1 h2 hts hri hrj

theorem Inv.inv_doAssign {vars : List SessionVar} {st : State} (h : Inv vars st)
    (var : Nat) (d : Assignment) (hnone : curAt st var = none) (hlt : var < vars.length)
    (hfree : isFree vars var d st = true) : Inv vars (Second.doAssign vars var d st) := by
  have hl : var < st.currentAssign.length := by rw [h.len]; exact hlt
  obtain ⟨f1, f2, f3, f4⟩ := (isFree_iff vars var d st).mp hfree
  rw [doAssign_eq]
  exact
    { len := by simp [h.len]
      room := h.room.tracks_occupy var d hnone hl
      instr := h.instr.tracks_occupy var d hnone hl
      ta := h.ta.tracks_occupy var d hnone hl
      sect := h.sect.tracks_occupy var d hnone hl
      roomApart := h.roomApart.apart_occupy h.room var d hnone hl f1
      instrApart := h.instrApart.apart_occupy h.instr var d hnone hl f2
      taApart := h.taApart.apart_occupy h.ta var d hnone hl f3
      sectApart := h.sectApart.apart_occupy h.sect var d hnone hl f4 }

theorem Tracks.tracks_congr {res : Nat → Assignment → Option String} {m m' : BusyMap}
    {cur : List (Option Assignment)} (ht : Tracks res m cur)
    (h : ∀ k x, m'.count k x = m.count k x) : Tracks res m' cur := by
  intro k x
  rw [h k x]
  exact ht k x

theorem Inv.inv_congr {vars : List SessionVar} {s t : State} (h : Inv vars s)
    (hst : SameMembership s t) : Inv vars t := by
  obtain ⟨hc, h1, h2, h3, h4⟩ := hst
  exact
    { len := by rw [hc]; exact h.len
      room := by rw [hc]; exact h.room.tracks_congr h1
      instr := by rw [hc]; exact h.instr.tracks_congr h2
      ta := by rw [hc]; exact h.ta.tracks_congr h3
      sect := by rw [hc]; exact h.sect.tracks_congr h4
      roomApart := by rw [hc]; exact h.roomApart
      instrApart := by rw [hc]; exact h.instrApart
      taApart := by rw [hc]; exact h.taApart
      sectApart := by rw [hc]; exact h.sectApart }

theorem release_occupy_count (m t : BusyMap) (k : String) (r : Option String)
    (ht : ∀ k' y, t.count k' y = (occupy m k r).count k' y)
    (hfree : ∀ x, r = some x → m.count k x = false) (k' y : String) :
    (release t k r).count k' y = m.count k' y := by
  cases r with
  | none => exact ht k' y
  | some x =>
    have hm := hfree x rfl
    simp only [release, occupy] at ht ⊢
    rw [← BusyMap.count_erase_insert m k x k' y hm, Bool.eq_iff_iff, BusyMap.count_erase,
      BusyMap.count_erase, ht k' y]

theorem undo_restores (vars : List SessionVar) (var : Nat) (d : Assignment) (s t : State)
    (hfree : isFree vars var d s = true) (hnone : curAt s var = none)
    (hst : SameMembership (doAssign vars var d s) t) :
    SameMembership s (undoAssign vars var d t) := by
  obtain ⟨f1, f2, f3, f4⟩ := (isFree_iff vars var d s).mp hfree
  rw [doAssign_eq] at hst
  obtain ⟨hc, h1, h2, h3, h4⟩ := hst
  rw [undoAssign_eq]
  refine ⟨?_, ?_, ?_, ?_, ?_⟩
  · simp only [] at hc ⊢
    rw [hc, List.set_set]
    exact set_none_of_getD _ _ hnone
  · exact release_occupy_count _ _ _ _ h1 f1
  · exact release_occupy_count _ _ _ _ h2 f2
  · exact release_occupy_count _ _ _ _ h3 f3
  · exact release_occupy_count _ _ _ _ h4 f4

end Second

namespace Second

theorem legalCount_congr (vars : List SessionVar) (domains : List (List Assignment))
    {s t : State} (h : SameMembership s t) (i : Nat) :
    legalCount vars domains t i = legalCount vars domains s i := by
  unfold legalCount
  congr 1
  funext d
  exact isFree_congr vars i d h

theorem countLegal_spec (vars : List SessionVar) (i : Nat) :
    ∀ (ds : List Assignment) (st : State),
      SameMembership st (countLegal vars i ds st).2 ∧
        (countLegal vars i ds st).1 = ds.countP fun d => isFree vars i d st := by
  intro ds
  induction ds with
  | nil => intro st; exact ⟨SameMembership.same_refl _, rfl⟩
  | cons d ds ih =>
    intro st
    have h1 := canAssignVar_snd vars i d st
    obtain ⟨h2, h3⟩ := ih (canAssignVar vars i d st).2
    refine ⟨h1.same_trans h2, ?_⟩
    simp only [countLegal, h3, canAssignVar_fst, List.countP_cons]
    have : (fun d' => isFree vars i d' (canAssignVar vars i d st).2) =
        fun d' => isFree vars i d' st := by
      funext d'
      exact isFree_congr vars i d' h1
    rw [this]
    omega

/-- What the loop of `selectUnassignedVar` returns: the running `best` when no
unassigned index of the list has fewer legal items than `bestSize`, otherwise
an unassigned index of the list with the least number of legal items. -/
theorem selectLoop_spec (vars : List SessionVar) (domains : List (List Assignment)) :
    ∀ (is : List Nat) (best : Int) (bestSize : Nat) (st : State),
      SameMembership st (selectLoop vars domains is best bestSize st).2 ∧
      (((selectLoop vars domains is best bestSize st).1 = best ∧
          ∀ j, j ∈ is → curAt st j = none → bestSize ≤ legalCount vars domains st j) ∨
        ∃ i, i ∈ is ∧ (selectLoop vars domains is best bestSize st).1 = (i : Int) ∧
          curAt st i = none ∧ legalCount vars domains st i < bestSize ∧
          ∀ j, j ∈ is → curAt st j = none →
            legalCount vars domains st i ≤ legalCount vars domains st j) := by
  intro is
  induction is with
  | nil =>
    intro best bestSize st
    exact ⟨SameMembership.same_refl _, Or.inl ⟨rfl, fun j hj => by cases hj⟩⟩
  | cons i is ih =>
    intro best bestSize st
    simp only [selectLoop]
    by_cases hsome : (curAt st i).isSome = true
    · rw [if_pos hsome]
      obtain ⟨h1, h2⟩ := ih best bestSize st
      refine ⟨h1, ?_⟩
      have hne : curAt st i ≠ none := by
        intro hc
        rw [hc] at hsome
        cases hsome
      rcases h2 with ⟨e, hmin⟩ | ⟨i', hi', e, hn, hlt, hmin⟩
      · refine Or.inl ⟨e, ?_⟩
        intro j hj hjn
        rcases List.mem_cons.mp hj with rfl | hj
        · exact absurd hjn hne
        · exact hmin j hj hjn
      · refine Or.inr ⟨i', List.mem_cons_of_mem _ hi', e, hn, hlt, ?_⟩
        intro j hj hjn
        rcases List.mem_cons.mp hj with rfl | hj
        · exact absurd hjn hne
        · exact hmin j hj hjn
    · rw [if_neg hsome]
      have hnone : curAt st i = none := by
        cases hc : curAt st i with
        | none => rfl
        | some v => rw [hc] at hsome; exact absurd rfl hsome
      obtain ⟨hs, hcnt⟩ := countLegal_spec vars i (domAt domains i) st
      have hleg : (countLegal vars i (domAt domains i) st).1 = legalCount vars domains st i :=
        hcnt
      have hcong : ∀ j, legalCount vars domains (countLegal vars i (domAt domains i) st).2 j =
          legalCount vars domains st j := fun j => legalCount_congr vars domains hs j
      have hcur : ∀ j, curAt (countLegal vars i (domAt domains i) st).2 j = curAt st j :=
        fun j => hs.curAt j
      by_cases hlt : (countLegal vars i (domAt domains i) st).1 < bestSize
      · rw [if_pos hlt]
        obtain ⟨h1, h2⟩ := ih (i : Int) (countLegal vars i (domAt domains i) st).1
          (countLegal vars i (domAt domains i) st).2
        refine ⟨hs.same_trans h1, Or.inr ?_⟩
        rcases h2 with ⟨e, hmin⟩ | ⟨i', hi', e, hn, hlt', hmin⟩
        · refine ⟨i, List.mem_cons_self _ _, e, hnone, by rw [← hleg]; exact hlt, ?_⟩
          intro j hj hjn
          rcases List.mem_cons.mp hj with rfl | hj
          · exact le_refl _
          · have := hmin j hj (by rw [hcur]; exact hjn)
            rw [hcong, hleg] at this
            exact this
        · rw [hcong, hleg] at hlt'
          rw [hcur] at hn
          refine ⟨i', List.mem_cons_of_mem _ hi', e, hn, by rw [hleg] at hlt; omega, ?_⟩
          intro j hj hjn
          rcases List.mem_cons.mp hj with rfl | hj
          · omega
          · have := hmin j hj (by rw [hcur]; exact hjn)
            rw [hcong, hcong] at this
            exact this
      · rw [if_neg hlt]
        obtain ⟨h1, h2⟩ := ih best bestSize (countLegal vars i (domAt domains i) st).2
        refine ⟨hs.same_trans h1, ?_⟩
        rw [hleg] at hlt
        rcases h2 with ⟨e, hmin⟩ | ⟨i', hi', e, hn, hlt', hmin⟩
        · refine Or.inl ⟨e, ?_⟩
          intro j hj hjn
          rcases List.mem_cons.mp hj with rfl | hj
          · omega
          · have := hmin j hj (by rw [hcur]; exact hjn)
            rw [hcong] at this
            exact this
        · rw [hcong] at hlt'
          rw [hcur] at hn
          refine Or.inr ⟨i', List.mem_cons_of_mem _ hi', e, hn, hlt', ?_⟩
          intro j hj hjn
          rcases List.mem_cons.mp hj with rfl | hj
          · omega
          · have := hmin j hj (by rw [hcur]; exact hjn)
            rw [hcong, hcong] at this
            exact this

theorem selectUnassignedVar_spec (vars : List SessionVar) (domains : List (List Assignment))
    (st : State) :
    SameMembership st (selectUnassignedVar vars domains st).2 ∧
      (((selectUnassignedVar vars domains st).1 = -1 ∧
          ∀ j, j < vars.length → curAt st j = none →
            SIZE_MAX ≤ legalCount vars domains st j) ∨
        ∃ i, i < vars.length ∧ (selectUnassignedVar vars domains st).1 = (i : Int) ∧
          curAt st i = none ∧
          ∀ j, j < vars.length → curAt st j = none →
            legalCount vars domains st i ≤ legalCount vars domains st j) := by
  obtain ⟨h1, h2⟩ := selectLoop_spec vars domains (List.range vars.length) (-1) SIZE_MAX st
  refine ⟨h1, ?_⟩
  rcases h2 with ⟨e, hmin⟩ | ⟨i, hi, e, hn, _, hmin⟩
  · exact Or.inl ⟨e, fun j hj => hmin j (List.mem_range.mpr hj)⟩
  · exact Or.inr ⟨i, List.mem_range.mp hi, e, hn, fun j hj => hmin j (List.mem_range.mpr hj)⟩

end Second

namespace Second

theorem getD_set_cases (cur : List (Option Assignment)) (var i : Nat)
    (v : Option Assignment) (a : Assignment)
    (h : (cur.set var v).getD i none = some a) :
    (i = var ∧ v = some a) ∨ cur.getD i none = some a := by
  by_cases hl : var < cur.length
  · rw [getD_set_some cur var i v hl] at h
    by_cases hi : i = var
    · rw [if_pos hi] at h
      exact Or.inl ⟨hi, h⟩
    · rw [if_neg hi] at h
      exact Or.inr h
  · rw [List.set_eq_of_length_le (by omega)] at h
    exact Or.inr h

theorem InDomain.dom_doAssign {vars : List SessionVar} {domains : List (List Assignment)}
    {st : State} (h : InDomain domains st) (var : Nat) (d : Assignment)
    (hd : d ∈ domAt domains var) : InDomain domains (Second.doAssign vars var d st) := by
  intro i a hia
  rcases getD_set_cases st.currentAssign var i (some d) a hia with ⟨rfl, hv⟩ | hold
  · injection hv with hv
    rw [← hv]
    exact hd
  · exact h i a hold

theorem InDomain.dom_congr {domains : List (List Assignment)} {s t : State}
    (h : InDomain domains s) (hst : SameMembership s t) : InDomain domains t := by
  intro i a hia
  rw [hst.curAt] at hia
  exact h i a hia

theorem CallOK.of_same {vars : List SessionVar} {domains : List (List Assignment)}
    {s t : State} {b : Bool} {s' : State} (hst : SameMembership s t)
    (h : CallOK vars domains t b s') : CallOK vars domains s b s' :=
  ⟨fun hb => hst.same_trans (h.1 hb), h.2.1, fun hi => h.2.2.1 (hi.inv_congr hst),
    fun hd => h.2.2.2 (hd.dom_congr hst)⟩

theorem tryDomain_ok (vars : List SessionVar) (domains : List (List Assignment))
    (next : State → Option (Bool × State)) (var : Nat)
    (hnext : ∀ s b s', next s = some (b, s') → CallOK vars domains s b s')
    (hlt : var < vars.length) :
    ∀ (ds : List Assignment) (st : State) (b : Bool) (st' : State),
      (∀ d, d ∈ ds → d ∈ domAt domains var) → curAt st var = none →
      tryDomain vars next var ds st = some (b, st') → CallOK vars domains st b st' := by
  intro ds
  induction ds with
  | nil =>
    intro st b st' _ _ h
    simp only [tryDomain, Option.some.injEq, Prod.mk.injEq] at h
    obtain ⟨rfl, rfl⟩ := h
    exact ⟨fun _ => SameMembership.same_refl _, fun hb => (by cases hb), id, id⟩
  | cons d ds ih =>
    intro st b st' hdom hnone h
    have hdom' : ∀ d', d' ∈ ds → d' ∈ domAt domains var :=
      fun d' hd' => hdom d' (List.mem_cons_of_mem _ hd')
    have hs := canAssignVar_snd vars var d st
    have hnone1 : curAt (canAssignVar vars var d st).2 var = none := by
      rw [hs.curAt]; exact hnone
    simp only [tryDomain] at h
    by_cases hc : (canAssignVar vars var d st).1 = true
    · rw [if_pos hc] at h
      have hfree : isFree vars var d (canAssignVar vars var d st).2 = true := by
        rw [isFree_congr vars var d hs, ← canAssignVar_fst]
        exact hc
      cases hn : next (doAssign vars var d (canAssignVar vars var d st).2) with
      | none => simp [hn] at h
      | some p =>
        obtain ⟨b2, st2⟩ := p
        have hok := hnext _ _ _ hn
        cases b2
        · simp only [hn] at h
          have hback : SameMembership (canAssignVar vars var d st).2
              (undoAssign vars var d st2) :=
            undo_restores vars var d _ st2 hfree hnone1 (hok.1 rfl)
          have hnone3 : curAt (undoAssign vars var d st2) var = none := by
            rw [hback.curAt]; exact hnone1
          exact CallOK.of_same (hs.same_trans hback) (ih _ _ _ hdom' hnone3 h)
        · simp only [hn, Option.some.injEq, Prod.mk.injEq] at h
          obtain ⟨rfl, rfl⟩ := h
          refine ⟨fun hb => (by cases hb), fun _ => hok.2.1 rfl, ?_, ?_⟩
          · intro hinv
            exact hok.2.2.1 ((hinv.inv_congr hs).inv_doAssign var d hnone1 hlt hfree)
          · intro hd
            exact hok.2.2.2 ((hd.dom_congr hs).dom_doAssign var d (hdom d (List.mem_cons_self _ _)))
    · rw [if_neg hc] at h
      exact CallOK.of_same hs (ih _ _ _ hdom' hnone1 h)

theorem backtrackFuel_ok (vars : List SessionVar) (domains : List (List Assignment)) :
    ∀ (fuel : Nat) (st : State) (b : Bool) (st' : State),
      backtrackFuel vars domains fuel st = some (b, st') → CallOK vars domains st b st' := by
  intro fuel
  induction fuel with
  | zero =>
    intro st b st' h
    simp [backtrackFuel] at h
  | succ fuel ih =>
    intro st b st' h
    simp only [backtrackFuel] at h
    by_cases hall : allAssigned st = true
    · rw [if_pos hall] at h
      simp only [Option.some.injEq, Prod.mk.injEq] at h
      obtain ⟨rfl, rfl⟩ := h
      exact ⟨fun hb => (by cases hb), fun _ => hall, id, id⟩
    · rw [if_neg hall] at h
      obtain ⟨hs, hsel⟩ := selectUnassignedVar_spec vars domains st
      rcases hsel with ⟨e, _⟩ | ⟨i, hi, e, hn, _⟩
      · rw [if_pos e] at h
        simp only [Option.some.injEq, Prod.mk.injEq] at h
        obtain ⟨rfl, rfl⟩ := h
        exact ⟨fun _ => hs, fun hb => (by cases hb), fun hinv => hinv.inv_congr hs,
          fun hd => hd.dom_congr hs⟩
      · have hne : (selectUnassignedVar vars domains st).1 ≠ -1 := by
          rw [e]; omega
        rw [if_neg hne, e] at h
        simp only [Int.toNat_ofNat] at h
        refine CallOK.of_same hs (tryDomain_ok vars domains _ i ih hi _ _ _ _
          (fun d hd => hd) (by rw [hs.curAt]; exact hn) h)

theorem Inv.inv_init (vars : List SessionVar) : Inv vars (initState vars.length) := by
  have hget : ∀ i, (List.replicate vars.length (none : Option Assignment)).getD i none =
      none := by
    intro i
    simp only [List.getD_eq_getElem?_getD, List.getElem?_replicate]
    split <;> rfl
  have ht : ∀ res, Tracks res BusyMap.empty
      (List.replicate vars.length (none : Option Assignment)) := by
    intro res k x
    constructor
    · intro h
      cases h
    · rintro ⟨i, a, h, _⟩
      rw [hget] at h
      cases h
  have ha : ∀ res, Apart res (List.replicate vars.length (none : Option Assignment)) := by
    intro res i j a b x _ h
    rw [hget] at h
    cases h
  exact
    { len := by simp [initState]
      room := ht _
      instr := ht _
      ta := ht _
      sect := ht _
      roomApart := ha _
      instrApart := ha _
      taApart := ha _
      sectApart := ha _ }

theorem InDomain.dom_init (domains : List (List Assignment)) (n : Nat) :
    InDomain domains (initState n) := by
  intro i a h
  simp only [curAt, initState, List.getD_eq_getElem?_getD, List.getElem?_replicate] at h
  split at h <;> cases h

theorem curAt_of_allAssigned (st : State) (h : allAssigned st = true) (i : Nat)
    (hi : i < st.currentAssign.length) : ∃ a, curAt st i = some a := by
  unfold allAssigned at h
  rw [List.all_eq_true] at h
  have hm := h _ (List.getElem_mem hi)
  unfold curAt
  rw [List.getD_eq_getElem?_getD, List.getElem?_eq_getElem hi]
  cases hv : st.currentAssign[i] with
  | none => rw [hv] at hm; cases hm
  | some a => exact ⟨a, rfl⟩

end Second

namespace Second

theorem backtrack0_ok (vars : List SessionVar) (domains : List (List Assignment))
    (b : Bool) (cur : List (Option Assignment))
    (h : backtrackResult vars domains = some (b, cur)) :
    ∃ st, backtrack0 vars domains = some (b, st) ∧ st.currentAssign = cur ∧
      Inv vars st ∧ InDomain domains st ∧ (b = true → allAssigned st = true) := by
  unfold backtrackResult at h
  cases hb : backtrack0 vars domains with
  | none => rw [hb] at h; cases h
  | some p =>
    obtain ⟨b', st⟩ := p
    rw [hb] at h
    simp only [Option.map_some', Option.some.injEq, Prod.mk.injEq] at h
    obtain ⟨rfl, rfl⟩ := h
    have hok := backtrackFuel_ok vars domains _ _ _ _ hb
    exact ⟨st, rfl, rfl, hok.2.2.1 (Inv.inv_init vars), hok.2.2.2 (InDomain.dom_init domains _),
      hok.2.1⟩

/-- C2: when `backtrack` returns true from the initial state (nothing
assigned, the four maps empty), any two distinct variables hold assignments
that differ in (time slot, room); differ in time slot when the variables have
the same `sectionId`; and differ in time slot when they name the same
instructor, or the same TA, by a non-empty id. -/
theorem backtrack_conflict_free (vars : List SessionVar) (domains : List (List Assignment))
    (cur : List (Option Assignment))
    (h : backtrackResult vars domains = some (true, cur))
    (i j : Nat) (hi : i < vars.length) (hj : j < vars.length) (hij : i ≠ j) :
    ∃ a b, cur.getD i none = some a ∧ cur.getD j none = some b ∧
      ¬ (a.timeslotId = b.timeslotId ∧ a.roomId = b.roomId) ∧
      ((varAt vars i).sectionId = (varAt vars j).sectionId →
        a.timeslotId ≠ b.timeslotId) ∧
      (a.instructorId = b.instructorId → a.instructorId ≠ "" →
        a.timeslotId ≠ b.timeslotId) ∧
      (a.taId = b.taId → a.taId ≠ "" → a.timeslotId ≠ b.timeslotId) := by
  obtain ⟨st, _, rfl, hinv, _, hall⟩ := backtrack0_ok vars domains true cur h
  obtain ⟨a, ha⟩ := curAt_of_allAssigned st (hall rfl) i (by rw [hinv.len]; exact hi)
  obtain ⟨b, hb⟩ := curAt_of_allAssigned st (hall rfl) j (by rw [hinv.len]; exact hj)
  refine ⟨a, b, ha, hb, ?_, ?_, ?_, ?_⟩
  · rintro ⟨ht, hr⟩
    exact hinv.roomApart i j a b a.roomId hij ha hb ht rfl (by simp [roomRes, hr])
  · intro hs ht
    exact hinv.sectApart i j a b (varAt vars i).sectionId hij ha hb ht rfl
      (by simp [sectionRes, hs])
  · intro hs hne ht
    refine hinv.instrApart i j a b a.instructorId hij ha hb ht ?_ ?_
    · simp [instrRes, hne]
    · have hne' : b.instructorId ≠ "" := hs ▸ hne
      simp [instrRes, hne', hs]
  · intro hs hne ht
    refine hinv.taApart i j a b a.taId hij ha hb ht ?_ ?_
    · simp [taRes, hne]
    · have hne' : b.taId ≠ "" := hs ▸ hne
      simp [taRes, hne', hs]

theorem backtrack_conflict_free_witness :
    backtrackResult varsP domsP = some (true, curP) ∧
    ∃ a b, curP.getD 0 none = some a ∧ curP.getD 1 none = some b ∧
      ¬ (a.timeslotId = b.timeslotId ∧ a.roomId = b.roomId) ∧
      ((varAt varsP 0).sectionId = (varAt varsP 1).sectionId →
        a.timeslotId ≠ b.timeslotId) ∧
      (a.instructorId = b.instructorId → a.instructorId ≠ "" →
        a.timeslotId ≠ b.timeslotId) ∧
      (a.taId = b.taId → a.taId ≠ "" → a.timeslotId ≠ b.timeslotId) :=
  ⟨by decide, backtrack_conflict_free varsP domsP curP (by decide) 0 1 (by decide)
    (by decide) (by decide)⟩

/-- C3: when `backtrack` returns true, `currentAssign` has one entry per
variable, every entry holds a value, and the value of variable `i` is an
element of `domains[i]`. -/
theorem backtrack_total_assignment (vars : List SessionVar)
    (domains : List (List Assignment)) (cur : List (Option Assignment))
    (h : backtrackResult vars domains = some (true, cur)) :
    cur.length = vars.length ∧ (∀ x, x ∈ cur → x.isSome = true) ∧
      ∀ i, i < vars.length → ∃ a, cur.getD i none = some a ∧ a ∈ domAt domains i := by
  obtain ⟨st, _, rfl, hinv, hdom, hall⟩ := backtrack0_ok vars domains true cur h
  refine ⟨hinv.len, ?_, ?_⟩
  · have := hall rfl
    unfold allAssigned at this
    rw [List.all_eq_true] at this
    exact this
  · intro i hi
    obtain ⟨a, ha⟩ := curAt_of_allAssigned st (hall rfl) i (by rw [hinv.len]; exact hi)
    exact ⟨a, ha, hdom i a ha⟩

theorem backtrack_total_assignment_witness :
    backtrackResult varsP domsP = some (true, curP) ∧
    (curP.length = varsP.length ∧ (∀ x, x ∈ curP → x.isSome = true) ∧
      ∀ i, i < varsP.length → ∃ a, curP.getD i none = some a ∧ a ∈ domAt domsP i) :=
  ⟨by decide, backtrack_total_assignment varsP domsP curP (by decide)⟩

end Second

namespace Second

theorem countP_isNone_set (a : Assignment) :
    ∀ (l : List (Option Assignment)) (i : Nat), i < l.length → l.getD i none = none →
      (l.set i (some a)).countP (fun x => x.isNone) + 1 = l.countP (fun x => x.isNone) := by
  intro l
  induction l with
  | nil => intro i hi; cases hi
  | cons x xs ih =>
    intro i hi hn
    cases i with
    | zero =>
      simp only [List.getD_cons_zero] at hn
      subst hn
      simp [List.countP_cons]
    | succ i =>
      simp only [List.getD_cons_succ] at hn
      have := ih i (by simpa using hi) hn
      simp only [List.set_cons_succ, List.countP_cons]
      omega

theorem unassigned_doAssign (vars : List SessionVar) (var : Nat) (d : Assignment)
    (st : State) (hnone : curAt st var = none) (hlt : var < st.currentAssign.length) :
    unassigned (doAssign vars var d st) + 1 = unassigned st :=
  countP_isNone_set d st.currentAssign var hlt hnone

theorem unassigned_congr {s t : State} (h : SameMembership s t) :
    unassigned t = unassigned s := by
  unfold unassigned
  rw [h.1]

theorem length_doAssign (vars : List SessionVar) (var : Nat) (d : Assignment) (st : State) :
    (doAssign vars var d st).currentAssign.length = st.currentAssign.length := by
  simp [doAssign]

theorem exists_unassigned (st : State) (h : ¬ allAssigned st = true) :
    ∃ j, j < st.currentAssign.length ∧ curAt st j = none := by
  unfold allAssigned at h
  rw [List.all_eq_true] at h
  push_neg at h
  obtain ⟨x, hx, hxn⟩ := h
  obtain ⟨j, hj, he⟩ := List.mem_iff_getElem.mp hx
  refine ⟨j, hj, ?_⟩
  unfold curAt
  rw [List.getD_eq_getElem?_getD, List.getElem?_eq_getElem hj, he]
  cases x with
  | none => rfl
  | some v => exact absurd rfl hxn

theorem legalCount_le (vars : List SessionVar) (domains : List (List Assignment))
    (st : State) (i : Nat) : legalCount vars domains st i ≤ (domAt domains i).length :=
  List.countP_le_length _

theorem tryDomain_total (vars : List SessionVar) (domains : List (List Assignment))
    (next : State → Option (Bool × State)) (var U : Nat)
    (hok : ∀ s b s', next s = some (b, s') → CallOK vars domains s b s')
    (htot : ∀ s, s.currentAssign.length = vars.length → unassigned s + 1 = U →
      ∃ b s', next s = some (b, s'))
    (hlt : var < vars.length) :
    ∀ (ds : List Assignment) (st : State),
      st.currentAssign.length = vars.length → unassigned st = U → curAt st var = none →
      ∃ b st', tryDomain vars next var ds st = some (b, st') := by
  intro ds
  induction ds with
  | nil => intro st _ _ _; exact ⟨false, st, rfl⟩
  | cons d ds ih =>
    intro st hlen hU hnone
    have hs := canAssignVar_snd vars var d st
    have hnone1 : curAt (canAssignVar vars var d st).2 var = none := by
      rw [hs.curAt]; exact hnone
    have hlen1 : (canAssignVar vars var d st).2.currentAssign.length = vars.length := by
      rw [hs.1]; exact hlen
    have hU1 : unassigned (canAssignVar vars var d st).2 = U := by
      rw [unassigned_congr hs]; exact hU
    simp only [tryDomain]
    by_cases hc : (canAssignVar vars var d st).1 = true
    · rw [if_pos hc]
      have hfree : isFree vars var d (canAssignVar vars var d st).2 = true := by
        rw [isFree_congr vars var d hs, ← canAssignVar_fst]
        exact hc
      obtain ⟨b2, st2, hn⟩ := htot (doAssign vars var d (canAssignVar vars var d st).2)
        (by rw [length_doAssign]; exact hlen1)
        (by rw [unassigned_doAssign vars var d _ hnone1 (by rw [hlen1]; exact hlt)]; exact hU1)
      cases b2
      · simp only [hn]
        have hback : SameMembership (canAssignVar vars var d st).2
            (undoAssign vars var d st2) :=
          undo_restores vars var d _ st2 hfree hnone1 ((hok _ _ _ hn).1 rfl)
        exact ih _ (by rw [hback.1]; exact hlen1) (by rw [unassigned_congr hback]; exact hU1)
          (by rw [hback.curAt]; exact hnone1)
      · simp only [hn]
        exact ⟨true, st2, rfl⟩
    · rw [if_neg hc]
      exact ih _ hlen1 hU1 hnone1

theorem backtrackFuel_total (vars : List SessionVar) (domains : List (List Assignment)) :
    ∀ (fuel : Nat) (st : State), st.currentAssign.length = vars.length →
      unassigned st < fuel → ∃ b st', backtrackFuel vars domains fuel st = some (b, st') := by
  intro fuel
  induction fuel with
  | zero => intro st _ h; omega
  | succ fuel ih =>
    intro st hlen hU
    simp only [backtrackFuel]
    by_cases hall : allAssigned st = true
    · rw [if_pos hall]
      exact ⟨true, st, rfl⟩
    · rw [if_neg hall]
      obtain ⟨hs, hsel⟩ := selectUnassignedVar_spec vars domains st
      rcases hsel with ⟨e, _⟩ | ⟨i, hi, e, hn, _⟩
      · rw [if_pos e]
        exact ⟨false, _, rfl⟩
      · have hne : (selectUnassignedVar vars domains st).1 ≠ -1 := by
          rw [e]; omega
        rw [if_neg hne, e]
        simp only [Int.toNat_ofNat]
        exact tryDomain_total vars domains _ i (unassigned st)
          (backtrackFuel_ok vars domains fuel)
          (fun s hl hu => ih s hl (by omega)) hi _ _
          (by rw [hs.1]; exact hlen) (unassigned_congr hs) (by rw [hs.curAt]; exact hn)

theorem isFree_of_solution {vars : List SessionVar} {domains : List (List Assignment)}
    {σ : Nat → Assignment} (hsol : Solution vars domains σ) {st : State}
    (hinv : Inv vars st) (hext : Extends st σ) (var : Nat) (hlt : var < vars.length)
    (hnone : curAt st var = none) : isFree vars var (σ var) st = true := by
  have key : ∀ i a, st.currentAssign.getD i none = some a →
      a = σ i ∧ i < vars.length ∧ i ≠ var := by
    intro i a h
    refine ⟨hext i a h, ?_, ?_⟩
    · by_contra hge
      have : st.currentAssign.getD i none = none :=
        List.getD_eq_default _ _ (by rw [hinv.len]; omega)
      rw [this] at h
      cases h
    · rintro rfl
      have h' : curAt st i = some a := h
      rw [hnone] at h'
      cases h'
  rw [isFree_iff]
  refine ⟨?_, ?_, ?_, ?_⟩
  · intro x hx
    by_contra hc
    obtain ⟨i, a, h1, h2, h3⟩ := (hinv.room _ x).mp (by simpa using hc)
    obtain ⟨rfl, hi, hne⟩ := key i a h1
    simp only [roomRes, Option.some.injEq] at hx h3
    exact hsol.room i var hi hlt hne ⟨h2, h3.trans hx.symm⟩
  · intro x hx
    by_contra hc
    obtain ⟨i, a, h1, h2, h3⟩ := (hinv.instr _ x).mp (by simpa using hc)
    obtain ⟨rfl, hi, hne⟩ := key i a h1
    unfold instrRes at hx h3
    split at hx
    · split at h3
      · rename_i n1 n2
        simp only [Option.some.injEq] at hx h3
        exact hsol.instr i var hi hlt hne ⟨h2, h3.trans hx.symm, by simpa using n2⟩
      · cases h3
    · cases hx
  · intro x hx
    by_contra hc
    obtain ⟨i, a, h1, h2, h3⟩ := (hinv.ta _ x).mp (by simpa using hc)
    obtain ⟨rfl, hi, hne⟩ := key i a h1
    unfold taRes at hx h3
    split at hx
    · split at h3
      · rename_i n1 n2
        simp only [Option.some.injEq] at hx h3
        exact hsol.ta i var hi hlt hne ⟨h2, h3.trans hx.symm, by simpa using n2⟩
      · cases h3
    · cases hx
  · intro x hx
    by_contra hc
    obtain ⟨i, a, h1, h2, h3⟩ := (hinv.sect _ x).mp (by simpa using hc)
    obtain ⟨rfl, hi, hne⟩ := key i a h1
    simp only [sectionRes, Option.some.injEq] at hx h3
    exact hsol.sect i var hi hlt hne (h3.trans hx.symm) h2

end Second

namespace Second

theorem Extends.ext_doAssign {vars : List SessionVar} {st : State} {σ : Nat → Assignment}
    (h : Extends st σ) (var : Nat) : Extends (Second.doAssign vars var (σ var) st) σ := by
  intro i a hia
  rcases getD_set_cases st.currentAssign var i (some (σ var)) a hia with ⟨rfl, hv⟩ | hold
  · injection hv with hv
    exact hv.symm
  · exact h i a hold

theorem Extends.ext_congr {s t : State} {σ : Nat → Assignment} (h : Extends s σ)
    (hst : SameMembership s t) : Extends t σ := by
  intro i a hia
  rw [hst.curAt] at hia
  exact h i a hia

theorem tryDomain_complete (vars : List SessionVar) (domains : List (List Assignment))
    (σ : Nat → Assignment) (hsol : Solution vars domains σ)
    (next : State → Option (Bool × State)) (var U : Nat)
    (hok : ∀ s b s', next s = some (b, s') → CallOK vars domains s b s')
    (htot : ∀ s, s.currentAssign.length = vars.length → unassigned s + 1 = U →
      ∃ b s', next s = some (b, s'))
    (hnext : ∀ s, Inv vars s → Extends s σ → unassigned s + 1 = U →
      ∃ s', next s = some (true, s'))
    (hlt : var < vars.length) :
    ∀ (ds : List Assignment) (st : State),
      Inv vars st → Extends st σ → unassigned st = U → curAt st var = none → σ var ∈ ds →
      ∃ st', tryDomain vars next var ds st = some (true, st') := by
  intro ds
  induction ds with
  | nil => intro st _ _ _ _ hm; cases hm
  | cons d ds ih =>
    intro st hinv hext hU hnone hmem
    have hs := canAssignVar_snd vars var d st
    have hnone1 : curAt (canAssignVar vars var d st).2 var = none := by
      rw [hs.curAt]; exact hnone
    have hinv1 : Inv vars (canAssignVar vars var d st).2 := hinv.inv_congr hs
    have hext1 : Extends (canAssignVar vars var d st).2 σ := hext.ext_congr hs
    have hU1 : unassigned (canAssignVar vars var d st).2 = U := by
      rw [unassigned_congr hs]; exact hU
    have hdo : unassigned (doAssign vars var d (canAssignVar vars var d st).2) + 1 = U := by
      rw [unassigned_doAssign vars var d _ hnone1 (by rw [hinv1.len]; exact hlt)]
      exact hU1
    simp only [tryDomain]
    by_cases hd : d = σ var
    · subst hd
      have hfree : isFree vars var (σ var) (canAssignVar vars var (σ var) st).2 = true :=
        isFree_of_solution hsol hinv1 hext1 var hlt hnone1
      have hc : (canAssignVar vars var (σ var) st).1 = true := by
        rw [canAssignVar_fst, ← isFree_congr vars var (σ var) hs]
        exact hfree
      rw [if_pos hc]
      obtain ⟨s', hs'⟩ := hnext _ (hinv1.inv_doAssign var (σ var) hnone1 hlt hfree)
        (hext1.ext_doAssign var) hdo
      rw [hs']
      exact ⟨s', rfl⟩
    · have hmem' : σ var ∈ ds := by
        rcases List.mem_cons.mp hmem with h | h
        · exact absurd h.symm hd
        · exact h
      by_cases hc : (canAssignVar vars var d st).1 = true
      · rw [if_pos hc]
        have hfree : isFree vars var d (canAssignVar vars var d st).2 = true := by
          rw [isFree_congr vars var d hs, ← canAssignVar_fst]
          exact hc
        obtain ⟨b2, st2, hn⟩ := htot (doAssign vars var d (canAssignVar vars var d st).2)
          (by rw [length_doAssign]; exact hinv1.len) hdo
        cases b2
        · simp only [hn]
          have hback : SameMembership (canAssignVar vars var d st).2
              (undoAssign vars var d st2) :=
            undo_restores vars var d _ st2 hfree hnone1 ((hok _ _ _ hn).1 rfl)
          exact ih _ (hinv1.inv_congr hback) (hext1.ext_congr hback)
            (by rw [unassigned_congr hback]; exact hU1)
            (by rw [hback.curAt]; exact hnone1) hmem'
        · simp only [hn]
          exact ⟨st2, rfl⟩
      · rw [if_neg hc]
        exact ih _ hinv1 hext1 hU1 hnone1 hmem'

theorem backtrackFuel_complete (vars : List SessionVar) (domains : List (List Assignment))
    (σ : Nat → Assignment) (hsol : Solution vars domains σ)
    (hsize : ∀ i, i < vars.length → (domAt domains i).length < SIZE_MAX) :
    ∀ (fuel : Nat) (st : State), Inv vars st → Extends st σ → unassigned st < fuel →
      ∃ st', backtrackFuel vars domains fuel st = some (true, st') := by
  intro fuel
  induction fuel with
  | zero => intro st _ _ h; omega
  | succ fuel ih =>
    intro st hinv hext hU
    simp only [backtrackFuel]
    by_cases hall : allAssigned st = true
    · rw [if_pos hall]
      exact ⟨st, rfl⟩
    · rw [if_neg hall]
      obtain ⟨hs, hsel⟩ := selectUnassignedVar_spec vars domains st
      rcases hsel with ⟨_, hbig⟩ | ⟨i, hi, e, hn, _⟩
      · exfalso
        obtain ⟨j, hj, hjn⟩ := exists_unassigned st hall
        rw [hinv.len] at hj
        have h1 := hbig j hj hjn
        have h2 := legalCount_le vars domains st j
        have h3 := hsize j hj
        omega
      · have hne : (selectUnassignedVar vars domains st).1 ≠ -1 := by
          rw [e]; omega
        rw [if_neg hne, e]
        simp only [Int.toNat_ofNat]
        exact tryDomain_complete vars domains σ hsol _ i (unassigned st)
          (backtrackFuel_ok vars domains fuel)
          (fun s hl hu => backtrackFuel_total vars domains fuel s hl (by omega))
          (fun s hi' he hu => ih s hi' he (by omega)) hi _ _
          (hinv.inv_congr hs) (hext.ext_congr hs) (unassigned_congr hs)
          (by rw [hs.curAt]; exact hn) (hsol.mem i hi)

theorem unassigned_initState (n : Nat) : unassigned (initState n) = n := by
  simp [unassigned, initState, List.countP_replicate]

/-- C5: `backtrack` with the minimum-remaining-values ordering is complete.
From the initial state, if one item can be chosen in every domain so that no
two variables share (time slot, room), no two variables of the same section
share a time slot, and no two variables share a time slot together with the
same non-empty instructor id or TA id, then `backtrack` returns true.  Domain
sizes are below `SIZE_MAX`, as for every `std::vector`. -/
theorem backtrack_complete (vars : List SessionVar) (domains : List (List Assignment))
    (σ : Nat → Assignment) (hsol : Solution vars domains σ)
    (hsize : ∀ i, i < vars.length → (domAt domains i).length < SIZE_MAX) :
    ∃ cur, backtrackResult vars domains = some (true, cur) := by
  obtain ⟨st, hst⟩ := backtrackFuel_complete vars domains σ hsol hsize
    ((initState vars.length).currentAssign.length + 1) (initState vars.length)
    (Inv.inv_init vars)
    (fun i a h => absurd (InDomain.dom_init [] vars.length i a h) (by simp [domAt]))
    (by rw [unassigned_initState]; simp [initState])
  refine ⟨st.currentAssign, ?_⟩
  unfold backtrackResult backtrack0 backtrack
  rw [hst]
  rfl

theorem backtrack_complete_witness :
    Solution varsP domsP sigmaP ∧ ∃ cur, backtrackResult varsP domsP = some (true, cur) :=
  have hsol : Solution varsP domsP sigmaP :=
    { mem := by
        intro i hi
        have hi2 : i < 2 := hi
        interval_cases i <;> decide
      room := by
        intro i j hi hj hij
        have hi2 : i < 2 := hi
        have hj2 : j < 2 := hj
        interval_cases i <;> interval_cases j <;> first | exact absurd rfl hij | decide
      sect := by
        intro i j hi hj hij
        have hi2 : i < 2 := hi
        have hj2 : j < 2 := hj
        interval_cases i <;> interval_cases j <;> first | exact absurd rfl hij | decide
      instr := by
        intro i j hi hj hij
        have hi2 : i < 2 := hi
        have hj2 : j < 2 := hj
        interval_cases i <;> interval_cases j <;> first | exact absurd rfl hij | decide
      ta := by
        intro i j hi hj hij
        have hi2 : i < 2 := hi
        have hj2 : j < 2 := hj
        interval_cases i <;> interval_cases j <;> first | exact absurd rfl hij | decide }
  ⟨hsol, backtrack_complete varsP domsP sigmaP hsol (by
    intro i hi
    have hi2 : i < 2 := hi
    interval_cases i <;> decide)⟩

end Second

namespace Second

theorem isFree_initState (vars : List SessionVar) (i : Nat) (d : Assignment) (n : Nat) :
    isFree vars i d (initState n) = true := by
  simp [isFree, initState, BusyMap.count_empty]

theorem legalCount_initState (vars : List SessionVar) (domains : List (List Assignment))
    (i n : Nat) : legalCount vars domains (initState n) i = (domAt domains i).length := by
  unfold legalCount
  rw [List.countP_eq_length]
  intro d _
  exact isFree_initState vars i d n

theorem curAt_initState (n i : Nat) : curAt (initState n) i = none := by
  simp only [curAt, initState, List.getD_eq_getElem?_getD, List.getElem?_replicate]
  split <;> rfl

theorem allAssigned_initState (n : Nat) (h : 0 < n) : allAssigned (initState n) = false := by
  cases n with
  | zero => omega
  | succ n => simp [allAssigned, initState, List.replicate_succ]

/-- The root call on a problem with an empty domain, for any positive bound on
the depth: the loop over the selected domain is empty. -/
theorem backtrackFuel_empty_domain (vars : List SessionVar)
    (domains : List (List Assignment))
    (hempty : ∃ i, i < vars.length ∧ domAt domains i = []) (fuel : Nat) :
    backtrackFuel vars domains (fuel + 1) (initState vars.length) =
        some (false, (selectUnassignedVar vars domains (initState vars.length)).2) ∧
      ∃ i, i < vars.length ∧
        (selectUnassignedVar vars domains (initState vars.length)).1 = (i : Int) ∧
        legalCount vars domains (initState vars.length) i = 0 ∧ domAt domains i = [] := by
  obtain ⟨i0, hi0, hd0⟩ := hempty
  have hzero : legalCount vars domains (initState vars.length) i0 = 0 := by
    rw [legalCount_initState, hd0]; rfl
  have hall : allAssigned (initState vars.length) = false :=
    allAssigned_initState _ (by omega)
  obtain ⟨_, hsel⟩ := selectUnassignedVar_spec vars domains (initState vars.length)
  rcases hsel with ⟨_, hbig⟩ | ⟨i, hi, e, _, hmin⟩
  · exfalso
    have := hbig i0 hi0 (curAt_initState _ _)
    rw [hzero] at this
    have hpos : 0 < SIZE_MAX := by decide
    omega
  · have hle := hmin i0 hi0 (curAt_initState _ _)
    rw [hzero] at hle
    have hz : legalCount vars domains (initState vars.length) i = 0 := by omega
    have hd : domAt domains i = [] := by
      rw [legalCount_initState] at hz
      exact List.length_eq_zero.mp hz
    have hne : (selectUnassignedVar vars domains (initState vars.length)).1 ≠ -1 := by
      rw [e]; omega
    refine ⟨?_, i, hi, e, hz, hd⟩
    simp only [backtrackFuel, hall, Bool.false_eq_true, if_false, if_neg hne]
    rw [e]
    simp only [Int.toNat_ofNat, hd, tryDomain]

/-- C8 (as amended): when some variable has an empty domain, `backtrack` from
the initial state returns false in the root call, without any recursive call
(a depth bound of one suffices) and so without any `doAssign`:
`selectUnassignedVar` returns a variable with zero legal items, whose domain
is empty.  `currentAssign` is unchanged and no id is a member of any set of
the four maps. -/
theorem backtrack_empty_domain (vars : List SessionVar) (domains : List (List Assignment))
    (hempty : ∃ i, i < vars.length ∧ domAt domains i = []) :
    ∃ st, backtrackFuel vars domains 1 (initState vars.length) = some (false, st) ∧
      backtrack0 vars domains = some (false, st) ∧
      st.currentAssign = (initState vars.length).currentAssign ∧
      (∀ k x, st.roomBusy.count k x = false ∧ st.instrBusy.count k x = false ∧
        st.taBusy.count k x = false ∧ st.sectionBusy.count k x = false) ∧
      ∃ i, i < vars.length ∧
        (selectUnassignedVar vars domains (initState vars.length)).1 = (i : Int) ∧
        legalCount vars domains (initState vars.length) i = 0 ∧ domAt domains i = [] := by
  obtain ⟨h1, hsel⟩ := backtrackFuel_empty_domain vars domains hempty 0
  obtain ⟨h2, _⟩ := backtrackFuel_empty_domain vars domains hempty
    (initState vars.length).currentAssign.length
  obtain ⟨hs, _⟩ := selectUnassignedVar_spec vars domains (initState vars.length)
  refine ⟨_, h1, h2, hs.1, ?_, hsel⟩
  intro k x
  exact ⟨by rw [hs.2.1]; rfl, by rw [hs.2.2.1]; rfl, by rw [hs.2.2.2.1]; rfl,
    by rw [hs.2.2.2.2]; rfl⟩

theorem backtrack_empty_domain_witness :
    (∃ i, i < varsP.length ∧ domAt domsQ i = []) ∧
    ∃ st, backtrackFuel varsP domsQ 1 (initState varsP.length) = some (false, st) ∧
      backtrack0 varsP domsQ = some (false, st) ∧
      st.currentAssign = (initState varsP.length).currentAssign :=
  have hq : ∃ i, i < varsP.length ∧ domAt domsQ i = [] := ⟨1, by decide, by decide⟩
  ⟨hq, (backtrack_empty_domain varsP domsQ hq).imp
    fun _ h => ⟨h.1, h.2.1, h.2.2.1⟩⟩

/-- C8 as stated fails for the maps themselves: on `varsP`, `domsQ` the second
domain is empty, yet the failed root call leaves the key `t1` in `roomBusy`,
added by the `operator[]` of `canAssignVar` while the legal items of the first
variable were counted. -/
theorem backtrack_empty_domain_adds_key :
    ¬ ∀ (vars : List SessionVar) (domains : List (List Assignment)),
      (∃ i, i < vars.length ∧ domAt domains i = []) →
      ∃ st, backtrack0 vars domains = some (false, st) ∧
        st.currentAssign = (initState vars.length).currentAssign ∧
        st.roomBusy = (initState vars.length).roomBusy ∧
        st.instrBusy = (initState vars.length).instrBusy ∧
        st.taBusy = (initState vars.length).taBusy ∧
        st.sectionBusy = (initState vars.length).sectionBusy := by
  intro hall
  obtain ⟨st, h1, _, h2, _⟩ := hall varsP domsQ ⟨1, by decide, by decide⟩
  have hkey : (backtrack0 varsP domsQ).map (fun p => (p.2.roomBusy "t1").isSome) =
      some true := by decide
  rw [h1] at hkey
  simp only [Option.map_some', Option.some.injEq] at hkey
  rw [h2] at hkey
  revert hkey
  decide

end Second

namespace Second

/-- C20: a failed search leaves the state as it found it.  From every state,
if `backtrack` returns false then `currentAssign` is what it was and every busy
map has the same membership for every time slot and id; a failed search from
the initial state ends with nothing assigned and nothing occupied. -/
theorem backtrack_failure_restores (vars : List SessionVar)
    (domains : List (List Assignment)) (st st' : State)
    (h : backtrack vars domains st = some (false, st')) :
    SameMembership st st' ∧
      (st = initState vars.length → SameAsInit vars.length st') := by
  have hs : SameMembership st st' := (backtrackFuel_ok vars domains _ st false st' h).1 rfl
  refine ⟨hs, ?_⟩
  rintro rfl
  refine ⟨hs.1, fun k x => ⟨?_, ?_, ?_, ?_⟩⟩
  · rw [hs.2.1]; rfl
  · rw [hs.2.2.1]; rfl
  · rw [hs.2.2.2.1]; rfl
  · rw [hs.2.2.2.2]; rfl

theorem backtrack_failure_restores_witness :
    ∃ st', backtrack varsP domsR (initState varsP.length) = some (false, st') ∧
      SameMembership (initState varsP.length) st' ∧ SameAsInit varsP.length st' := by
  have hfst : (backtrack varsP domsR (initState varsP.length)).map Prod.fst = some false := by
    decide
  cases hb : backtrack varsP domsR (initState varsP.length) with
  | none => rw [hb] at hfst; cases hfst
  | some p =>
    obtain ⟨b, st'⟩ := p
    rw [hb] at hfst
    simp only [Option.map_some', Option.some.injEq] at hfst
    subst hfst
    have h := backtrack_failure_restores varsP domsR (initState varsP.length) st' hb
    exact ⟨st', rfl, h.1, h.2 rfl⟩

end Second

namespace Second

theorem instrBusy_doAssign (vars : List SessionVar) (i : Nat) (a : Assignment) (st : State)
    (hX : a.instructorId ≠ "") :
    (doAssign vars i a st).instrBusy.count a.timeslotId a.instructorId = true := by
  have hb : (a.instructorId != "") = true := by simpa using hX
  simp only [doAssign, hb, if_true]
  exact (BusyMap.count_insert _ _ _ _ _).mpr (Or.inl ⟨rfl, rfl⟩)

/-- C16 (as amended): the second program tracks staff per table, not per
session category.  After `doAssign` commits a variable with the non-empty
instructor id `X` at slot `t`, `canAssignVar` rejects every candidate at `t`
that names instructor `X`, whatever the types of the two variables; a
candidate at `t` without instructor is accepted when its room, its TA (if
any) and its section are free at `t`. -/
theorem canAssignVar_after_doAssign (vars : List SessionVar) (st : State) (i j : Nat)
    (a d : Assignment) (hX : a.instructorId ≠ "") (ht : d.timeslotId = a.timeslotId) :
    (d.instructorId = a.instructorId →
      (canAssignVar vars j d (doAssign vars i a st)).1 = false) ∧
    (d.instructorId = "" →
      (doAssign vars i a st).roomBusy.count d.timeslotId d.roomId = false →
      (d.taId ≠ "" → (doAssign vars i a st).taBusy.count d.timeslotId d.taId = false) →
      (doAssign vars i a st).sectionBusy.count d.timeslotId (varAt vars j).sectionId = false →
      (canAssignVar vars j d (doAssign vars i a st)).1 = true) := by
  constructor
  · intro hd
    have hne : d.instructorId ≠ "" := by rw [hd]; exact hX
    have hc := instrBusy_doAssign vars i a st hX
    rw [← ht, ← hd] at hc
    rw [canAssignVar_fst]
    simp [isFree, hc, hne]
  · intro hd h1 h2 h3
    rw [canAssignVar_fst]
    by_cases hta : d.taId = ""
    · simp [isFree, hd, h1, h3, hta]
    · simp [isFree, hd, h1, h3, h2 hta]

theorem canAssignVar_after_doAssign_witness :
    lecItem.instructorId ≠ "" ∧ tutItem.timeslotId = lecItem.timeslotId ∧
      tutItem.instructorId = lecItem.instructorId ∧
      (canAssignVar varsT 1 tutItem (doAssign varsT 0 lecItem (initState 2))).1 = false :=
  ⟨by decide, by decide, by decide,
    (canAssignVar_after_doAssign varsT (initState 2) 0 1 lecItem tutItem (by decide)
      (by decide)).1 (by decide)⟩

/-- C16 as stated fails: after the lecture of instructor `i1` is committed at
`t1`, the tutorial candidate of another section in the free room `r2` at `t1`
with the same instructor is rejected. -/
theorem canAssignVar_rejects_same_instructor :
    ¬ ∀ (vars : List SessionVar) (st : State) (i j : Nat) (a d : Assignment),
      (varAt vars i).type = "LEC" →
      ((varAt vars j).type = "TUT" ∨ (varAt vars j).type = "LAB") →
      a.instructorId ≠ "" → d.timeslotId = a.timeslotId →
      d.instructorId = a.instructorId →
      (doAssign vars i a st).roomBusy.count d.timeslotId d.roomId = false →
      (doAssign vars i a st).sectionBusy.count d.timeslotId (varAt vars j).sectionId = false →
      (canAssignVar vars j d (doAssign vars i a st)).1 = true := by
  intro hall
  have h := hall varsT (initState 2) 0 1 lecItem tutItem (by decide) (by decide) (by decide)
    (by decide) (by decide) (by decide) (by decide)
  revert h
  decide

end Second

namespace First

theorem solve0_time_room (c : Catalog) (sessions : List Session) (a : List Assignment)
    (h : solve0 c sessions = some (true, a)) (i : Nat) (hi : i < sessions.length) :
    ∃ t r : Nat, t < c.timeSlots.length ∧ r < c.rooms.length ∧
      (asgAt a i).timeId = (t : Int) ∧ (asgAt a i).roomIndex = (r : Int) := by
  obtain ⟨⟨sec, _, t, r, teach, hm, he⟩, _⟩ := solve0_goodAt c sessions a h i hi
  obtain ⟨ht, hr, _⟩ := (mem_candidates c _ sec t r teach).mp hm
  have hr' : r < c.rooms.length := by
    simp only [possible_rooms, List.mem_filter, List.mem_range] at hr
    exact hr.1
  exact ⟨t, r, ht, hr', by rw [he], by rw [he]⟩

theorem solve0_distinct_time_room (c : Catalog) (sessions : List Session)
    (a : List Assignment) (h : solve0 c sessions = some (true, a))
    (i j : Nat) (hi : i < sessions.length) (hj : j < sessions.length) (hij : i ≠ j) :
    ¬ ((asgAt a i).timeId = (asgAt a j).timeId ∧
      (asgAt a i).roomIndex = (asgAt a j).roomIndex) := by
  rcases Nat.lt_or_gt_of_ne hij with hlt | hgt
  · exact ((check_constraints_iff sessions a j).mp
      (solve0_goodAt c sessions a h j hj).2 i hlt).1
  · intro hc
    exact ((check_constraints_iff sessions a i).mp
      (solve0_goodAt c sessions a h i hi).2 j hgt).1 ⟨hc.1.symm, hc.2.symm⟩

theorem solve0_length_le (c : Catalog) (sessions : List Session) (a : List Assignment)
    (h : solve0 c sessions = some (true, a)) :
    sessions.length ≤ c.timeSlots.length * c.rooms.length := by
  have hcard := Finset.card_le_card_of_injOn
    (s := Finset.range sessions.length)
    (t := Finset.range c.timeSlots.length ×ˢ Finset.range c.rooms.length)
    (fun i => ((asgAt a i).timeId.toNat, (asgAt a i).roomIndex.toNat))
    (by
      intro i hi
      obtain ⟨t, r, ht, hr, e1, e2⟩ := solve0_time_room c sessions a h i
        (Finset.mem_range.mp hi)
      simp only [Finset.mem_product, Finset.mem_range, e1, e2, Int.toNat_ofNat]
      exact ⟨ht, hr⟩)
    (by
      intro i hi j hj hij
      by_contra hne
      have hi' : i < sessions.length := by simpa using hi
      have hj' : j < sessions.length := by simpa using hj
      obtain ⟨t, r, _, _, e1, e2⟩ := solve0_time_room c sessions a h i hi'
      obtain ⟨t', r', _, _, e1', e2'⟩ := solve0_time_room c sessions a h j hj'
      simp only [Prod.mk.injEq, e1, e2, e1', e2', Int.toNat_ofNat] at hij
      apply solve0_distinct_time_room c sessions a h i j hi' hj' hne
      rw [e1, e2, e1', e2', hij.1, hij.2]
      exact ⟨rfl, rfl⟩)
  simpa [Finset.card_product] using hcard

/-- C19: when the sessions outnumber the (time slot, room) pairs, `solve(0)`
returns false (for sessions that refer to existing sections).  In particular
it returns false for two sections that each need one lecture of the same
course, with a single time slot, a single room and a single instructor. -/
theorem solve_pigeonhole :
    (∀ (c : Catalog) (sessions : List Session), ValidSections c sessions →
      c.timeSlots.length * c.rooms.length < sessions.length →
      ∃ a, solve0 c sessions = some (false, a)) ∧
    solve0 catE sessB = some (false, [unset, unset]) := by
  refine ⟨?_, by decide⟩
  intro c sessions hv hgt
  obtain ⟨b, a, hsol⟩ := solveFrom_total c sessions (sessions.drop 0) 0
    (initAssignments sessions)
    (fun s hs => Option.isSome_iff_exists.mp (hv s (by simpa using hs)))
  have hsol0 : solve0 c sessions = some (b, a) := hsol
  cases b
  · exact ⟨a, hsol0⟩
  · have := solve0_length_le c sessions a hsol0
    omega

theorem solve_pigeonhole_witness :
    ValidSections catE sessB ∧ catE.timeSlots.length * catE.rooms.length < sessB.length ∧
      ∃ a, solve0 catE sessB = some (false, a) :=
  ⟨by decide, by decide, solve_pigeonhole.1 catE sessB (by decide) (by decide)⟩

end First

namespace First

end First

namespace First

theorem length_flatMap_const {α β : Type} (f : α → List β) (n : Nat) :
    ∀ (l : List α), (∀ x, x ∈ l → (f x).length = n) → (l.flatMap f).length = l.length * n := by
  intro l
  induction l with
  | nil => intro _; simp
  | cons x xs ih =>
    intro h
    rw [List.flatMap_cons, List.length_append, h x (List.mem_cons_self _ _),
      ih (fun y hy => h y (List.mem_cons_of_mem _ hy)), List.length_cons]
    ring

end First

namespace Second

theorem getD_buildFrom (shuffle : Nat → List Assignment → List Assignment) (cat : Tables) :
    ∀ (vs : List SessionVar) (i k : Nat), k < vs.length →
      (buildFrom shuffle cat i vs).getD k [] =
        shuffle ((123 + (i + k)) % 2 ^ 32) (rawDomain cat (varAt vs k)) := by
  intro vs
  induction vs with
  | nil => intro i k hk; cases hk
  | cons v vs ih =>
    intro i k hk
    cases k with
    | zero => simp [buildFrom, varAt]
    | succ k =>
      have := ih (i + 1) k (by simpa using hk)
      simp only [buildFrom, List.getD_cons_succ, varAt] at this ⊢
      rw [this]
      congr 2
      omega

theorem domAt_buildDomains (shuffle : Nat → List Assignment → List Assignment)
    (cat : Tables) (vars : List SessionVar) (i : Nat) (hi : i < vars.length) :
    domAt (buildDomains shuffle cat vars) i =
      shuffle ((123 + i) % 2 ^ 32) (rawDomain cat (varAt vars i)) := by
  have := getD_buildFrom shuffle cat vars 0 i hi
  simpa [domAt, buildDomains] using this

theorem perm_domAt_buildDomains (shuffle : Nat → List Assignment → List Assignment)
    (hs : IsShuffle shuffle) (cat : Tables) (vars : List SessionVar) (i : Nat)
    (hi : i < vars.length) :
    (domAt (buildDomains shuffle cat vars) i).Perm (rawDomain cat (varAt vars i)) := by
  rw [domAt_buildDomains shuffle cat vars i hi]
  exact hs _ _

theorem mem_rawDomain (cat : Tables) (v : SessionVar) (a : Assignment) :
    a ∈ rawDomain cat v ↔
      ∃ ts, ts ∈ cat.timeslots ∧ ∃ r, r ∈ candidateRooms cat v ∧
        ∃ p, p ∈ staffIds cat v ∧ a = ⟨ts.id, r.id, p.1, p.2⟩ := by
  simp only [rawDomain, List.mem_flatMap, List.mem_map]
  constructor
  · rintro ⟨ts, hts, r, hr, p, hp, rfl⟩
    exact ⟨ts, hts, r, hr, p, hp, rfl⟩
  · rintro ⟨ts, hts, r, hr, p, hp, rfl⟩
    exact ⟨ts, hts, r, hr, p, hp, rfl⟩

theorem mem_candidateRooms (cat : Tables) (v : SessionVar) (r : Room) :
    r ∈ candidateRooms cat v ↔
      r ∈ cat.rooms ∧ v.neededCapacity ≤ r.capacity ∧
        roomMatchesType r (requiredRoomType v) = true := by
  simp [candidateRooms, List.mem_filter]

theorem mem_instructorIds (cat : Tables) (v : SessionVar) (p : String × String) :
    p ∈ instructorIds cat v ↔
      ∃ ins, ins ∈ cat.instructors ∧
        (ins.qualCourses = [] ∨ v.courseId ∈ ins.qualCourses) ∧ p = (ins.id, "") := by
  simp only [instructorIds, List.mem_map, List.mem_filter, Bool.or_eq_true,
    List.isEmpty_iff, List.contains_iff_exists_mem_beq, beq_iff_eq]
  constructor
  · rintro ⟨ins, ⟨h1, h2⟩, rfl⟩
    refine ⟨ins, h1, ?_, rfl⟩
    rcases h2 with h2 | ⟨x, hx, rfl⟩
    · exact Or.inl h2
    · exact Or.inr hx
  · rintro ⟨ins, h1, h2, rfl⟩
    refine ⟨ins, ⟨h1, ?_⟩, rfl⟩
    rcases h2 with h2 | h2
    · exact Or.inl h2
    · exact Or.inr ⟨_, h2, rfl⟩

theorem mem_taIds (cat : Tables) (v : SessionVar) (role : String) (p : String × String) :
    p ∈ taIds cat v role ↔
      ∃ t, t ∈ cat.tas ∧ (t.qualRoles = [] ∨ role ∈ t.qualRoles) ∧
        (t.qualCourses = [] ∨ v.courseId ∈ t.qualCourses) ∧ p = ("", t.id) := by
  simp only [taIds, List.mem_map, List.mem_filter, Bool.or_eq_true, Bool.and_eq_true,
    List.isEmpty_iff, List.contains_iff_exists_mem_beq, beq_iff_eq]
  constructor
  · rintro ⟨t, ⟨h1, h2, h3⟩, rfl⟩
    refine ⟨t, h1, ?_, ?_, rfl⟩
    · rcases h2 with h2 | ⟨x, hx, rfl⟩
      · exact Or.inl h2
      · exact Or.inr hx
    · rcases h3 with h3 | ⟨x, hx, rfl⟩
      · exact Or.inl h3
      · exact Or.inr hx
  · rintro ⟨t, h1, h2, h3, rfl⟩
    refine ⟨t, ⟨h1, ?_, ?_⟩, rfl⟩
    · rcases h2 with h2 | h2
      · exact Or.inl h2
      · exact Or.inr ⟨_, h2, rfl⟩
    · rcases h3 with h3 | h3
      · exact Or.inl h3
      · exact Or.inr ⟨_, h3, rfl⟩

theorem staffIds_lec (cat : Tables) (v : SessionVar) (h : v.type = "LEC") :
    staffIds cat v = instructorIds cat v := by
  simp [staffIds, h]

theorem staffIds_tut (cat : Tables) (v : SessionVar) (h : v.type = "TUT") :
    staffIds cat v = taIds cat v "TUT" ++ instructorIds cat v := by
  have e : ("TUT" == "LEC") = false := by decide
  simp [staffIds, h, e]

theorem staffIds_lab (cat : Tables) (v : SessionVar) (h : v.type = "LAB") :
    staffIds cat v = taIds cat v "LAB" ++ instructorIds cat v := by
  have e1 : ("LAB" == "LEC") = false := by decide
  have e2 : ("LAB" == "TUT") = false := by decide
  simp [staffIds, h, e1, e2]

end Second

namespace Second

theorem isShuffle_keepOrder : IsShuffle keepOrder :=
  fun _ l => List.Perm.refl l

theorem staff_of_mem_domAt (shuffle : Nat → List Assignment → List Assignment)
    (hs : IsShuffle shuffle) (cat : Tables) (vars : List SessionVar) (i : Nat)
    (hi : i < vars.length) (a : Assignment)
    (ha : a ∈ domAt (buildDomains shuffle cat vars) i) :
    ∃ ts, ts ∈ cat.timeslots ∧ ∃ r, r ∈ candidateRooms cat (varAt vars i) ∧
      ∃ p, p ∈ staffIds cat (varAt vars i) ∧ a = ⟨ts.id, r.id, p.1, p.2⟩ :=
  (mem_rawDomain cat _ a).mp ((perm_domAt_buildDomains shuffle hs cat vars i hi).mem_iff.mp ha)

/-- C11 (as amended): the staff of every domain item is accepted by
`buildDomains`: for a LEC variable an instructor whose qualified-course set
is empty or contains the course, and no TA; for a TUT variable a TA whose
role set is empty or contains `TUT` and whose course set is empty or contains
the course, or such an instructor; for a LAB variable the same with `LAB`.
A LEC variable has an empty domain when every instructor has a non-empty
qualified-course set without the course. -/
theorem buildDomains_staff (shuffle : Nat → List Assignment → List Assignment)
    (hs : IsShuffle shuffle) (cat : Tables) (vars : List SessionVar) (i : Nat)
    (hi : i < vars.length) :
    (∀ a, a ∈ domAt (buildDomains shuffle cat vars) i →
      ((varAt vars i).type = "LEC" →
        ∃ ins, ins ∈ cat.instructors ∧
          (ins.qualCourses = [] ∨ (varAt vars i).courseId ∈ ins.qualCourses) ∧
          a.instructorId = ins.id ∧ a.taId = "") ∧
      ((varAt vars i).type = "TUT" →
        (∃ t, t ∈ cat.tas ∧ (t.qualRoles = [] ∨ "TUT" ∈ t.qualRoles) ∧
          (t.qualCourses = [] ∨ (varAt vars i).courseId ∈ t.qualCourses) ∧
          a.taId = t.id ∧ a.instructorId = "") ∨
        ∃ ins, ins ∈ cat.instructors ∧
          (ins.qualCourses = [] ∨ (varAt vars i).courseId ∈ ins.qualCourses) ∧
          a.instructorId = ins.id ∧ a.taId = "") ∧
      ((varAt vars i).type = "LAB" →
        (∃ t, t ∈ cat.tas ∧ (t.qualRoles = [] ∨ "LAB" ∈ t.qualRoles) ∧
          (t.qualCourses = [] ∨ (varAt vars i).courseId ∈ t.qualCourses) ∧
          a.taId = t.id ∧ a.instructorId = "") ∨
        ∃ ins, ins ∈ cat.instructors ∧
          (ins.qualCourses = [] ∨ (varAt vars i).courseId ∈ ins.qualCourses) ∧
          a.instructorId = ins.id ∧ a.taId = "")) ∧
    ((varAt vars i).type = "LEC" →
      (∀ ins, ins ∈ cat.instructors →
        ins.qualCourses ≠ [] ∧ (varAt vars i).courseId ∉ ins.qualCourses) →
      domAt (buildDomains shuffle cat vars) i = []) := by
  have ins_case : ∀ (a : Assignment) (ts : TimeSlot) (r : Room) (p : String × String),
      p ∈ instructorIds cat (varAt vars i) → a = ⟨ts.id, r.id, p.1, p.2⟩ →
      ∃ ins, ins ∈ cat.instructors ∧
        (ins.qualCourses = [] ∨ (varAt vars i).courseId ∈ ins.qualCourses) ∧
        a.instructorId = ins.id ∧ a.taId = "" := by
    intro a ts r p hp ha
    obtain ⟨ins, h1, h2, rfl⟩ := (mem_instructorIds cat _ p).mp hp
    exact ⟨ins, h1, h2, by rw [ha], by rw [ha]⟩
  have ta_case : ∀ (role : String) (a : Assignment) (ts : TimeSlot) (r : Room)
      (p : String × String),
      p ∈ taIds cat (varAt vars i) role → a = ⟨ts.id, r.id, p.1, p.2⟩ →
      ∃ t, t ∈ cat.tas ∧ (t.qualRoles = [] ∨ role ∈ t.qualRoles) ∧
        (t.qualCourses = [] ∨ (varAt vars i).courseId ∈ t.qualCourses) ∧
        a.taId = t.id ∧ a.instructorId = "" := by
    intro role a ts r p hp ha
    obtain ⟨t, h1, h2, h3, rfl⟩ := (mem_taIds cat _ role p).mp hp
    exact ⟨t, h1, h2, h3, by rw [ha], by rw [ha]⟩
  refine ⟨?_, ?_⟩
  · intro a ha
    obtain ⟨ts, _, r, _, p, hp, hap⟩ := staff_of_mem_domAt shuffle hs cat vars i hi a ha
    refine ⟨?_, ?_, ?_⟩
    · intro hty
      rw [staffIds_lec cat _ hty] at hp
      exact ins_case a ts r p hp hap
    · intro hty
      rw [staffIds_tut cat _ hty] at hp
      rcases List.mem_append.mp hp with hp | hp
      · exact Or.inl (ta_case "TUT" a ts r p hp hap)
      · exact Or.inr (ins_case a ts r p hp hap)
    · intro hty
      rw [staffIds_lab cat _ hty] at hp
      rcases List.mem_append.mp hp with hp | hp
      · exact Or.inl (ta_case "LAB" a ts r p hp hap)
      · exact Or.inr (ins_case a ts r p hp hap)
  · intro hty hnone
    apply List.eq_nil_iff_forall_not_mem.mpr
    intro a ha
    obtain ⟨ts, _, r, _, p, hp, hap⟩ := staff_of_mem_domAt shuffle hs cat vars i hi a ha
    rw [staffIds_lec cat _ hty] at hp
    obtain ⟨ins, h1, h2, _⟩ := ins_case a ts r p hp hap
    rcases h2 with h2 | h2
    · exact (hnone ins h1).1 h2
    · exact (hnone ins h1).2 h2

theorem buildDomains_staff_witness :
    IsShuffle keepOrder ∧
      0 < (buildVariablesFromSections tablesA.sections).length ∧
      ∀ a, a ∈ domAt (buildDomains keepOrder tablesA
          (buildVariablesFromSections tablesA.sections)) 0 →
        ((varAt (buildVariablesFromSections tablesA.sections) 0).type = "LEC" →
          ∃ ins, ins ∈ tablesA.instructors ∧
            (ins.qualCourses = [] ∨
              (varAt (buildVariablesFromSections tablesA.sections) 0).courseId ∈
                ins.qualCourses) ∧
            a.instructorId = ins.id ∧ a.taId = "") :=
  ⟨isShuffle_keepOrder, by decide, fun a ha =>
    ((buildDomains_staff keepOrder isShuffle_keepOrder tablesA
      (buildVariablesFromSections tablesA.sections) 0 (by decide)).1 a ha).1⟩

/-- C11 as stated fails: the instructor of `tablesU` has no qualification
data, so the lecture of `CS1` gets the item naming this instructor although
`CS1` is in no instructor's qualified-course set, and its domain is not empty. -/
theorem buildDomains_unqualified_instructor :
    ¬ ∀ (shuffle : Nat → List Assignment → List Assignment) (cat : Tables)
      (vars : List SessionVar) (i : Nat), IsShuffle shuffle → i < vars.length →
      (varAt vars i).type = "LEC" →
      (∀ a, a ∈ domAt (buildDomains shuffle cat vars) i →
        ∃ ins, ins ∈ cat.instructors ∧ (varAt vars i).courseId ∈ ins.qualCourses ∧
          a.instructorId = ins.id ∧ a.taId = "") ∧
      ((∀ ins, ins ∈ cat.instructors → (varAt vars i).courseId ∉ ins.qualCourses) →
        domAt (buildDomains shuffle cat vars) i = []) := by
  intro hall
  have h := (hall keepOrder tablesU (buildVariablesFromSections tablesU.sections) 0
    isShuffle_keepOrder (by decide) (by decide)).2 (by decide)
  revert h
  decide

end Second

namespace Second

end Second

namespace Second

theorem nodup_filter_map {α β γ : Type} (l : List α) (f : α → β) (g : β → γ)
    (hg : Function.Injective g) (p : α → Bool) (h : (l.map f).Nodup) :
    ((l.filter p).map fun x => g (f x)).Nodup := by
  have h1 : ((l.filter p).map f).Nodup := h.sublist ((List.filter_sublist l).map f)
  have h2 := h1.map hg
  rwa [List.map_map] at h2

theorem nodup_instructorIds (cat : Tables) (v : SessionVar) (hd : DistinctIds cat) :
    (instructorIds cat v).Nodup :=
  nodup_filter_map cat.instructors (fun ins => ins.id) (fun x => (x, ""))
    (fun _ _ h => (Prod.mk.inj h).1) _ hd.instructors

theorem nodup_taIds (cat : Tables) (v : SessionVar) (role : String) (hd : DistinctIds cat) :
    (taIds cat v role).Nodup :=
  nodup_filter_map cat.tas (fun t => t.id) (fun x => ("", x))
    (fun _ _ h => (Prod.mk.inj h).2) _ hd.tas

theorem nodup_taIdsAnyRole (cat : Tables) (v : SessionVar) (hd : DistinctIds cat) :
    (taIdsAnyRole cat v).Nodup :=
  nodup_filter_map cat.tas (fun t => t.id) (fun x => ("", x))
    (fun _ _ h => (Prod.mk.inj h).2) _ hd.tas

theorem fst_of_mem_instructorIds (cat : Tables) (v : SessionVar) (hd : DistinctIds cat)
    (p : String × String) (hp : p ∈ instructorIds cat v) : p.1 ≠ "" := by
  obtain ⟨ins, h1, _, rfl⟩ := (mem_instructorIds cat v p).mp hp
  exact hd.instructorIds ins h1

theorem fst_of_mem_taIds (cat : Tables) (v : SessionVar) (role : String)
    (p : String × String) (hp : p ∈ taIds cat v role) : p.1 = "" := by
  obtain ⟨t, _, _, _, rfl⟩ := (mem_taIds cat v role p).mp hp
  rfl

theorem fst_of_mem_taIdsAnyRole (cat : Tables) (v : SessionVar)
    (p : String × String) (hp : p ∈ taIdsAnyRole cat v) : p.1 = "" := by
  simp only [taIdsAnyRole, List.mem_map] at hp
  obtain ⟨t, _, rfl⟩ := hp
  rfl

theorem nodup_staffIds (cat : Tables) (v : SessionVar) (hd : DistinctIds cat) :
    (staffIds cat v).Nodup := by
  unfold staffIds
  split
  · exact nodup_instructorIds cat v hd
  · split
    · refine (nodup_taIds cat v _ hd).append (nodup_instructorIds cat v hd) ?_
      intro p h1 h2
      exact fst_of_mem_instructorIds cat v hd p h2 (fst_of_mem_taIds cat v _ p h1)
    · split
      · refine (nodup_taIds cat v _ hd).append (nodup_instructorIds cat v hd) ?_
        intro p h1 h2
        exact fst_of_mem_instructorIds cat v hd p h2 (fst_of_mem_taIds cat v _ p h1)
      · refine (nodup_instructorIds cat v hd).append (nodup_taIdsAnyRole cat v hd) ?_
        intro p h1 h2
        exact fst_of_mem_instructorIds cat v hd p h1 (fst_of_mem_taIdsAnyRole cat v p h2)

theorem nodup_rawDomain (cat : Tables) (v : SessionVar) (hd : DistinctIds cat) :
    (rawDomain cat v).Nodup := by
  have hslots : cat.timeslots.Pairwise (fun a b => a.id ≠ b.id) :=
    List.pairwise_map.mp hd.slots
  have hrooms : (candidateRooms cat v).Pairwise (fun a b => a.id ≠ b.id) :=
    (List.pairwise_map.mp hd.rooms).filter _
  unfold rawDomain
  rw [List.nodup_flatMap]
  refine ⟨?_, ?_⟩
  · intro ts _
    rw [List.nodup_flatMap]
    refine ⟨?_, ?_⟩
    · intro r _
      apply (nodup_staffIds cat v hd).map
      intro p q h
      injection h with _ _ h3 h4
      exact Prod.ext h3 h4
    · refine hrooms.imp ?_
      intro r r' hne a h1 h2
      obtain ⟨_, _, rfl⟩ := List.mem_map.mp h1
      obtain ⟨_, _, h⟩ := List.mem_map.mp h2
      injection h with _ h
      exact hne h.symm
  · refine hslots.imp ?_
    intro ts ts' hne a h1 h2
    obtain ⟨r, _, h1⟩ := List.mem_flatMap.mp h1
    obtain ⟨r', _, h2⟩ := List.mem_flatMap.mp h2
    obtain ⟨_, _, rfl⟩ := List.mem_map.mp h1
    obtain ⟨_, _, h⟩ := List.mem_map.mp h2
    injection h with h
    exact hne h.symm

theorem length_rawDomain (cat : Tables) (v : SessionVar) :
    (rawDomain cat v).length =
      cat.timeslots.length * (candidateRooms cat v).length * (staffIds cat v).length := by
  unfold rawDomain
  rw [First.length_flatMap_const _ ((candidateRooms cat v).length * (staffIds cat v).length)]
  · ring
  · intro ts _
    rw [First.length_flatMap_const _ (staffIds cat v).length]
    intro r _
    simp

theorem mem_taIdsAnyRole (cat : Tables) (v : SessionVar) (p : String × String) :
    p ∈ taIdsAnyRole cat v ↔
      ∃ t, t ∈ cat.tas ∧ (t.qualCourses = [] ∨ v.courseId ∈ t.qualCourses) ∧
        p = ("", t.id) := by
  simp only [taIdsAnyRole, List.mem_map, List.mem_filter, Bool.or_eq_true,
    List.isEmpty_iff, List.contains_iff_exists_mem_beq, beq_iff_eq]
  constructor
  · rintro ⟨t, ⟨h1, h3⟩, rfl⟩
    refine ⟨t, h1, ?_, rfl⟩
    rcases h3 with h3 | ⟨x, hx, rfl⟩
    · exact Or.inl h3
    · exact Or.inr hx
  · rintro ⟨t, h1, h3, rfl⟩
    refine ⟨t, ⟨h1, ?_⟩, rfl⟩
    rcases h3 with h3 | h3
    · exact Or.inl h3
    · exact Or.inr ⟨_, h3, rfl⟩

theorem staffIds_other (cat : Tables) (v : SessionVar) (h1 : v.type ≠ "LEC")
    (h2 : v.type ≠ "TUT") (h3 : v.type ≠ "LAB") :
    staffIds cat v = instructorIds cat v ++ taIdsAnyRole cat v := by
  simp [staffIds, h1, h2, h3]

/-- The staff pushed for a variable, read off the tables: every instructor
whose course set is empty or contains the course, and, unless the variable is
a lecture, every TA whose course set is empty or contains the course and, for
a tutorial or a lab, whose role set is empty or contains the type. -/
theorem mem_staffIds (cat : Tables) (v : SessionVar) (p : String × String) :
    p ∈ staffIds cat v ↔
      (∃ ins, ins ∈ cat.instructors ∧
        (ins.qualCourses = [] ∨ v.courseId ∈ ins.qualCourses) ∧ p = (ins.id, "")) ∨
      (v.type ≠ "LEC" ∧ ∃ t, t ∈ cat.tas ∧
        ((v.type = "TUT" ∨ v.type = "LAB") → t.qualRoles = [] ∨ v.type ∈ t.qualRoles) ∧
        (t.qualCourses = [] ∨ v.courseId ∈ t.qualCourses) ∧ p = ("", t.id)) := by
  have e1 : ("TUT" : String) ≠ "LEC" := by decide
  have e2 : ("LAB" : String) ≠ "LEC" := by decide
  by_cases hlec : v.type = "LEC"
  · rw [staffIds_lec cat v hlec, mem_instructorIds]
    constructor
    · exact fun h => Or.inl h
    · rintro (h | ⟨hne, _⟩)
      · exact h
      · exact absurd hlec hne
  · by_cases htut : v.type = "TUT"
    · rw [staffIds_tut cat v htut, List.mem_append, mem_taIds, mem_instructorIds, htut]
      constructor
      · rintro (⟨t, h1, h2, h3, h4⟩ | h)
        · exact Or.inr ⟨e1, t, h1, fun _ => h2, h3, h4⟩
        · exact Or.inl h
      · rintro (h | ⟨_, t, h1, h2, h3, h4⟩)
        · exact Or.inr h
        · exact Or.inl ⟨t, h1, h2 (Or.inl rfl), h3, h4⟩
    · by_cases hlab : v.type = "LAB"
      · rw [staffIds_lab cat v hlab, List.mem_append, mem_taIds, mem_instructorIds, hlab]
        constructor
        · rintro (⟨t, h1, h2, h3, h4⟩ | h)
          · exact Or.inr ⟨e2, t, h1, fun _ => h2, h3, h4⟩
          · exact Or.inl h
        · rintro (h | ⟨_, t, h1, h2, h3, h4⟩)
          · exact Or.inr h
          · exact Or.inl ⟨t, h1, h2 (Or.inr rfl), h3, h4⟩
      · rw [staffIds_other cat v hlec htut hlab, List.mem_append, mem_instructorIds,
          mem_taIdsAnyRole]
        constructor
        · rintro (h | ⟨t, h1, h3, h4⟩)
          · exact Or.inl h
          · exact Or.inr ⟨hlec, t, h1, fun h => (h.elim (absurd · htut) (absurd · hlab)),
              h3, h4⟩
        · rintro (h | ⟨_, t, h1, _, h3, h4⟩)
          · exact Or.inl h
          · exact Or.inr ⟨t, h1, h3, h4⟩

theorem length_instructorIds (cat : Tables) (v : SessionVar) :
    (instructorIds cat v).length =
      cat.instructors.countP fun ins =>
        decide (ins.qualCourses = [] ∨ v.courseId ∈ ins.qualCourses) := by
  rw [instructorIds, List.length_map, ← List.countP_eq_length_filter]
  apply List.countP_congr
  intro ins _
  simp [List.isEmpty_iff]

theorem length_taIds (cat : Tables) (v : SessionVar) (role : String) :
    (taIds cat v role).length =
      cat.tas.countP fun t =>
        decide ((t.qualRoles = [] ∨ role ∈ t.qualRoles) ∧
          (t.qualCourses = [] ∨ v.courseId ∈ t.qualCourses)) := by
  rw [taIds, List.length_map, ← List.countP_eq_length_filter]
  apply List.countP_congr
  intro t _
  simp [List.isEmpty_iff]

theorem length_taIdsAnyRole (cat : Tables) (v : SessionVar) :
    (taIdsAnyRole cat v).length =
      cat.tas.countP fun t =>
        decide (t.qualCourses = [] ∨ v.courseId ∈ t.qualCourses) := by
  rw [taIdsAnyRole, List.length_map, ← List.countP_eq_length_filter]
  apply List.countP_congr
  intro t _
  simp [List.isEmpty_iff]

/-- The number of staff pushed for a variable, counted on the tables. -/
theorem length_staffIds (cat : Tables) (v : SessionVar) :
    (staffIds cat v).length =
      (cat.instructors.countP fun ins =>
        decide (ins.qualCourses = [] ∨ v.courseId ∈ ins.qualCourses)) +
      (if v.type = "LEC" then 0
        else cat.tas.countP fun t =>
          decide (((v.type = "TUT" ∨ v.type = "LAB") →
              t.qualRoles = [] ∨ v.type ∈ t.qualRoles) ∧
            (t.qualCourses = [] ∨ v.courseId ∈ t.qualCourses))) := by
  have e1 : ("TUT" : String) ≠ "LEC" := by decide
  have e2 : ("LAB" : String) ≠ "LEC" := by decide
  by_cases hlec : v.type = "LEC"
  · rw [staffIds_lec cat v hlec, length_instructorIds, if_pos hlec, Nat.add_zero]
  · rw [if_neg hlec]
    by_cases htut : v.type = "TUT"
    · rw [staffIds_tut cat v htut, List.length_append, length_taIds, length_instructorIds,
        Nat.add_comm]
      congr 1
      apply List.countP_congr
      intro t _
      simp [htut]
    · by_cases hlab : v.type = "LAB"
      · rw [staffIds_lab cat v hlab, List.length_append, length_taIds, length_instructorIds,
          Nat.add_comm]
        congr 1
        apply List.countP_congr
        intro t _
        simp [hlab]
      · rw [staffIds_other cat v hlec htut hlab, List.length_append, length_taIdsAnyRole,
          length_instructorIds]
        congr 1
        apply List.countP_congr
        intro t _
        simp [htut, hlab]

theorem length_candidateRooms (cat : Tables) (v : SessionVar) :
    (candidateRooms cat v).length =
      cat.rooms.countP fun r =>
        decide (v.neededCapacity ≤ r.capacity) &&
          roomMatchesType r (if v.type = "LAB" then "LAB" else "CLASSROOM") := by
  rw [candidateRooms, ← List.countP_eq_length_filter]
  apply List.countP_congr
  intro r _
  simp [requiredRoomType]

theorem varAt_of_getElem? {vars : List SessionVar} {i : Nat} {v : SessionVar}
    (hv : vars[i]? = some v) : i < vars.length ∧ varAt vars i = v := by
  have hi : i < vars.length := by
    by_contra hge
    rw [List.getElem?_eq_none (by omega)] at hv
    cases hv
  refine ⟨hi, ?_⟩
  simp [varAt, List.getD_eq_getElem?_getD, hv]

/-- C13: the domain built for variable `v` (the entry `i` of the variable
list) is the cross-product of three factors read off the tables.  With a
shuffle that permutes its argument, an item is in the domain exactly when its
time slot id is the id of a time slot; its room id is the id of a room with
capacity at least `neededCapacity` that passes `roomMatchesType` for the
required type (`LAB` for a LAB variable, `CLASSROOM` otherwise); and its staff
is eligible for `v` as `buildDomains` tests it: an instructor whose course set
is empty or contains the course (and no TA), or, unless `v` is a lecture, a TA
(and no instructor) whose course set is empty or contains the course and, for
a tutorial or a lab, whose role set is empty or contains the type.  The
length of the domain is the product of the number of time slots, the number
of those rooms and the number of those staff members.  When the ids are
non-empty and pairwise distinct within each table, every item occurs exactly
once.  Every two permuting shuffles give the same domain up to order. -/
theorem buildDomains_cross_product (shuffle : Nat → List Assignment → List Assignment)
    (hs : IsShuffle shuffle) (cat : Tables) (vars : List SessionVar) (i : Nat)
    (v : SessionVar) (hv : vars[i]? = some v) :
    (∀ a, a ∈ domAt (buildDomains shuffle cat vars) i ↔
      (∃ ts, ts ∈ cat.timeslots ∧ a.timeslotId = ts.id) ∧
      (∃ r, r ∈ cat.rooms ∧ v.neededCapacity ≤ r.capacity ∧
        roomMatchesType r (if v.type = "LAB" then "LAB" else "CLASSROOM") = true ∧
        a.roomId = r.id) ∧
      ((∃ ins, ins ∈ cat.instructors ∧
          (ins.qualCourses = [] ∨ v.courseId ∈ ins.qualCourses) ∧
          a.instructorId = ins.id ∧ a.taId = "") ∨
        (v.type ≠ "LEC" ∧ ∃ t, t ∈ cat.tas ∧
          ((v.type = "TUT" ∨ v.type = "LAB") → t.qualRoles = [] ∨ v.type ∈ t.qualRoles) ∧
          (t.qualCourses = [] ∨ v.courseId ∈ t.qualCourses) ∧
          a.taId = t.id ∧ a.instructorId = ""))) ∧
    (domAt (buildDomains shuffle cat vars) i).length =
      cat.timeslots.length *
        (cat.rooms.countP fun r =>
          decide (v.neededCapacity ≤ r.capacity) &&
            roomMatchesType r (if v.type = "LAB" then "LAB" else "CLASSROOM")) *
        ((cat.instructors.countP fun ins =>
            decide (ins.qualCourses = [] ∨ v.courseId ∈ ins.qualCourses)) +
          (if v.type = "LEC" then 0
            else cat.tas.countP fun t =>
              decide (((v.type = "TUT" ∨ v.type = "LAB") →
                  t.qualRoles = [] ∨ v.type ∈ t.qualRoles) ∧
                (t.qualCourses = [] ∨ v.courseId ∈ t.qualCourses)))) ∧
    (DistinctIds cat →
      (domAt (buildDomains shuffle cat vars) i).Nodup ∧
      ∀ a, a ∈ domAt (buildDomains shuffle cat vars) i →
        (domAt (buildDomains shuffle cat vars) i).count a = 1) ∧
    (∀ shuffle2 : Nat → List Assignment → List Assignment, IsShuffle shuffle2 →
      (domAt (buildDomains shuffle cat vars) i).Perm
        (domAt (buildDomains shuffle2 cat vars) i)) := by
  obtain ⟨hi, hvar⟩ := varAt_of_getElem? hv
  have hp := perm_domAt_buildDomains shuffle hs cat vars i hi
  rw [hvar] at hp
  refine ⟨?_, ?_, ?_, ?_⟩
  · intro a
    rw [hp.mem_iff, mem_rawDomain]
    have hreq : requiredRoomType v = if v.type = "LAB" then "LAB" else "CLASSROOM" := by
      simp [requiredRoomType]
    constructor
    · rintro ⟨ts, hts, r, hr, p, hpm, rfl⟩
      obtain ⟨h1, h2, h3⟩ := (mem_candidateRooms cat _ r).mp hr
      refine ⟨⟨ts, hts, rfl⟩, ⟨r, h1, h2, hreq ▸ h3, rfl⟩, ?_⟩
      rcases (mem_staffIds cat v p).mp hpm with ⟨ins, h4, h5, rfl⟩ | ⟨hne, t, h4, h5, h6, rfl⟩
      · exact Or.inl ⟨ins, h4, h5, rfl, rfl⟩
      · exact Or.inr ⟨hne, t, h4, h5, h6, rfl, rfl⟩
    · rintro ⟨⟨ts, hts, hat⟩, ⟨r, h1, h2, h3, har⟩, hstaff⟩
      refine ⟨ts, hts, r, (mem_candidateRooms cat _ r).mpr ⟨h1, h2, hreq ▸ h3⟩,
        (a.instructorId, a.taId), ?_, ?_⟩
      · rw [mem_staffIds]
        rcases hstaff with ⟨ins, h4, h5, h6, h7⟩ | ⟨hne, t, h4, h5, h6, h7, h8⟩
        · exact Or.inl ⟨ins, h4, h5, by rw [h6, h7]⟩
        · exact Or.inr ⟨hne, t, h4, h5, h6, by rw [h7, h8]⟩
      · rw [← hat, ← har]
  · rw [hp.length_eq, length_rawDomain, length_candidateRooms, length_staffIds]
  · intro hd
    have hnd : (domAt (buildDomains shuffle cat vars) i).Nodup :=
      hp.nodup_iff.mpr (nodup_rawDomain cat _ hd)
    exact ⟨hnd, fun a ha => List.count_eq_one_of_mem hnd ha⟩
  · intro shuffle2 hs2
    have hp2 := perm_domAt_buildDomains shuffle2 hs2 cat vars i hi
    rw [hvar] at hp2
    exact hp.trans hp2.symm

theorem buildDomains_cross_product_witness :
    IsShuffle keepOrder ∧
    (buildVariablesFromSections tablesM.sections)[1]? =
      some ⟨"S1::TUT", "S1", "CS1", "TUT", 30⟩ ∧
    DistinctIds tablesM ∧
    domAt (buildDomains keepOrder tablesM (buildVariablesFromSections tablesM.sections)) 1 =
      [⟨"t1", "r1", "", "a1"⟩, ⟨"t1", "r1", "i1", ""⟩, ⟨"t1", "r1", "i3", ""⟩,
        ⟨"t2", "r1", "", "a1"⟩, ⟨"t2", "r1", "i1", ""⟩, ⟨"t2", "r1", "i3", ""⟩] ∧
    (domAt (buildDomains keepOrder tablesM (buildVariablesFromSections tablesM.sections))
        1).length = 2 * 1 * (2 + 1) ∧
    (domAt (buildDomains keepOrder tablesM (buildVariablesFromSections tablesM.sections))
        1).Nodup :=
  have hd : DistinctIds tablesM :=
    { slots := by decide
      rooms := by decide
      instructors := by decide
      tas := by decide
      slotIds := by decide
      roomIds := by decide
      instructorIds := by decide
      taIds := by decide }
  have h := buildDomains_cross_product keepOrder isShuffle_keepOrder tablesM
    (buildVariablesFromSections tablesM.sections) 1 ⟨"S1::TUT", "S1", "CS1", "TUT", 30⟩
    (by decide)
  ⟨isShuffle_keepOrder, by decide, hd, by decide, h.2.1, (h.2.2.1 hd).1⟩

end Second

namespace Second

theorem backtrack0_single (v : SessionVar) (d : Assignment) (ds : List Assignment)
    (hsize : (d :: ds).length < SIZE_MAX) :
    backtrackResult [v] [d :: ds] = some (true, [some d]) := by
  obtain ⟨hs, hsel⟩ := selectUnassignedVar_spec [v] [d :: ds] (initState 1)
  have hsel0 : (selectUnassignedVar [v] [d :: ds] (initState 1)).1 = ((0 : Nat) : Int) := by
    rcases hsel with ⟨_, hbig⟩ | ⟨i, hi, e, _⟩
    · exfalso
      have h1 := hbig 0 (by simp) (curAt_initState 1 0)
      rw [legalCount_initState] at h1
      have h2 : domAt [d :: ds] 0 = d :: ds := rfl
      rw [h2] at h1
      omega
    · have hi0 : i = 0 := by
        have : i < 1 := hi
        omega
      rw [e, hi0]
  have hfree : (canAssignVar [v] 0 d (selectUnassignedVar [v] [d :: ds] (initState 1)).2).1 =
      true := by
    rw [canAssignVar_fst, isFree_congr [v] 0 d hs]
    exact isFree_initState [v] 0 d 1
  have hcur : (doAssign [v] 0 d
      (canAssignVar [v] 0 d (selectUnassignedVar [v] [d :: ds] (initState 1)).2).2).currentAssign =
      [some d] := by
    have h1 := (canAssignVar_snd [v] 0 d (selectUnassignedVar [v] [d :: ds] (initState 1)).2).1
    simp only [doAssign, h1, hs.1]
    rfl
  have hall : allAssigned (doAssign [v] 0 d
      (canAssignVar [v] 0 d (selectUnassignedVar [v] [d :: ds] (initState 1)).2).2) = true := by
    simp [allAssigned, hcur]
  have hroot : backtrack0 [v] [d :: ds] = some (true, doAssign [v] 0 d
      (canAssignVar [v] 0 d (selectUnassignedVar [v] [d :: ds] (initState 1)).2).2) := by
    have hnot : allAssigned (initState 1) = false := allAssigned_initState 1 (by omega)
    have hne : (selectUnassignedVar [v] [d :: ds] (initState 1)).1 ≠ -1 := by
      rw [hsel0]; omega
    have hdom : domAt [d :: ds] 0 = d :: ds := rfl
    have hlen : (initState 1).currentAssign.length + 1 = 1 + 1 := by simp [initState]
    simp only [backtrack0, backtrack, List.length_singleton, hlen, backtrackFuel, hnot,
      Bool.false_eq_true, if_false, if_neg hne, hsel0, Int.toNat_ofNat, hdom, tryDomain, hfree,
      if_true, hall]
    rw [if_neg (by omega)]
  unfold backtrackResult
  rw [hroot]
  simp only [Option.map_some', hcur]

/-- C18: with exactly one variable whose domain is non-empty (and smaller than
`SIZE_MAX`, as every `std::vector`), `backtrack` from the initial state returns
true and gives the variable the first item of its domain.  In Scenario A (one
slot, one classroom of capacity 100, one section of 30 students that needs a
lecture, one qualified instructor, no TA) `buildDomains` yields one domain
with exactly that one item, for every shuffle, and `backtrack` returns true
with that slot, room and instructor. -/
theorem backtrack_single_variable :
    (∀ (v : SessionVar) (dom : List Assignment) (d : Assignment), dom.head? = some d →
      dom.length < SIZE_MAX → backtrackResult [v] [dom] = some (true, [some d])) ∧
    (∀ shuffle : Nat → List Assignment → List Assignment, IsShuffle shuffle →
      buildVariablesFromSections tablesA.sections = [⟨"S1::LEC", "S1", "CS1", "LEC", 30⟩] ∧
      buildDomains shuffle tablesA (buildVariablesFromSections tablesA.sections) =
        [[⟨"t1", "r1", "i1", ""⟩]] ∧
      backtrackResult (buildVariablesFromSections tablesA.sections)
          (buildDomains shuffle tablesA (buildVariablesFromSections tablesA.sections)) =
        some (true, [some ⟨"t1", "r1", "i1", ""⟩])) := by
  have gen : ∀ (v : SessionVar) (dom : List Assignment) (d : Assignment),
      dom.head? = some d → dom.length < SIZE_MAX →
      backtrackResult [v] [dom] = some (true, [some d]) := by
    intro v dom d hd hsize
    cases dom with
    | nil => cases hd
    | cons d' ds =>
      simp only [List.head?_cons, Option.some.injEq] at hd
      subst hd
      exact backtrack0_single v d' ds hsize
  refine ⟨gen, ?_⟩
  intro shuffle hs
  have hv : buildVariablesFromSections tablesA.sections =
      [⟨"S1::LEC", "S1", "CS1", "LEC", 30⟩] := by decide
  have hraw : rawDomain tablesA ⟨"S1::LEC", "S1", "CS1", "LEC", 30⟩ =
      [⟨"t1", "r1", "i1", ""⟩] := by decide
  have hdom : buildDomains shuffle tablesA (buildVariablesFromSections tablesA.sections) =
      [[⟨"t1", "r1", "i1", ""⟩]] := by
    rw [hv]
    simp only [buildDomains, buildFrom, hraw]
    rw [List.perm_singleton.mp (hs _ _)]
  refine ⟨hv, hdom, ?_⟩
  rw [hdom, hv]
  exact gen _ _ _ rfl (by decide)

theorem backtrack_single_variable_witness :
    IsShuffle keepOrder ∧
      backtrackResult (buildVariablesFromSections tablesA.sections)
          (buildDomains keepOrder tablesA (buildVariablesFromSections tablesA.sections)) =
        some (true, [some ⟨"t1", "r1", "i1", ""⟩]) :=
  ⟨isShuffle_keepOrder, (backtrack_single_variable.2 keepOrder isShuffle_keepOrder).2.2⟩

end Second

/-! ## Theorems: the catalog loaders -/

theorem stoi_invalid (s : String) (h : stoiDigits s = []) :
    stoi s = Except.error StoiError.invalid_argument := by
  simp [stoi, h]

theorem loadRows_skip {σ : Type} (step : σ → List String → Except StoiError σ)
    (row : List String) (h : ∀ s, step s row = Except.ok s) :
    ∀ (pre post : List (List String)) (s : σ),
      loadRows step (pre ++ row :: post) s = loadRows step (pre ++ post) s := by
  intro pre
  induction pre with
  | nil =>
    intro post s
    simp only [List.nil_append, loadRows, h]
  | cons r pre ih =>
    intro post s
    simp only [List.cons_append, loadRows]
    cases step s r with
    | error e => rfl
    | ok s' => exact ih post s'

theorem loadRows_error {σ : Type} (step : σ → List String → Except StoiError σ)
    (row : List String) (h : ∀ s, ∃ e, step s row = Except.error e) :
    ∀ (rows : List (List String)) (s : σ), row ∈ rows →
      ∃ e, loadRows step rows s = Except.error e := by
  intro rows
  induction rows with
  | nil => intro s hm; cases hm
  | cons r rows ih =>
    intro s hm
    simp only [loadRows]
    cases hr : step s r with
    | error e => exact ⟨e, rfl⟩
    | ok s' =>
      rcases List.mem_cons.mp hm with rfl | hm
      · obtain ⟨e, he⟩ := h s
        rw [he] at hr
        cases hr
      · exact ih s' hm

namespace First

theorem timeslotStep_short (acc : List TimeSlot) (row : List String)
    (h : row.length < 4) : timeslotStep acc row = Except.ok acc := by
  simp [timeslotStep, h]

theorem timeslotStep_bad (acc : List TimeSlot) (row : List String) (h : 4 ≤ row.length)
    (hbad : ∃ e, stoi (cell row 3) = Except.error e) :
    ∃ e, timeslotStep acc row = Except.error e := by
  obtain ⟨e, he⟩ := hbad
  have hl : ¬ row.length < 4 := by omega
  exact ⟨e, by simp [timeslotStep, hl, he]⟩

theorem sectionStep_short (s : SectionLoad) (row : List String)
    (h : row.length < 6) : sectionStep s row = Except.ok s := by
  simp [sectionStep, h]

theorem sectionStep_bad (s : SectionLoad) (row : List String) (h : 6 ≤ row.length)
    (hbad : (cell row 1 ≠ "" ∧ ∃ e, stoi (cell row 1) = Except.error e) ∨
      (cell row 3 ≠ "" ∧ ∃ e, stoi (cell row 3) = Except.error e) ∨
      (cell row 4 ≠ "" ∧ cell row 5 ≠ "" ∧
        ((∃ e, stoi (cell row 4) = Except.error e) ∨
          ∃ e, stoi (cell row 5) = Except.error e))) :
    ∃ e, sectionStep s row = Except.error e := by
  have hl : ¬ row.length < 6 := by omega
  simp only [sectionStep, if_neg hl]
  split
  · exact ⟨_, rfl⟩
  · rename_i year hy
    split
    · exact ⟨_, rfl⟩
    · rename_i group hg
      have n1 : ¬ (cell row 1 ≠ "" ∧ ∃ e, stoi (cell row 1) = Except.error e) := by
        rintro ⟨hne, e, he⟩
        have hb : (cell row 1 != "") = true := by simpa using hne
        rw [if_pos hb, he] at hy
        cases hy
      have n3 : ¬ (cell row 3 ≠ "" ∧ ∃ e, stoi (cell row 3) = Except.error e) := by
        rintro ⟨hne, e, he⟩
        have hb : (cell row 3 != "") = true := by simpa using hne
        rw [if_pos hb, he] at hg
        cases hg
      split
      · split
        · exact ⟨_, rfl⟩
        · rename_i sec_num h4
          split
          · exact ⟨_, rfl⟩
          · rename_i stu_num h5
            exfalso
            rcases hbad with hb | hb | ⟨_, _, ⟨e, he⟩ | ⟨e, he⟩⟩
            · exact n1 hb
            · exact n3 hb
            · rw [he] at h4; cases h4
            · rw [he] at h5; cases h5
      · rename_i hc
        exfalso
        rcases hbad with hb | hb | ⟨c4, c5, _⟩
        · exact n1 hb
        · exact n3 hb
        · apply hc
          simp [c4, c5]

theorem courseStep_short (s : CourseLoad) (row : List String)
    (h : row.length < 8) : courseStep s row = Except.ok s := by
  simp [courseStep, h]

theorem courseStep_bad (s : CourseLoad) (row : List String) (h : 8 ≤ row.length)
    (hbad : (cell row 0 ≠ "" ∧ ∃ e, stoi (cell row 0) = Except.error e) ∨
      (cell row 1 ≠ "" ∧ ∃ e, stoi (cell row 1) = Except.error e) ∨
      (cell row 3 ≠ "" ∧
        ((∃ e, stoi (cell row 5) = Except.error e) ∨
          (∃ e, stoi (cell row 6) = Except.error e) ∨
          ∃ e, stoi (cell row 7) = Except.error e))) :
    ∃ e, courseStep s row = Except.error e := by
  have hl : ¬ row.length < 8 := by omega
  simp only [courseStep, if_neg hl]
  split
  · exact ⟨_, rfl⟩
  · rename_i year hy
    split
    · exact ⟨_, rfl⟩
    · rename_i sem hs
      have n0 : ¬ (cell row 0 ≠ "" ∧ ∃ e, stoi (cell row 0) = Except.error e) := by
        rintro ⟨hne, e, he⟩
        have hb : (cell row 0 != "") = true := by simpa using hne
        rw [if_pos hb, he] at hy
        cases hy
      have n1 : ¬ (cell row 1 ≠ "" ∧ ∃ e, stoi (cell row 1) = Except.error e) := by
        rintro ⟨hne, e, he⟩
        have hb : (cell row 1 != "") = true := by simpa using hne
        rw [if_pos hb, he] at hs
        cases hs
      split
      · rename_i hc
        exfalso
        rcases hbad with hb | hb | ⟨c3, _⟩
        · exact n0 hb
        · exact n1 hb
        · apply c3
          simpa using hc
      · split
        · exact ⟨_, rfl⟩
        · rename_i lec h5
          split
          · exact ⟨_, rfl⟩
          · rename_i tut h6
            split
            · exact ⟨_, rfl⟩
            · rename_i lab h7
              exfalso
              rcases hbad with hb | hb | ⟨_, ⟨e, he⟩ | ⟨e, he⟩ | ⟨e, he⟩⟩
              · exact n0 hb
              · exact n1 hb
              · rw [he] at h5; cases h5
              · rw [he] at h6; cases h6
              · rw [he] at h7; cases h7

end First

namespace Second

theorem hallStep_skip (hdr : String → Option Nat) (acc : List Room) (row : List String)
    (hid : getField row hdr "id" = "")
    (hcap : getField row hdr "capacity" = "" ∨
      ∃ n, stoi (getField row hdr "capacity") = Except.ok n) :
    hallStep hdr acc row = Except.ok acc := by
  rcases hcap with h | ⟨n, h⟩
  · simp [hallStep, hid, h]
  · by_cases hc : getField row hdr "capacity" = ""
    · simp [hallStep, hid, hc]
    · simp [hallStep, hid, hc, h]

theorem hallStep_bad (hdr : String → Option Nat) (acc : List Room) (row : List String)
    (hne : getField row hdr "capacity" ≠ "")
    (hbad : ∃ e, stoi (getField row hdr "capacity") = Except.error e) :
    ∃ e, hallStep hdr acc row = Except.error e := by
  obtain ⟨e, he⟩ := hbad
  exact ⟨e, by simp [hallStep, hne, he]⟩

end Second

/-- What the loaders do with a row they cannot use.  A row with too few cells
(fewer than 4, 6, 8 for `load_timeslots`, `load_sections`, `load_courses`),
and in `loadAllCSV` a row of `Halls.csv` with an empty id and an empty or
numeric capacity, is skipped by a `continue` guard and the other rows are
loaded as without it.  A row that passes the guards and whose numeric cell is
not a number is not skipped: `std::stoi` throws (`invalid_argument` when the
cell has no leading digits) and nothing catches the exception. -/
theorem loaders_skip_or_throw :
    (∀ s, stoiDigits s = [] → stoi s = Except.error StoiError.invalid_argument) ∧
    (∀ (hdr : List String) (pre post : List (List String)) (row : List String),
      row.length < 4 →
      First.load_timeslots (hdr :: (pre ++ row :: post)) =
        First.load_timeslots (hdr :: (pre ++ post))) ∧
    (∀ (hdr : List String) (rows : List (List String)) (row : List String),
      row ∈ rows → 4 ≤ row.length → (∃ e, stoi (cell row 3) = Except.error e) →
      ∃ e, First.load_timeslots (hdr :: rows) = Except.error e) ∧
    (∀ (hdr : List String) (pre post : List (List String)) (row : List String),
      row.length < 6 →
      First.load_sections (hdr :: (pre ++ row :: post)) =
        First.load_sections (hdr :: (pre ++ post))) ∧
    (∀ (hdr : List String) (rows : List (List String)) (row : List String),
      row ∈ rows → 6 ≤ row.length →
      ((cell row 1 ≠ "" ∧ ∃ e, stoi (cell row 1) = Except.error e) ∨
        (cell row 3 ≠ "" ∧ ∃ e, stoi (cell row 3) = Except.error e) ∨
        (cell row 4 ≠ "" ∧ cell row 5 ≠ "" ∧
          ((∃ e, stoi (cell row 4) = Except.error e) ∨
            ∃ e, stoi (cell row 5) = Except.error e))) →
      ∃ e, First.load_sections (hdr :: rows) = Except.error e) ∧
    (∀ (hdr : List String) (pre post : List (List String)) (row : List String),
      row.length < 8 →
      First.load_courses (hdr :: (pre ++ row :: post)) =
        First.load_courses (hdr :: (pre ++ post))) ∧
    (∀ (hdr : List String) (rows : List (List String)) (row : List String),
      row ∈ rows → 8 ≤ row.length →
      ((cell row 0 ≠ "" ∧ ∃ e, stoi (cell row 0) = Except.error e) ∨
        (cell row 1 ≠ "" ∧ ∃ e, stoi (cell row 1) = Except.error e) ∨
        (cell row 3 ≠ "" ∧
          ((∃ e, stoi (cell row 5) = Except.error e) ∨
            (∃ e, stoi (cell row 6) = Except.error e) ∨
            ∃ e, stoi (cell row 7) = Except.error e))) →
      ∃ e, First.load_courses (hdr :: rows) = Except.error e) ∧
    (∀ (hdr : List String) (pre post : List (List String)) (row : List String),
      Second.getField row (Second.headerIndex hdr) "id" = "" →
      (Second.getField row (Second.headerIndex hdr) "capacity" = "" ∨
        ∃ n, stoi (Second.getField row (Second.headerIndex hdr) "capacity") = Except.ok n) →
      Second.loadHalls (hdr :: (pre ++ row :: post)) = Second.loadHalls (hdr :: (pre ++ post))) ∧
    (∀ (hdr : List String) (rows : List (List String)) (row : List String),
      row ∈ rows → Second.getField row (Second.headerIndex hdr) "capacity" ≠ "" →
      (∃ e, stoi (Second.getField row (Second.headerIndex hdr) "capacity") = Except.error e) →
      ∃ e, Second.loadHalls (hdr :: rows) = Except.error e) := by
  refine ⟨stoi_invalid, ?_, ?_, ?_, ?_, ?_, ?_, ?_, ?_⟩
  · intro hdr pre post row h
    simp only [First.load_timeslots, List.drop_one, List.tail_cons]
    exact loadRows_skip _ row (fun s => First.timeslotStep_short s row h) pre post _
  · intro hdr rows row hm hl hbad
    simp only [First.load_timeslots, List.drop_one, List.tail_cons]
    exact loadRows_error _ row (fun s => First.timeslotStep_bad s row hl hbad) rows _ hm
  · intro hdr pre post row h
    simp only [First.load_sections, List.drop_one, List.tail_cons]
    rw [loadRows_skip _ row (fun s => First.sectionStep_short s row h) pre post _]
  · intro hdr rows row hm hl hbad
    simp only [First.load_sections, List.drop_one, List.tail_cons]
    obtain ⟨e, he⟩ :=
      loadRows_error _ row (fun s => First.sectionStep_bad s row hl hbad) rows
        (⟨"", "", 0, 0, []⟩ : First.SectionLoad) hm
    rw [he]
    exact ⟨e, rfl⟩
  · intro hdr pre post row h
    simp only [First.load_courses, List.drop_one, List.tail_cons]
    rw [loadRows_skip _ row (fun s => First.courseStep_short s row h) pre post _]
  · intro hdr rows row hm hl hbad
    simp only [First.load_courses, List.drop_one, List.tail_cons]
    obtain ⟨e, he⟩ :=
      loadRows_error _ row (fun s => First.courseStep_bad s row hl hbad) rows
        (⟨0, 0, "", []⟩ : First.CourseLoad) hm
    rw [he]
    exact ⟨e, rfl⟩
  · intro hdr pre post row hid hcap
    simp only [Second.loadHalls]
    exact loadRows_skip _ row (fun s => Second.hallStep_skip _ s row hid hcap) pre post _
  · intro hdr rows row hm hne hbad
    simp only [Second.loadHalls]
    exact loadRows_error _ row (fun s => Second.hallStep_bad _ s row hne hbad) rows _ hm

theorem loaders_skip_or_throw_witness :
    First.load_timeslots slotsShort =
        Except.ok [⟨1, "Mon", "9", "10"⟩, ⟨3, "Wed", "9", "10"⟩] ∧
      First.load_timeslots slotsShort =
        First.load_timeslots
          [["Day", "Start", "End", "ID"], ["Mon", "9", "10", "1"], ["Wed", "9", "10", "3"]] ∧
      ∃ e, First.load_timeslots slotsBad = Except.error e :=
  ⟨rfl,
    loaders_skip_or_throw.2.1 ["Day", "Start", "End", "ID"] [["Mon", "9", "10", "1"]]
      [["Wed", "9", "10", "3"]] ["Tue", "9"] (by decide),
    loaders_skip_or_throw.2.2.1 ["Day", "Start", "End", "ID"]
      [["Mon", "9", "10", "x"], ["Tue", "9", "10", "2"]] ["Mon", "9", "10", "x"]
      (by decide) (by decide) ⟨StoiError.invalid_argument, rfl⟩⟩

/-- C17: the loaders do not skip a row whose numeric cell is not a number.
The first data row of `slotsBad` has four cells and the id `x`: it passes the
guard `row.size() < 4` of `load_timeslots`, `std::stoi` throws
`invalid_argument`, and the valid row that follows is never loaded, whereas
without the bad row it is.  The same happens in the `Halls.csv` loop of
`loadAllCSV` for the capacity `many` (`hallsBad`), also on a row without id
(`hallsNoId`), which the guard `r.id.empty()` would skip but which is
converted before the guard is reached.  So neither loader completes on every
table content. -/
theorem loaders_throw_on_bad_number :
    First.load_timeslots slotsBad = Except.error StoiError.invalid_argument ∧
    First.load_timeslots [["Day", "Start", "End", "ID"], ["Tue", "9", "10", "2"]] =
      Except.ok [⟨2, "Tue", "9", "10"⟩] ∧
    Second.loadHalls hallsBad = Except.error StoiError.invalid_argument ∧
    Second.loadHalls hallsNoId = Except.error StoiError.invalid_argument ∧
    Second.loadHalls [["id", "type", "capacity"], ["r2", "Classroom", "40"]] =
      Except.ok [⟨"r2", "Classroom", 40⟩] ∧
    (¬ ∀ data : List (List String), ∃ out, First.load_timeslots data = Except.ok out) ∧
    (¬ ∀ rows : List (List String), ∃ out, Second.loadHalls rows = Except.ok out) := by
  have h1 : First.load_timeslots slotsBad = Except.error StoiError.invalid_argument := rfl
  have h2 : Second.loadHalls hallsBad = Except.error StoiError.invalid_argument := rfl
  refine ⟨h1, rfl, h2, rfl, rfl, ?_, ?_⟩
  · intro hall
    obtain ⟨out, ho⟩ := hall slotsBad
    rw [h1] at ho
    cases ho
  · intro hall
    obtain ⟨out, ho⟩ := hall hallsBad
    rw [h2] at ho
    cases ho

namespace First

/-- C23: `check_constraints(pos)` is true exactly when no earlier session has
(1) the same time and room, (2) the same section and time, or (3) the same
time and teacher while both sessions are lectures or both are not.  So a
non-lecture session passes against earlier lectures whatever their time and
teacher, as long as rooms and sections do not clash; and the result depends
on the table only through the entries at `pos` and below. -/
theorem check_constraints_spec (sessions : List Session) (a : List Assignment) (pos : Nat) :
    (check_constraints sessions a pos = true ↔
      ∀ i, i < pos →
        ¬ ((asgAt a i).timeId = (asgAt a pos).timeId ∧
            (asgAt a i).roomIndex = (asgAt a pos).roomIndex) ∧
        ¬ ((sessAt sessions i).sectionIndex = (sessAt sessions pos).sectionIndex ∧
            (asgAt a i).timeId = (asgAt a pos).timeId) ∧
        ¬ (((asgAt a i).timeId = (asgAt a pos).timeId ∧
            (asgAt a i).teacherIndex = (asgAt a pos).teacherIndex) ∧
          (((sessAt sessions pos).type = "Lecture" ∧ (sessAt sessions i).type = "Lecture") ∨
            ((sessAt sessions pos).type ≠ "Lecture" ∧
              (sessAt sessions i).type ≠ "Lecture")))) ∧
    ((sessAt sessions pos).type ≠ "Lecture" →
      (∀ i, i < pos → (sessAt sessions i).type = "Lecture" ∧
        ¬ ((asgAt a i).timeId = (asgAt a pos).timeId ∧
            (asgAt a i).roomIndex = (asgAt a pos).roomIndex) ∧
        ¬ ((sessAt sessions i).sectionIndex = (sessAt sessions pos).sectionIndex ∧
            (asgAt a i).timeId = (asgAt a pos).timeId)) →
      check_constraints sessions a pos = true) ∧
    (∀ b : List Assignment, (∀ i, i ≤ pos → asgAt b i = asgAt a i) →
      check_constraints sessions b pos = check_constraints sessions a pos) ∧
    check_constraints sessLT asgLT 1 = true := by
  refine ⟨check_constraints_iff sessions a pos, ?_, ?_, by decide⟩
  · intro hpos hall
    rw [check_constraints_iff]
    intro i hi
    obtain ⟨hty, h1, h2⟩ := hall i hi
    refine ⟨h1, h2, ?_⟩
    rintro ⟨_, hc | hc⟩
    · exact hpos hc.1
    · exact hc.2 hty
  · intro b hb
    exact check_constraints_congr sessions b a pos hb

theorem check_constraints_spec_witness :
    (sessAt sessLT 1).type ≠ "Lecture" ∧
      check_constraints sessLT asgLT 1 = true ∧
      check_constraints sessLT [⟨0, 0, 0⟩, ⟨0, 1, 0⟩, ⟨5, 5, 5⟩] 1 =
        check_constraints sessLT asgLT 1 :=
  ⟨by decide,
    (check_constraints_spec sessLT asgLT 1).2.1 (by decide) (by
      intro i hi
      have hi0 : i = 0 := by omega
      subst hi0
      decide),
    (check_constraints_spec sessLT asgLT 1).2.2.1 [⟨0, 0, 0⟩, ⟨0, 1, 0⟩, ⟨5, 5, 5⟩] (by
      intro i hi
      have hi2 : i < 2 := by omega
      interval_cases i <;> decide)⟩

end First

namespace Second

theorem tryDomain_mono (vars : List SessionVar) (next next' : State → Option (Bool × State))
    (var : Nat) (h : ∀ s r, next s = some r → next' s = some r) :
    ∀ (ds : List Assignment) (st : State) (r : Bool × State),
      tryDomain vars next var ds st = some r → tryDomain vars next' var ds st = some r := by
  intro ds
  induction ds with
  | nil => intro st r hr; exact hr
  | cons d ds ih =>
    intro st r hr
    simp only [tryDomain] at hr ⊢
    split
    · rename_i hc
      rw [if_pos hc] at hr
      cases hn : next (doAssign vars var d (canAssignVar vars var d st).2) with
      | none => rw [hn] at hr; cases hr
      | some p =>
        rw [h _ _ hn]
        rw [hn] at hr
        obtain ⟨b, st2⟩ := p
        cases b
        · exact ih _ _ hr
        · exact hr
    · rename_i hc
      rw [if_neg hc] at hr
      exact ih _ _ hr

theorem backtrackFuel_succ (vars : List SessionVar) (domains : List (List Assignment)) :
    ∀ (fuel : Nat) (st : State) (r : Bool × State),
      backtrackFuel vars domains fuel st = some r →
      backtrackFuel vars domains (fuel + 1) st = some r := by
  intro fuel
  induction fuel with
  | zero => intro st r hr; simp [backtrackFuel] at hr
  | succ fuel ih =>
    intro st r hr
    rw [backtrackFuel] at hr ⊢
    split
    · rename_i hall
      rw [if_pos hall] at hr
      exact hr
    · rename_i hall
      rw [if_neg hall] at hr
      simp only [] at hr ⊢
      split
      · rename_i hsel
        rw [if_pos hsel] at hr
        exact hr
      · rename_i hsel
        rw [if_neg hsel] at hr
        exact tryDomain_mono vars _ _ _ ih _ _ _ hr

theorem backtrackFuel_mono (vars : List SessionVar) (domains : List (List Assignment))
    (fuel fuel' : Nat) (hle : fuel ≤ fuel') (st : State) (r : Bool × State)
    (h : backtrackFuel vars domains fuel st = some r) :
    backtrackFuel vars domains fuel' st = some r := by
  induction hle with
  | refl => exact h
  | step _ ih => exact backtrackFuel_succ vars domains _ st r ih

theorem unassigned_le_length (st : State) : unassigned st ≤ st.currentAssign.length :=
  List.countP_le_length _

/-- C24: `backtrack` terminates on every state with one entry of
`currentAssign` per variable.  The variable returned by `selectUnassignedVar`
is unassigned, `doAssign` on it lowers the number of unassigned variables by
one, and the search returns its result within as many nested recursive calls
as there are unassigned variables, hence at most the number of variables (a
depth bound of `k + 1` allows `k` nested calls); a larger bound gives the same
result. -/
theorem backtrack_terminates (vars : List SessionVar) (domains : List (List Assignment))
    (st : State) (hlen : st.currentAssign.length = vars.length) :
    (∃ b st', backtrackFuel vars domains (unassigned st + 1) st = some (b, st') ∧
      (∀ fuel, unassigned st + 1 ≤ fuel →
        backtrackFuel vars domains fuel st = some (b, st')) ∧
      backtrack vars domains st = some (b, st')) ∧
    unassigned st ≤ vars.length ∧
    (∀ var : Nat, (selectUnassignedVar vars domains st).1 = (var : Int) →
      var < vars.length ∧ curAt st var = none ∧
      ∀ (d : Assignment) (s : State), SameMembership st s →
        unassigned (doAssign vars var d s) + 1 = unassigned st) := by
  have hle : unassigned st ≤ vars.length := by
    rw [← hlen]; exact unassigned_le_length st
  refine ⟨?_, hle, ?_⟩
  · obtain ⟨b, st', h⟩ := backtrackFuel_total vars domains (unassigned st + 1) st hlen
      (by omega)
    refine ⟨b, st', h, fun fuel hf => backtrackFuel_mono vars domains _ fuel hf st _ h, ?_⟩
    exact backtrackFuel_mono vars domains _ _ (by rw [hlen]; omega) st _ h
  · intro var hvar
    obtain ⟨_, hsel⟩ := selectUnassignedVar_spec vars domains st
    rcases hsel with ⟨e, _⟩ | ⟨i, hi, e, hn, _⟩
    · rw [e] at hvar
      omega
    · rw [e] at hvar
      have hiv : i = var := by exact_mod_cast hvar
      subst hiv
      refine ⟨hi, hn, ?_⟩
      intro d s hs
      rw [unassigned_doAssign vars i d s (by rw [hs.curAt]; exact hn)
        (by rw [hs.1, hlen]; exact hi)]
      exact unassigned_congr hs

theorem backtrack_terminates_witness :
    (initState varsP.length).currentAssign.length = varsP.length ∧
      unassigned (initState varsP.length) ≤ varsP.length ∧
      ∃ b st', backtrack varsP domsR (initState varsP.length) = some (b, st') :=
  have h := backtrack_terminates varsP domsR (initState varsP.length) (by decide)
  ⟨by decide, h.2.1, h.1.imp fun _ hb => hb.imp fun _ hst => hst.2.2⟩

end Second

namespace Second

/-- The loop of `selectUnassignedVar` with the position of the result: the
chosen index has strictly fewer legal items than every unassigned index
before it in the list, and at most as many as every one after it. -/
theorem selectLoop_first (vars : List SessionVar) (domains : List (List Assignment)) :
    ∀ (is : List Nat) (best : Int) (bestSize : Nat) (st : State),
      ((selectLoop vars domains is best bestSize st).1 = best ∧
          ∀ j, j ∈ is → curAt st j = none → bestSize ≤ legalCount vars domains st j) ∨
        ∃ (pre : List Nat) (i : Nat) (post : List Nat), is = pre ++ i :: post ∧
          (selectLoop vars domains is best bestSize st).1 = ((i : Nat) : Int) ∧
          curAt st i = none ∧ legalCount vars domains st i < bestSize ∧
          (∀ j, j ∈ pre → curAt st j = none →
            legalCount vars domains st i < legalCount vars domains st j) ∧
          (∀ j, j ∈ post → curAt st j = none →
            legalCount vars domains st i ≤ legalCount vars domains st j) := by
  intro is
  induction is with
  | nil =>
    intro best bestSize st
    exact Or.inl ⟨rfl, fun j hj => by cases hj⟩
  | cons i0 is ih =>
    intro best bestSize st
    simp only [selectLoop]
    by_cases hsome : (curAt st i0).isSome = true
    · rw [if_pos hsome]
      have hne : curAt st i0 ≠ none := by
        intro hc
        rw [hc] at hsome
        cases hsome
      rcases ih best bestSize st with ⟨e, hmin⟩ | ⟨pre, i, post, his, e, hn, hlt, hpre, hpost⟩
      · refine Or.inl ⟨e, ?_⟩
        intro j hj hjn
        rcases List.mem_cons.mp hj with rfl | hj
        · exact absurd hjn hne
        · exact hmin j hj hjn
      · refine Or.inr ⟨i0 :: pre, i, post, by rw [his, List.cons_append], e, hn, hlt, ?_, hpost⟩
        intro j hj hjn
        rcases List.mem_cons.mp hj with rfl | hj
        · exact absurd hjn hne
        · exact hpre j hj hjn
    · rw [if_neg hsome]
      have hnone : curAt st i0 = none := by
        cases hc : curAt st i0 with
        | none => rfl
        | some v => rw [hc] at hsome; exact absurd rfl hsome
      obtain ⟨hs, hcnt⟩ := countLegal_spec vars i0 (domAt domains i0) st
      have hleg : (countLegal vars i0 (domAt domains i0) st).1 =
          legalCount vars domains st i0 := hcnt
      have hcong : ∀ j, legalCount vars domains (countLegal vars i0 (domAt domains i0) st).2 j =
          legalCount vars domains st j := fun j => legalCount_congr vars domains hs j
      have hcur : ∀ j, curAt (countLegal vars i0 (domAt domains i0) st).2 j = curAt st j :=
        fun j => hs.curAt j
      by_cases hlt : (countLegal vars i0 (domAt domains i0) st).1 < bestSize
      · rw [if_pos hlt]
        refine Or.inr ?_
        rcases ih (i0 : Int) (countLegal vars i0 (domAt domains i0) st).1
            (countLegal vars i0 (domAt domains i0) st).2 with
          ⟨e, hmin⟩ | ⟨pre, i, post, his, e, hn, hlt', hpre, hpost⟩
        · refine ⟨[], i0, is, rfl, e, hnone, by rw [← hleg]; exact hlt,
            (fun j hj => by cases hj), ?_⟩
          intro j hj hjn
          have := hmin j hj (by rw [hcur]; exact hjn)
          rw [hcong, hleg] at this
          exact this
        · rw [hcong, hleg] at hlt'
          rw [hcur] at hn
          rw [hleg] at hlt
          refine ⟨i0 :: pre, i, post, by rw [his, List.cons_append], e, hn, by omega, ?_, ?_⟩
          · intro j hj hjn
            rcases List.mem_cons.mp hj with rfl | hj
            · exact hlt'
            · have := hpre j hj (by rw [hcur]; exact hjn)
              rw [hcong, hcong] at this
              exact this
          · intro j hj hjn
            have := hpost j hj (by rw [hcur]; exact hjn)
            rw [hcong, hcong] at this
            exact this
      · rw [if_neg hlt]
        rw [hleg] at hlt
        rcases ih best bestSize (countLegal vars i0 (domAt domains i0) st).2 with
          ⟨e, hmin⟩ | ⟨pre, i, post, his, e, hn, hlt', hpre, hpost⟩
        · refine Or.inl ⟨e, ?_⟩
          intro j hj hjn
          rcases List.mem_cons.mp hj with rfl | hj
          · omega
          · have := hmin j hj (by rw [hcur]; exact hjn)
            rw [hcong] at this
            exact this
        · rw [hcong] at hlt'
          rw [hcur] at hn
          refine Or.inr ⟨i0 :: pre, i, post, by rw [his, List.cons_append], e, hn, hlt', ?_, ?_⟩
          · intro j hj hjn
            rcases List.mem_cons.mp hj with rfl | hj
            · omega
            · have := hpre j hj (by rw [hcur]; exact hjn)
              rw [hcong, hcong] at this
              exact this
          · intro j hj hjn
            have := hpost j hj (by rw [hcur]; exact hjn)
            rw [hcong, hcong] at this
            exact this

theorem range_split (n i : Nat) (pre post : List Nat) (h : List.range n = pre ++ i :: post) :
    i < n ∧ (∀ j, j < i → j ∈ pre) ∧ ∀ j, j < n → j ∈ pre ∨ j = i ∨ j ∈ post := by
  have hi : i < n := by
    have : i ∈ List.range n := by rw [h]; simp
    exact List.mem_range.mp this
  have hall : ∀ j, j < n → j ∈ pre ∨ j = i ∨ j ∈ post := by
    intro j hj
    have : j ∈ List.range n := List.mem_range.mpr hj
    rw [h] at this
    simpa using this
  refine ⟨hi, ?_, hall⟩
  intro j hj
  rcases hall j (by omega) with h1 | h1 | h1
  · exact h1
  · omega
  · exfalso
    have hp : (pre ++ i :: post).Pairwise (· < ·) := by
      rw [← h]; exact List.pairwise_lt_range n
    have := (List.pairwise_cons.mp (List.pairwise_append.mp hp).2.1).1 j h1
    omega

theorem legalCount_eq_count (vars : List SessionVar) (domains : List (List Assignment))
    (st : State) (i : Nat) :
    legalCount vars domains st i =
      (domAt domains i).countP fun d => (canAssignVar vars i d st).1 := by
  unfold legalCount
  congr 1
  funext d
  exact (canAssignVar_fst vars i d st).symm

/-- C22: `selectUnassignedVar` returns `-1` exactly when every variable is
assigned; otherwise it returns the index of an unassigned variable whose
number of domain items accepted by `canAssignVar` in the current state is at
most that of every unassigned variable and strictly below that of every
unassigned variable with a smaller index.  So `backtrack`, which has tested
that some entry is unassigned, never takes the branch `var == -1`.  Domain
sizes are below `SIZE_MAX`, as for every `std::vector`. -/
theorem selectUnassignedVar_mrv (vars : List SessionVar) (domains : List (List Assignment))
    (st : State)
    (hsize : ∀ i, i < vars.length → (domAt domains i).length < SIZE_MAX) :
    ((selectUnassignedVar vars domains st).1 = -1 ↔
      ∀ j, j < vars.length → (curAt st j).isSome = true) ∧
    ((selectUnassignedVar vars domains st).1 = -1 ∨
      ∃ i : Nat, (selectUnassignedVar vars domains st).1 = (i : Int)) ∧
    (∀ i : Nat, (selectUnassignedVar vars domains st).1 = (i : Int) →
      i < vars.length ∧ curAt st i = none ∧
      (∀ j, j < vars.length → curAt st j = none →
        ((domAt domains i).countP fun d => (canAssignVar vars i d st).1) ≤
          (domAt domains j).countP fun d => (canAssignVar vars j d st).1) ∧
      (∀ j, j < i → curAt st j = none →
        ((domAt domains i).countP fun d => (canAssignVar vars i d st).1) <
          (domAt domains j).countP fun d => (canAssignVar vars j d st).1)) ∧
    (st.currentAssign.length = vars.length → allAssigned st = false →
      (selectUnassignedVar vars domains st).1 ≠ -1) := by
  have hsel := selectLoop_first vars domains (List.range vars.length) (-1) SIZE_MAX st
  have hiff : (selectUnassignedVar vars domains st).1 = -1 ↔
      ∀ j, j < vars.length → (curAt st j).isSome = true := by
    rcases hsel with ⟨e, hbig⟩ | ⟨pre, i, post, his, e, hn, _⟩
    · refine ⟨fun _ j hj => ?_, fun _ => e⟩
      cases hc : curAt st j with
      | some v => rfl
      | none =>
        exfalso
        have h1 := hbig j (List.mem_range.mpr hj) hc
        have h2 := legalCount_le vars domains st j
        have h3 := hsize j hj
        omega
    · have e' : (selectUnassignedVar vars domains st).1 = (i : Int) := e
      constructor
      · intro h
        rw [e'] at h
        omega
      · intro h
        have := h i (range_split _ i pre post his).1
        rw [hn] at this
        cases this
  refine ⟨hiff, ?_, ?_, ?_⟩
  · rcases hsel with ⟨e, _⟩ | ⟨pre, i, post, _, e, _⟩
    · exact Or.inl e
    · exact Or.inr ⟨i, e⟩
  · intro i hi
    rcases hsel with ⟨e, _⟩ | ⟨pre, i', post, his, e, hn, _, hpre, hpost⟩
    · have e' : (selectUnassignedVar vars domains st).1 = -1 := e
      rw [e'] at hi
      omega
    · have e' : (selectUnassignedVar vars domains st).1 = (i' : Int) := e
      rw [e'] at hi
      have hii : i' = i := by exact_mod_cast hi
      subst hii
      obtain ⟨hlt, hbefore, hall⟩ := range_split _ i' pre post his
      simp only [← legalCount_eq_count]
      refine ⟨hlt, hn, ?_, ?_⟩
      · intro j hj hjn
        rcases hall j hj with h1 | h1 | h1
        · exact Nat.le_of_lt (hpre j h1 hjn)
        · rw [h1]
        · exact hpost j h1 hjn
      · intro j hj hjn
        exact hpre j (hbefore j hj) hjn
  · intro hlen hall hm
    have hnot : ¬ allAssigned st = true := by rw [hall]; simp
    obtain ⟨j, hj, hjn⟩ := exists_unassigned st hnot
    have := hiff.mp hm j (by rw [← hlen]; exact hj)
    rw [hjn] at this
    cases this

theorem selectUnassignedVar_mrv_witness :
    (∀ i, i < varsP.length → (domAt domsP i).length < SIZE_MAX) ∧
      (selectUnassignedVar varsP domsP (initState varsP.length)).1 = ((1 : Nat) : Int) ∧
      (1 < varsP.length ∧ curAt (initState varsP.length) 1 = none) :=
  have hsize : ∀ i, i < varsP.length → (domAt domsP i).length < SIZE_MAX := by
    intro i hi
    have hi2 : i < 2 := hi
    interval_cases i <;> decide
  have h := (selectUnassignedVar_mrv varsP domsP (initState varsP.length) hsize).2.2.1 1
    (by decide)
  ⟨hsize, by decide, h.1, h.2.1⟩

end Second

namespace Second

theorem countLegalStates_same (vars : List SessionVar) (i : Nat) :
    ∀ (ds : List Assignment) (st s : State), s ∈ countLegalStates vars i ds st →
      SameMembership st s := by
  intro ds
  induction ds with
  | nil =>
    intro st s h
    cases h
  | cons d ds ih =>
    intro st s h
    simp only [countLegalStates, List.mem_cons] at h
    rcases h with rfl | h
    · exact canAssignVar_snd vars i d st
    · exact (canAssignVar_snd vars i d st).same_trans (ih _ _ h)

theorem selectStates_same (vars : List SessionVar) (domains : List (List Assignment)) :
    ∀ (is : List Nat) (st s : State), s ∈ selectStates vars domains is st →
      SameMembership st s := by
  intro is
  induction is with
  | nil =>
    intro st s h
    cases h
  | cons i is ih =>
    intro st s h
    simp only [selectStates] at h
    by_cases hsome : (curAt st i).isSome = true
    · rw [if_pos hsome] at h
      exact ih _ _ h
    · rw [if_neg hsome] at h
      rcases List.mem_append.mp h with h | h
      · exact countLegalStates_same vars i _ _ _ h
      · exact (countLegal_spec vars i (domAt domains i) st).1.same_trans (ih _ _ h)

theorem countLegal_final_mem (vars : List SessionVar) (i : Nat) :
    ∀ (ds : List Assignment) (st : State),
      (countLegal vars i ds st).2 ∈ st :: countLegalStates vars i ds st := by
  intro ds
  induction ds with
  | nil =>
    intro st
    exact List.mem_cons_self _ _
  | cons d ds ih =>
    intro st
    simp only [countLegal, countLegalStates]
    exact List.mem_cons_of_mem _ (ih _)

theorem selectLoop_final_mem (vars : List SessionVar) (domains : List (List Assignment)) :
    ∀ (is : List Nat) (best : Int) (bestSize : Nat) (st : State),
      (selectLoop vars domains is best bestSize st).2 ∈
        st :: selectStates vars domains is st := by
  intro is
  induction is with
  | nil =>
    intro best bestSize st
    exact List.mem_cons_self _ _
  | cons i is ih =>
    intro best bestSize st
    simp only [selectLoop, selectStates]
    by_cases hsome : (curAt st i).isSome = true
    · rw [if_pos hsome, if_pos hsome]
      exact ih _ _ _
    · rw [if_neg hsome, if_neg hsome]
      have hc := countLegal_final_mem vars i (domAt domains i) st
      have key : ∀ b bs, (selectLoop vars domains is b bs
          (countLegal vars i (domAt domains i) st).2).2 ∈
          st :: (countLegalStates vars i (domAt domains i) st ++
            selectStates vars domains is (countLegal vars i (domAt domains i) st).2) := by
        intro b bs
        rcases List.mem_cons.mp (ih b bs (countLegal vars i (domAt domains i) st).2) with
          h | h
        · rw [h]
          rcases List.mem_cons.mp hc with h2 | h2
          · rw [h2]; exact List.mem_cons_self _ _
          · exact List.mem_cons_of_mem _ (List.mem_append_left _ h2)
        · exact List.mem_cons_of_mem _ (List.mem_append_right _ h)
      split
      · exact key _ _
      · exact key _ _

theorem tryDomain_final_mem (vars : List SessionVar) (next : State → Option (Bool × State))
    (nextStates : State → List State) (var : Nat)
    (hnext : ∀ s b s', next s = some (b, s') → s' ∈ nextStates s) :
    ∀ (ds : List Assignment) (st : State) (b : Bool) (st' : State),
      tryDomain vars next var ds st = some (b, st') →
      st' ∈ st :: tryDomainStates vars next nextStates var ds st := by
  intro ds
  induction ds with
  | nil =>
    intro st b st' h
    simp only [tryDomain, Option.some.injEq, Prod.mk.injEq] at h
    rw [← h.2]
    exact List.mem_cons_self _ _
  | cons d ds ih =>
    intro st b st' h
    simp only [tryDomain] at h
    simp only [tryDomainStates]
    by_cases hc : (canAssignVar vars var d st).1 = true
    · rw [if_pos hc] at h
      rw [if_pos hc]
      cases hn : next (doAssign vars var d (canAssignVar vars var d st).2) with
      | none => simp [hn] at h
      | some p =>
        obtain ⟨b2, st2⟩ := p
        have hmem := hnext _ _ _ hn
        cases b2
        · simp only [hn] at h
          have := ih _ _ _ h
          refine List.mem_cons_of_mem _ (List.mem_cons_of_mem _ (List.mem_cons_of_mem _
            (List.mem_append_right _ this)))
        · simp only [hn, Option.some.injEq, Prod.mk.injEq] at h
          rw [← h.2]
          exact List.mem_cons_of_mem _ (List.mem_cons_of_mem _ (List.mem_cons_of_mem _
            (List.mem_append_left _ hmem)))
    · rw [if_neg hc] at h
      rw [if_neg hc]
      exact List.mem_cons_of_mem _ (ih _ _ _ h)

theorem backtrackFuel_final_mem (vars : List SessionVar) (domains : List (List Assignment)) :
    ∀ (fuel : Nat) (st : State) (b : Bool) (st' : State),
      backtrackFuel vars domains fuel st = some (b, st') →
      st' ∈ backtrackStates vars domains fuel st := by
  intro fuel
  induction fuel with
  | zero =>
    intro st b st' h
    simp [backtrackFuel] at h
  | succ fuel ih =>
    intro st b st' h
    simp only [backtrackFuel] at h
    simp only [backtrackStates]
    by_cases hall : allAssigned st = true
    · rw [if_pos hall] at h
      simp only [Option.some.injEq, Prod.mk.injEq] at h
      rw [← h.2]
      exact List.mem_cons_self _ _
    · rw [if_neg hall] at h
      rw [if_neg hall]
      have hsel : (selectUnassignedVar vars domains st).2 ∈
          st :: selectStates vars domains (List.range vars.length) st :=
        selectLoop_final_mem vars domains _ _ _ st
      by_cases e : (selectUnassignedVar vars domains st).1 = -1
      · rw [if_pos e] at h
        rw [if_pos e]
        simp only [Option.some.injEq, Prod.mk.injEq] at h
        rw [← h.2, List.append_nil]
        exact hsel
      · rw [if_neg e] at h
        rw [if_neg e]
        rcases List.mem_cons.mp (tryDomain_final_mem vars _
            (backtrackStates vars domains fuel) _ ih _ _ _ _ h) with h1 | h1
        · rw [h1]
          rcases List.mem_cons.mp hsel with h2 | h2
          · rw [h2]; exact List.mem_cons_self _ _
          · exact List.mem_cons_of_mem _ (List.mem_append_left _ h2)
        · exact List.mem_cons_of_mem _ (List.mem_append_right _ h1)

theorem tryDomainStates_inv (vars : List SessionVar) (domains : List (List Assignment))
    (next : State → Option (Bool × State)) (nextStates : State → List State) (var : Nat)
    (hnext : ∀ s b s', next s = some (b, s') → CallOK vars domains s b s')
    (hstates : ∀ s, Inv vars s → ∀ t, t ∈ nextStates s → Inv vars t)
    (hlt : var < vars.length) :
    ∀ (ds : List Assignment) (st : State), Inv vars st → curAt st var = none →
      ∀ t, t ∈ tryDomainStates vars next nextStates var ds st → Inv vars t := by
  intro ds
  induction ds with
  | nil =>
    intro st _ _ t h
    cases h
  | cons d ds ih =>
    intro st hinv hnone t h
    have hs := canAssignVar_snd vars var d st
    have hinv1 : Inv vars (canAssignVar vars var d st).2 := hinv.inv_congr hs
    have hnone1 : curAt (canAssignVar vars var d st).2 var = none := by
      rw [hs.curAt]; exact hnone
    simp only [tryDomainStates] at h
    by_cases hc : (canAssignVar vars var d st).1 = true
    · rw [if_pos hc] at h
      have hfree : isFree vars var d (canAssignVar vars var d st).2 = true := by
        rw [isFree_congr vars var d hs, ← canAssignVar_fst]
        exact hc
      have hinv2 : Inv vars (doAssign vars var d (canAssignVar vars var d st).2) :=
        hinv1.inv_doAssign var d hnone1 hlt hfree
      rcases List.mem_cons.mp h with rfl | h
      · exact hinv1
      rcases List.mem_cons.mp h with rfl | h
      · exact hinv2
      rcases List.mem_append.mp h with h | h
      · exact hstates _ hinv2 t h
      · cases hn : next (doAssign vars var d (canAssignVar vars var d st).2) with
        | none => simp [hn] at h
        | some p =>
          obtain ⟨b2, st2⟩ := p
          cases b2
          · simp only [hn] at h
            have hok := hnext _ _ _ hn
            have hback : SameMembership (canAssignVar vars var d st).2
                (undoAssign vars var d st2) :=
              undo_restores vars var d _ st2 hfree hnone1 (hok.1 rfl)
            have hinv3 : Inv vars (undoAssign vars var d st2) := hinv1.inv_congr hback
            have hnone3 : curAt (undoAssign vars var d st2) var = none := by
              rw [hback.curAt]; exact hnone1
            rcases List.mem_cons.mp h with rfl | h
            · exact hinv3
            · exact ih _ hinv3 hnone3 t h
          · simp [hn] at h
    · rw [if_neg hc] at h
      rcases List.mem_cons.mp h with rfl | h
      · exact hinv1
      · exact ih _ hinv1 hnone1 t h

theorem backtrackStates_inv (vars : List SessionVar) (domains : List (List Assignment)) :
    ∀ (fuel : Nat) (st : State), Inv vars st →
      ∀ t, t ∈ backtrackStates vars domains fuel st → Inv vars t := by
  intro fuel
  induction fuel with
  | zero =>
    intro st hinv t h
    simp only [backtrackStates, List.mem_singleton] at h
    rw [h]; exact hinv
  | succ fuel ih =>
    intro st hinv t h
    simp only [backtrackStates] at h
    rcases List.mem_cons.mp h with rfl | h
    · exact hinv
    by_cases hall : allAssigned st = true
    · rw [if_pos hall] at h
      cases h
    · rw [if_neg hall] at h
      rcases List.mem_append.mp h with h | h
      · exact hinv.inv_congr (selectStates_same vars domains _ _ _ h)
      · obtain ⟨hs, hsel⟩ := selectUnassignedVar_spec vars domains st
        rcases hsel with ⟨e, _⟩ | ⟨i, hi, e, hn, _⟩
        · rw [if_pos e] at h
          cases h
        · have hne : (selectUnassignedVar vars domains st).1 ≠ -1 := by
            rw [e]; omega
          rw [if_neg hne, e] at h
          simp only [Int.toNat_ofNat] at h
          exact tryDomainStates_inv vars domains _ _ i
            (backtrackFuel_ok vars domains fuel) ih hi _ _ (hinv.inv_congr hs)
            (by rw [hs.curAt]; exact hn) t h

theorem tracks_lt {res : Nat → Assignment → Option String} {m : BusyMap}
    {cur : List (Option Assignment)} (h : Tracks res m cur) (k x : String) :
    m.count k x = true ↔
      ∃ i a, i < cur.length ∧ cur.getD i none = some a ∧ a.timeslotId = k ∧
        res i a = some x := by
  rw [h k x]
  constructor
  · rintro ⟨i, a, hia, hk, hr⟩
    refine ⟨i, a, ?_, hia, hk, hr⟩
    by_contra hge
    rw [List.getD_eq_default _ _ (by omega)] at hia
    cases hia
  · rintro ⟨i, a, _, hia, hk, hr⟩
    exact ⟨i, a, hia, hk, hr⟩

/-- C21: the tracker stays in lock-step with the partial assignment.  The list
`reachedStates` holds the states the search started by `main` passes through
between its calls of `canAssignVar`, `doAssign`, `undoAssign` and `backtrack`;
it contains the initial state and the state the search ends in.  In every
state of the list and for every time slot `t`: `roomBusy[t]` contains `r`
exactly when some assigned variable holds `(t, r)`; `sectionBusy[t]` contains
`sec` exactly when some assigned variable of section `sec` holds slot `t`;
`instrBusy[t]` contains `x` exactly when some assigned variable holds slot `t`
with `instructorId` `x` and `x` is not empty; and likewise `taBusy[t]` for
`taId`. -/
theorem tracker_lock_step (vars : List SessionVar) (domains : List (List Assignment)) :
    initState vars.length ∈ reachedStates vars domains ∧
    (∀ b st', backtrack0 vars domains = some (b, st') →
      st' ∈ reachedStates vars domains) ∧
    ∀ s, s ∈ reachedStates vars domains → ∀ t : String,
      (∀ r, s.roomBusy.count t r = true ↔
        ∃ i a, i < vars.length ∧ curAt s i = some a ∧ a.timeslotId = t ∧ a.roomId = r) ∧
      (∀ sec, s.sectionBusy.count t sec = true ↔
        ∃ i a, i < vars.length ∧ curAt s i = some a ∧ a.timeslotId = t ∧
          (varAt vars i).sectionId = sec) ∧
      (∀ x, s.instrBusy.count t x = true ↔
        ∃ i a, i < vars.length ∧ curAt s i = some a ∧ a.timeslotId = t ∧
          a.instructorId = x ∧ x ≠ "") ∧
      (∀ x, s.taBusy.count t x = true ↔
        ∃ i a, i < vars.length ∧ curAt s i = some a ∧ a.timeslotId = t ∧
          a.taId = x ∧ x ≠ "") := by
  refine ⟨List.mem_cons_self _ _, ?_, ?_⟩
  · intro b st' h
    have h' : backtrackFuel vars domains (vars.length + 1) (initState vars.length) =
        some (b, st') := by
      have : (initState vars.length).currentAssign.length = vars.length := by
        simp [initState]
      unfold backtrack0 backtrack at h
      rw [this] at h
      exact h
    exact backtrackFuel_final_mem vars domains _ _ _ _ h'
  · intro s hs t
    have hinv : Inv vars s :=
      backtrackStates_inv vars domains _ _ (Inv.inv_init vars) s hs
    refine ⟨fun r => ?_, fun sec => ?_, fun x => ?_, fun x => ?_⟩
    · rw [tracks_lt hinv.room t r, hinv.len]
      simp only [roomRes, Option.some.injEq, curAt]
    · rw [tracks_lt hinv.sect t sec, hinv.len]
      simp only [sectionRes, Option.some.injEq, curAt]
    · rw [tracks_lt hinv.instr t x, hinv.len]
      simp only [instrRes, curAt]
      constructor
      · rintro ⟨i, a, hi, hia, hk, hr⟩
        by_cases he : a.instructorId = ""
        · simp [he] at hr
        · simp [he] at hr
          exact ⟨i, a, hi, hia, hk, hr, hr ▸ he⟩
      · rintro ⟨i, a, hi, hia, hk, hr, hx⟩
        refine ⟨i, a, hi, hia, hk, ?_⟩
        have he : a.instructorId ≠ "" := hr ▸ hx
        simp [hr, hx]
    · rw [tracks_lt hinv.ta t x, hinv.len]
      simp only [taRes, curAt]
      constructor
      · rintro ⟨i, a, hi, hia, hk, hr⟩
        by_cases he : a.taId = ""
        · simp [he] at hr
        · simp [he] at hr
          exact ⟨i, a, hi, hia, hk, hr, hr ▸ he⟩
      · rintro ⟨i, a, hi, hia, hk, hr, hx⟩
        refine ⟨i, a, hi, hia, hk, ?_⟩
        have he : a.taId ≠ "" := hr ▸ hx
        simp [hr, hx]

end Second

namespace Second

theorem tracker_lock_step_witness :
    ∃ h : reachedStates varsP domsP ≠ [],
      (reachedStates varsP domsP).getLast h ∈ reachedStates varsP domsP ∧
      curAt ((reachedStates varsP domsP).getLast h) 0 = some ⟨"t2", "r1", "i1", ""⟩ ∧
      (((reachedStates varsP domsP).getLast h).roomBusy.count "t2" "r1" = true ↔
        ∃ i a, i < varsP.length ∧ curAt ((reachedStates varsP domsP).getLast h) i = some a ∧
          a.timeslotId = "t2" ∧ a.roomId = "r1") :=
  ⟨List.ne_nil_of_mem (tracker_lock_step varsP domsP).1, List.getLast_mem _, by decide,
    ((tracker_lock_step varsP domsP).2.2 _ (List.getLast_mem _) "t2").1 "r1"⟩

end Second

namespace First

theorem possible_rooms_sorted (c : Catalog) (s : Session) (sec : Section) :
    (possible_rooms c s sec).Pairwise (· < ·) :=
  (List.pairwise_lt_range _).filter _

theorem possible_teachers_sorted (c : Catalog) (s : Session) :
    (possible_teachers c s).Pairwise (· < ·) := by
  unfold possible_teachers
  split
  · exact (List.pairwise_lt_range _).filter _
  · exact (List.pairwise_lt_range _).filter _

/-- The loops of `solve` visit the triples in strictly increasing order. -/
theorem candidates_sorted (c : Catalog) (s : Session) (sec : Section) :
    (candidates c s sec).Pairwise candLt := by
  unfold candidates possible_times
  rw [List.pairwise_flatMap]
  constructor
  · intro t _
    rw [List.pairwise_flatMap]
    constructor
    · intro r _
      rw [List.pairwise_map]
      refine (possible_teachers_sorted c s).imp ?_
      intro a b hab
      exact Or.inr ⟨rfl, Or.inr ⟨rfl, hab⟩⟩
    · refine (possible_rooms_sorted c s sec).imp ?_
      intro r1 r2 hr x hx y hy
      obtain ⟨_, _, rfl⟩ := List.mem_map.mp hx
      obtain ⟨_, _, rfl⟩ := List.mem_map.mp hy
      exact Or.inr ⟨rfl, Or.inl hr⟩
  · refine (List.pairwise_lt_range _).imp ?_
    intro t1 t2 ht x hx y hy
    obtain ⟨_, _, hx⟩ := List.mem_flatMap.mp hx
    obtain ⟨_, _, rfl⟩ := List.mem_map.mp hx
    obtain ⟨_, _, hy⟩ := List.mem_flatMap.mp hy
    obtain ⟨_, _, rfl⟩ := List.mem_map.mp hy
    exact Or.inl ht

theorem tripleLt_of_candLt {x y : Nat × Nat × Nat} (h : candLt x y) :
    tripleLt ⟨(x.1 : Int), (x.2.1 : Int), (x.2.2 : Int)⟩
      ⟨(y.1 : Int), (y.2.1 : Int), (y.2.2 : Int)⟩ := by
  unfold candLt at h
  unfold tripleLt
  simp only [Nat.cast_lt, Nat.cast_inj]
  exact h

/-- The loops at position `pos` stop at the first triple that leads to a
complete table, which is at most the triple of any complete solution `σ`
that agrees with the table on the earlier positions. -/
theorem tryCandidates_lex (sessions : List Session) (pos n : Nat)
    (next : List Assignment → Option (Bool × List Assignment))
    (σ : List Assignment)
    (hσ : check_constraints sessions σ pos = true)
    (hframe : ∀ x b x', next x = some (b, x') → FrameOK (pos + 1) x x')
    (hcomplete : ∀ x, x.length = n → (∀ i, i < pos + 1 → asgAt x i = asgAt σ i) →
      ∃ x', next x = some (true, x'))
    (hlex : ∀ x x', x.length = n → (∀ i, i < pos + 1 → asgAt x i = asgAt σ i) →
      next x = some (true, x') → LexLe n x' σ)
    (hpos : pos < n) :
    ∀ (cands : List (Nat × Nat × Nat)) (a a' : List Assignment),
      a.length = n → (∀ i, i < pos → asgAt a i = asgAt σ i) →
      cands.Pairwise candLt →
      (∃ t r teach : Nat, (t, r, teach) ∈ cands ∧
        asgAt σ pos = ⟨(t : Int), (r : Int), (teach : Int)⟩) →
      tryCandidates sessions pos next cands a = some (true, a') → LexLe n a' σ := by
  intro cands
  induction cands with
  | nil =>
    rintro a a' _ _ _ ⟨t, r, teach, hm, _⟩
    cases hm
  | cons cand rest ih =>
    intro a a' hlen hpre hsorted hmem h
    obtain ⟨t, r, teach⟩ := cand
    have hlen1 : (a.set pos (⟨t, r, teach⟩ : Assignment)).length = n := by
      rw [List.length_set]; exact hlen
    have hpre1 : ∀ i, i < pos →
        asgAt (a.set pos (⟨t, r, teach⟩ : Assignment)) i = asgAt σ i := by
      intro i hi
      rw [asgAt_set_ne a pos i _ (by omega)]
      exact hpre i hi
    have hself : asgAt (a.set pos (⟨t, r, teach⟩ : Assignment)) pos = ⟨t, r, teach⟩ :=
      asgAt_set_self a pos _ (by omega)
    simp only [tryCandidates] at h
    by_cases heq : asgAt σ pos = ⟨(t : Int), (r : Int), (teach : Int)⟩
    · have hall : ∀ i, i < pos + 1 →
          asgAt (a.set pos (⟨t, r, teach⟩ : Assignment)) i = asgAt σ i := by
        intro i hi
        by_cases hip : i = pos
        · subst hip
          rw [hself, heq]
        · exact hpre1 i (by omega)
      have hc : check_constraints sessions (a.set pos ⟨t, r, teach⟩) pos = true := by
        rw [check_constraints_congr sessions _ σ pos (fun i hi => hall i (by omega))]
        exact hσ
      obtain ⟨x', hx'⟩ := hcomplete _ hlen1 hall
      rw [if_pos hc, hx'] at h
      simp only [Option.some.injEq, Prod.mk.injEq, true_and] at h
      rw [← h]
      exact hlex _ _ hlen1 hall hx'
    · obtain ⟨hhead, hsorted'⟩ := List.pairwise_cons.mp hsorted
      obtain ⟨t', r', teach', hm, he⟩ := hmem
      have hm' : (t', r', teach') ∈ rest := by
        rcases List.mem_cons.mp hm with h1 | h1
        · exfalso
          apply heq
          simp only [Prod.mk.injEq] at h1
          obtain ⟨rfl, rfl, rfl⟩ := h1
          exact he
        · exact h1
      have hlt : tripleLt ⟨(t : Int), (r : Int), (teach : Int)⟩ (asgAt σ pos) := by
        rw [he]
        exact tripleLt_of_candLt (hhead _ hm')
      have hmem' : ∃ t' r' teach' : Nat, (t', r', teach') ∈ rest ∧
          asgAt σ pos = ⟨(t' : Int), (r' : Int), (teach' : Int)⟩ :=
        ⟨t', r', teach', hm', he⟩
      by_cases hc : check_constraints sessions (a.set pos ⟨t, r, teach⟩) pos = true
      · rw [if_pos hc] at h
        cases hn : next (a.set pos ⟨t, r, teach⟩) with
        | none => simp [hn] at h
        | some p =>
          obtain ⟨b2, a2⟩ := p
          have hf := hframe _ _ _ hn
          cases b2
          · simp only [hn] at h
            refine ih a2 a' (hf.1.trans hlen1) ?_ hsorted' hmem' h
            intro i hi
            rw [hf.2 i (by omega)]
            exact hpre1 i hi
          · simp only [hn, Option.some.injEq, Prod.mk.injEq, true_and] at h
            rw [← h]
            refine Or.inr ⟨pos, hpos, ?_, ?_⟩
            · intro i hi
              rw [hf.2 i (by omega)]
              exact hpre1 i hi
            · rw [hf.2 pos (by omega), hself]
              exact hlt
      · rw [if_neg hc] at h
        exact ih _ a' hlen1 hpre1 hsorted' hmem' h

theorem solveFrom_lex (c : Catalog) (sessions : List Session) (σ : List Assignment)
    (hadm : ∀ i, i < sessions.length → Admissible c (sessAt sessions i) (asgAt σ i))
    (hck : ∀ i, i < sessions.length → check_constraints sessions σ i = true) :
    ∀ (rest : List Session) (pos : Nat) (a a' : List Assignment),
      sessions.drop pos = rest → a.length = sessions.length →
      (∀ i, i < pos → asgAt a i = asgAt σ i) →
      solveFrom c sessions rest pos a = some (true, a') →
      LexLe sessions.length a' σ := by
  intro rest
  induction rest with
  | nil =>
    intro pos a a' hd _ hpre h
    simp only [solveFrom, Option.some.injEq, Prod.mk.injEq, true_and] at h
    rw [← h]
    have hge : sessions.length ≤ pos := List.drop_eq_nil_iff.mp hd
    exact Or.inl fun i hi => hpre i (by omega)
  | cons s rest ih =>
    intro pos a a' hd hlen hpre h
    obtain ⟨hpos, hs, hd'⟩ := sessAt_of_drop hd
    obtain ⟨sec, hsec, t, r, teach, hm, he⟩ := hadm pos hpos
    rw [hs] at hsec hm
    simp only [solveFrom, hsec] at h
    cases htc : tryCandidates sessions pos (solveFrom c sessions rest (pos + 1))
        (candidates c s sec) a with
    | none => simp [htc] at h
    | some p =>
      obtain ⟨b, a1⟩ := p
      cases b
      · simp [htc] at h
      · simp only [htc, Option.some.injEq, Prod.mk.injEq, true_and] at h
        rw [← h]
        exact tryCandidates_lex sessions pos sessions.length
          (solveFrom c sessions rest (pos + 1)) σ (hck pos hpos)
          (fun x b x' hx => solveFrom_frame c sessions rest (pos + 1) x b x' hx)
          (fun x hx hp => solveFrom_complete c sessions σ hadm hck rest (pos + 1) x hd' hx hp)
          (fun x x' hx hp hn => ih (pos + 1) x x' hd' hx hp hn)
          hpos (candidates c s sec) a a1 hlen hpre (candidates_sorted c s sec)
          ⟨t, r, teach, hm, he⟩ htc

/-- C25: when `solve(0)` returns true, the table it leaves is the first
complete conflict-free table in search order.  Let `σ` choose for every
session a valid time index, a room index whose room passes `match_room` and a
teacher index of `possible_teachers`, such that the three pairwise conditions
of `check_constraints` hold between any two sessions.  Then the table `a` of
`solve(0)` stores at every position a triple enumerated for its session that
passes `check_constraints`, and `a` is lexicographically at most `σ`: either
`a` stores `σ`, or at the first session where they differ the triple of `a`
is smaller in the order by time index, then room index, then teacher index. -/
theorem solve_lex_least (c : Catalog) (sessions : List Session) (a : List Assignment)
    (h : solve0 c sessions = some (true, a)) (σ : Nat → Nat × Nat × Nat)
    (hdom : ∀ i, i < sessions.length →
      ∃ sec, readAt c.sections (sessAt sessions i).sectionIndex = some sec ∧
        (σ i).1 < c.timeSlots.length ∧
        (∃ room, c.rooms[(σ i).2.1]? = some room ∧
          match_room (sessAt sessions i) room sec = true) ∧
        (σ i).2.2 ∈ possible_teachers c (sessAt sessions i))
    (hpair : ∀ i j, i < sessions.length → j < sessions.length → i ≠ j →
      ¬ ((σ i).1 = (σ j).1 ∧ (σ i).2.1 = (σ j).2.1) ∧
      ((sessAt sessions i).sectionIndex = (sessAt sessions j).sectionIndex →
        (σ i).1 ≠ (σ j).1) ∧
      ((((sessAt sessions i).type = "Lecture" ∧ (sessAt sessions j).type = "Lecture") ∨
          ((sessAt sessions i).type ≠ "Lecture" ∧ (sessAt sessions j).type ≠ "Lecture")) →
        ¬ ((σ i).1 = (σ j).1 ∧ (σ i).2.2 = (σ j).2.2))) :
    (∀ i, i < sessions.length → GoodAt c sessions a i) ∧
    ((∀ i, i < sessions.length →
        asgAt a i = ⟨((σ i).1 : Int), ((σ i).2.1 : Int), ((σ i).2.2 : Int)⟩) ∨
      ∃ k, k < sessions.length ∧
        (∀ i, i < k →
          asgAt a i = ⟨((σ i).1 : Int), ((σ i).2.1 : Int), ((σ i).2.2 : Int)⟩) ∧
        tripleLt (asgAt a k) ⟨((σ k).1 : Int), ((σ k).2.1 : Int), ((σ k).2.2 : Int)⟩) := by
  refine ⟨fun i hi => solve0_goodAt c sessions a h i hi, ?_⟩
  have key : LexLe sessions.length a ((List.range sessions.length).map fun k =>
      (⟨((σ k).1 : Int), ((σ k).2.1 : Int), ((σ k).2.2 : Int)⟩ : Assignment)) := by
    apply solveFrom_lex c sessions _ ?_ ?_ (sessions.drop 0) 0 (initAssignments sessions) a
      rfl (by simp [initAssignments]) (fun i hi => by omega) h
    · intro i hi
      obtain ⟨sec, hsec, ht, hroom, hte⟩ := hdom i hi
      refine ⟨sec, hsec, (σ i).1, (σ i).2.1, (σ i).2.2, ?_, asgAt_tableOf σ _ i hi⟩
      exact (mem_candidates c _ sec _ _ _).mpr
        ⟨ht, (mem_possible_rooms c _ sec _).mpr hroom, hte⟩
    · intro i hi
      rw [check_constraints_iff]
      intro k hk
      rw [asgAt_tableOf σ _ k (by omega), asgAt_tableOf σ _ i hi]
      obtain ⟨h1, h2, h3⟩ := hpair k i (by omega) hi (by omega)
      simp only [Nat.cast_inj]
      refine ⟨h1, fun hc => h2 hc.1 hc.2, fun hc => h3 ?_ hc.1⟩
      rcases hc.2 with hcat | hcat
      · exact Or.inl ⟨hcat.2, hcat.1⟩
      · exact Or.inr ⟨hcat.2, hcat.1⟩
  rcases key with hall | ⟨k, hk, hpre, hlt⟩
  · left
    intro i hi
    rw [hall i hi, asgAt_tableOf σ _ i hi]
  · right
    refine ⟨k, hk, ?_, ?_⟩
    · intro i hi
      rw [hpre i hi, asgAt_tableOf σ _ i (by omega)]
    · rw [asgAt_tableOf σ _ k hk] at hlt
      exact hlt

end First

namespace First

theorem solve_lex_least_witness :
    solve0 catB sessB = some (true, [⟨0, 0, 0⟩, ⟨1, 0, 0⟩]) ∧
    ((∀ i, i < sessB.length →
        asgAt [⟨0, 0, 0⟩, ⟨1, 0, 0⟩] i =
          ⟨((sigmaSwap i).1 : Int), ((sigmaSwap i).2.1 : Int), ((sigmaSwap i).2.2 : Int)⟩) ∨
      ∃ k, k < sessB.length ∧
        (∀ i, i < k →
          asgAt [⟨0, 0, 0⟩, ⟨1, 0, 0⟩] i =
            ⟨((sigmaSwap i).1 : Int), ((sigmaSwap i).2.1 : Int),
              ((sigmaSwap i).2.2 : Int)⟩) ∧
        tripleLt (asgAt [⟨0, 0, 0⟩, ⟨1, 0, 0⟩] k)
          ⟨((sigmaSwap k).1 : Int), ((sigmaSwap k).2.1 : Int),
            ((sigmaSwap k).2.2 : Int)⟩) :=
  ⟨by decide,
    (solve_lex_least catB sessB [⟨0, 0, 0⟩, ⟨1, 0, 0⟩] (by decide) sigmaSwap
      (by
        intro i hi
        have hi2 : i < 2 := hi
        interval_cases i
        · exact ⟨⟨"F", 1, "CS", 1, 1, 30⟩, by decide, by decide,
            ⟨⟨"B 1", "B", "1", 100, "Classroom"⟩, by decide, by decide⟩, by decide⟩
        · exact ⟨⟨"F", 1, "CS", 1, 2, 40⟩, by decide, by decide,
            ⟨⟨"B 1", "B", "1", 100, "Classroom"⟩, by decide, by decide⟩, by decide⟩)
      (by
        intro i j hi hj hij
        have hi2 : i < 2 := hi
        have hj2 : j < 2 := hj
        interval_cases i <;> interval_cases j <;> first | exact absurd rfl hij | decide)).2⟩

end First

/-! ## Theorems: the CSV line splitter -/

namespace Second

theorem splitChars_single (delim c : Char) (cur : List Char) (out : List (List Char))
    (inQ : Bool) :
    splitChars delim [c] cur inQ out =
      if c = dquote then splitChars delim [] cur (!inQ) out
      else if c = delim && !inQ then splitChars delim [] [] inQ (out ++ [cur])
      else splitChars delim [] (cur ++ [c]) inQ out := rfl

theorem splitChars_cons_cons (delim c c2 : Char) (rest cur : List Char)
    (out : List (List Char)) (inQ : Bool) :
    splitChars delim (c :: c2 :: rest) cur inQ out =
      if c = dquote then
        if inQ && c2 = dquote then splitChars delim rest (cur ++ [dquote]) inQ out
        else splitChars delim (c2 :: rest) cur (!inQ) out
      else if c = delim && !inQ then splitChars delim (c2 :: rest) [] inQ (out ++ [cur])
      else splitChars delim (c2 :: rest) (cur ++ [c]) inQ out := rfl

/-- Inside quotes every character other than a quote is appended to `cur`. -/
theorem splitChars_inside (delim c : Char) (rest cur : List Char) (out : List (List Char))
    (h : c ≠ dquote) :
    splitChars delim (c :: rest) cur true out = splitChars delim rest (cur ++ [c]) true out := by
  cases rest with
  | nil => rw [splitChars_single]; simp [h]
  | cons c2 r => rw [splitChars_cons_cons]; simp [h]

/-- Outside quotes a character that is neither a quote nor the delimiter is
appended to `cur`. -/
theorem splitChars_outside (delim c : Char) (rest cur : List Char) (out : List (List Char))
    (h : c ≠ dquote) (h2 : c ≠ delim) :
    splitChars delim (c :: rest) cur false out =
      splitChars delim rest (cur ++ [c]) false out := by
  cases rest with
  | nil => rw [splitChars_single]; simp [h, h2]
  | cons c2 r => rw [splitChars_cons_cons]; simp [h, h2]

/-- Outside quotes the delimiter closes the field. -/
theorem splitChars_delim (delim : Char) (rest cur : List Char) (out : List (List Char))
    (h : delim ≠ dquote) :
    splitChars delim (delim :: rest) cur false out =
      splitChars delim rest [] false (out ++ [cur]) := by
  cases rest with
  | nil => rw [splitChars_single]; simp [h]
  | cons c2 r => rw [splitChars_cons_cons]; simp [h]

/-- Outside quotes a quote opens a quoted part. -/
theorem splitChars_open (delim : Char) (rest cur : List Char) (out : List (List Char)) :
    splitChars delim (dquote :: rest) cur false out = splitChars delim rest cur true out := by
  cases rest with
  | nil => rw [splitChars_single]; simp
  | cons c2 r => rw [splitChars_cons_cons]; simp

/-- Inside quotes a quote that is not followed by a quote closes the quoted part. -/
theorem splitChars_close (delim : Char) (rest cur : List Char) (out : List (List Char))
    (h : rest.head? ≠ some dquote) :
    splitChars delim (dquote :: rest) cur true out = splitChars delim rest cur false out := by
  cases rest with
  | nil => rw [splitChars_single]; simp
  | cons c2 r =>
    have hc : c2 ≠ dquote := by simpa using h
    rw [splitChars_cons_cons]; simp [hc]

theorem splitChars_inside_run (delim : Char) (tl : List Char) (out : List (List Char)) :
    ∀ (f cur : List Char), dquote ∉ f →
      splitChars delim (f ++ tl) cur true out = splitChars delim tl (cur ++ f) true out := by
  intro f
  induction f with
  | nil => intro cur _; simp
  | cons c f ih =>
    intro cur h
    have hc : c ≠ dquote := fun e => h (by rw [e]; exact List.mem_cons_self _ _)
    have hf : dquote ∉ f := fun e => h (List.mem_cons_of_mem _ e)
    rw [List.cons_append, splitChars_inside delim c _ _ _ hc, ih _ hf]
    simp

theorem intercalate_single (sep x : List Char) : List.intercalate sep [x] = x := by
  simp [List.intercalate, List.intersperse]

theorem intercalate_cons_cons (sep x y : List Char) (l : List (List Char)) :
    List.intercalate sep (x :: y :: l) = x ++ (sep ++ List.intercalate sep (y :: l)) := by
  simp [List.intercalate, List.intersperse]

theorem intercalate_cons_ne (sep x : List Char) (l : List (List Char)) (h : l ≠ []) :
    List.intercalate sep (x :: l) = x ++ (sep ++ List.intercalate sep l) := by
  cases l with
  | nil => exact absurd rfl h
  | cons y l => exact intercalate_cons_cons sep x y l

theorem intercalate_cons (sep x : List Char) (l : List (List Char)) :
    List.intercalate sep (x :: l) = x ++ l.flatMap fun a => sep ++ a := by
  induction l generalizing x with
  | nil => simp [intercalate_single]
  | cons y l ih => rw [intercalate_cons_cons, ih]; simp

theorem intercalate_go_data (s : String) :
    ∀ (l : List String) (acc : String),
      (String.intercalate.go acc s l).data =
        acc.data ++ l.flatMap fun a => s.data ++ a.data := by
  intro l
  induction l with
  | nil => intro acc; simp [String.intercalate.go]
  | cons a l ih =>
    intro acc
    rw [String.intercalate.go, ih]
    simp [String.data_append, List.append_assoc]

/-- The characters of `String.intercalate` are the list join of the characters. -/
theorem intercalate_data (s : String) (l : List String) :
    (String.intercalate s l).data = List.intercalate s.data (l.map String.data) := by
  cases l with
  | nil => rfl
  | cons a l =>
    rw [String.intercalate, intercalate_go_data, List.map_cons, intercalate_cons]
    simp [List.flatMap_map]

/-- Quoted fields come back unchanged. -/
theorem splitChars_quoted (delim : Char) (hd : delim ≠ dquote) :
    ∀ (fs : List (List Char)) (out : List (List Char)), fs ≠ [] →
      (∀ f, f ∈ fs → dquote ∉ f) →
      splitChars delim
        (List.intercalate [delim] (fs.map fun f => dquote :: (f ++ [dquote]))) [] false out =
        out ++ fs := by
  intro fs
  induction fs with
  | nil => intro out h; exact absurd rfl h
  | cons f fs ih =>
    intro out _ hq
    have hf : dquote ∉ f := hq f (List.mem_cons_self _ _)
    cases fs with
    | nil =>
      rw [List.map_cons, List.map_nil, intercalate_single, splitChars_open,
        splitChars_inside_run delim _ _ _ _ hf, splitChars_close delim _ _ _ (by simp)]
      simp [splitChars]
    | cons g gs =>
      have hq' : ∀ f', f' ∈ g :: gs → dquote ∉ f' :=
        fun f' hf' => hq f' (List.mem_cons_of_mem _ hf')
      have e : List.intercalate [delim]
          ((f :: g :: gs).map fun f => dquote :: (f ++ [dquote])) =
          dquote :: (f ++ (dquote :: delim :: List.intercalate [delim]
            ((g :: gs).map fun f => dquote :: (f ++ [dquote])))) := by
        rw [List.map_cons, intercalate_cons_ne _ _ _ (by simp)]
        simp
      rw [e, splitChars_open, splitChars_inside_run delim _ _ _ _ hf,
        splitChars_close delim _ _ _ (by simpa using hd),
        splitChars_delim delim _ _ _ hd, ih _ (by simp) hq']
      simp

/-- A line without quotes is cut at its delimiters. -/
theorem splitChars_unquoted (delim : Char) :
    ∀ (l cur : List Char) (out : List (List Char)), dquote ∉ l →
      (splitChars delim l cur false out).length = out.length + l.count delim + 1 ∧
      ∃ pieces, pieces ≠ [] ∧ splitChars delim l cur false out = out ++ pieces ∧
        List.intercalate [delim] pieces = cur ++ l := by
  intro l
  induction l with
  | nil =>
    intro cur out _
    exact ⟨by simp [splitChars], [cur], by simp, rfl, by simp [intercalate_single]⟩
  | cons c l ih =>
    intro cur out h
    have hc : c ≠ dquote := fun e => h (by rw [e]; exact List.mem_cons_self _ _)
    have hl : dquote ∉ l := fun e => h (List.mem_cons_of_mem _ e)
    by_cases hcd : c = delim
    · subst hcd
      rw [splitChars_delim c _ _ _ hc]
      obtain ⟨hlen, pieces, hne, hp, hj⟩ := ih [] (out ++ [cur]) hl
      refine ⟨?_, cur :: pieces, by simp, ?_, ?_⟩
      · rw [hlen]; simp; omega
      · rw [hp]; simp
      · cases pieces with
        | nil => exact absurd rfl hne
        | cons p ps =>
          rw [intercalate_cons_cons, hj]
          simp
    · rw [splitChars_outside delim c _ _ _ hc hcd]
      obtain ⟨hlen, pieces, hne, hp, hj⟩ := ih (cur ++ [c]) out hl
      refine ⟨?_, pieces, hne, hp, ?_⟩
      · rw [hlen, List.count_cons_of_ne (Ne.symm hcd)]
      · rw [hj]; simp

/-- C26: round trip of `splitCSVLine` with the delimiter `,`.  For every
non-empty list of fields none of which contains a double quote, wrapping each
field in double quotes and joining the results with `,` gives a line that
`splitCSVLine` splits back into the original fields.  For every line without
a double quote, `splitCSVLine` returns (number of delimiters + 1) fields
whose join with `,` is the line. -/
theorem splitCSVLine_round_trip :
    (∀ fields : List String, fields ≠ [] → (∀ f, f ∈ fields → dquote ∉ f.data) →
      splitCSVLine (",".intercalate (fields.map fun f =>
        String.singleton dquote ++ f ++ String.singleton dquote)) comma = fields) ∧
    (∀ line : String, dquote ∉ line.data →
      (splitCSVLine line comma).length = line.data.count comma + 1 ∧
      ",".intercalate (splitCSVLine line comma) = line) := by
  have hcomma : ("," : String).data = [comma] := by decide
  have hd : comma ≠ dquote := by decide
  constructor
  · intro fields hne hq
    have hdata : (",".intercalate (fields.map fun f =>
        String.singleton dquote ++ f ++ String.singleton dquote)).data =
        List.intercalate [comma]
          ((fields.map String.data).map fun f => dquote :: (f ++ [dquote])) := by
      rw [intercalate_data, hcomma, List.map_map, List.map_map]
      congr 1
    unfold splitCSVLine
    rw [hdata, splitChars_quoted comma hd _ _ (by simpa using hne)
      (by
        intro f hf
        obtain ⟨g, hg, rfl⟩ := List.mem_map.mp hf
        exact hq g hg)]
    simp [List.map_map, Function.comp_def]
  · intro line hq
    obtain ⟨hlen, pieces, _, hp, hj⟩ := splitChars_unquoted comma line.data [] [] hq
    constructor
    · unfold splitCSVLine
      rw [List.length_map, hlen]
      simp
    · apply String.ext
      rw [intercalate_data, hcomma]
      unfold splitCSVLine
      rw [List.map_map, hp]
      simp only [List.nil_append] at hj ⊢
      have : (String.data ∘ String.mk) = id := by
        funext x; rfl
      rw [this, List.map_id, hj]

theorem splitCSVLine_round_trip_witness :
    splitCSVLine (",".intercalate (["H1,east", "", "40"].map fun f =>
        String.singleton dquote ++ f ++ String.singleton dquote)) comma =
      ["H1,east", "", "40"] ∧
    ((splitCSVLine "H1,,40" comma).length = ("H1,,40" : String).data.count comma + 1 ∧
      ",".intercalate (splitCSVLine "H1,,40" comma) = "H1,,40") :=
  ⟨splitCSVLine_round_trip.1 ["H1,east", "", "40"] (by decide) (by decide),
    splitCSVLine_round_trip.2 "H1,,40" (by decide)⟩

end Second
